import Mathlib

/-!
Fuel (Fossil GUI front-end): directory tree, file view and selection queries.

A shallow embedding of the parts of `src/src/MainWindow.cpp` that build the
folder tree (`addPathToTree`, `MainWindow::updateDirView`), fill the file table
(`MainWindow::updateFileView`) and answer the selection queries
(`getAllFilenames`, `getSelectionPaths`, `getDirViewSelection`,
`getFileViewSelection`, `getSelectionFilenames`), together with the handler
`onWorkspaceTreeViewSelectionChanged`.

Conventions of the embedding:

* `QString` is a list of characters, `QStringList` a list of strings;
* `stringset_t` (a set of strings) is the list of its elements in iteration
  order, `insert` adding an element only when it is absent;
* `Workspace::filemap_t` (a `QMap` from `QString` to `WorkspaceFile*`) is the
  list of its (key, value) entries in iteration order;
* a `QStandardItem` of the folder tree is a node carrying its text, its path
  data (role `REPODIRMODEL_ROLE_PATH`) and the ordered list of its child rows;
* an output parameter `QStringList &filenames` is an argument and the result;
* a failed `Q_ASSERT` is the result `none`.
-/

namespace Fuel

/-! ## Strings -/

/-- A `QString`, as the list of its characters. -/
abbrev QString := List Char

/-- A `QStringList`. -/
abbrev QStringList := List QString

/-- The type `stringset_t`: the elements of the set in iteration order. -/
abbrev stringset_t := List QString

/-- The call `set.insert(x)` on a `stringset_t`: nothing changes when `x` is
already an element. -/
def stringset_t.insert (s : stringset_t) (x : QString) : stringset_t :=
  if x ∈ s then s else s ++ [x]

/-- The call `s.startsWith(sub)`: `sub` occurs in `s` at position 0. -/
def startsWith : QString → QString → Bool
  | _, [] => true
  | [], _ :: _ => false
  | c :: s, d :: sub => c == d && startsWith s sub

/-- Search of `QString::indexOf`: the first position at or after the current
one (numbered `i`) where `sub` occurs in `s`, or `-1`. -/
def indexOfFrom : QString → QString → Nat → Int
  | [], sub, i => if sub.isEmpty then (i : Int) else -1
  | c :: s, sub, i => if startsWith (c :: s) sub then (i : Int) else indexOfFrom s sub (i + 1)

/-- The call `s.indexOf(sub)`: position of the first occurrence of `sub` in
`s`, or `-1` when there is none. -/
def indexOf (s sub : QString) : Int := indexOfFrom s sub 0

/-- The call `path.split(sep)` (empty parts are kept, so the result is never
empty: the empty string splits into one empty part). -/
def split (sep : Char) : QString → QStringList
  | [] => [[]]
  | c :: cs =>
    if c = sep then [] :: split sep cs
    else
      match split sep cs with
      | [] => [[c]]
      | w :: ws => (c :: w) :: ws

/-- The test `QChar::isSpace()`: the characters tab to carriage return, the
space, and the space characters outside ASCII. -/
def isSpace (c : Char) : Bool :=
  (decide (9 ≤ c.toNat) && decide (c.toNat ≤ 13)) || c.toNat == 32 || c.toNat == 0x85 ||
    c.toNat == 0xA0 || c.toNat == 0x1680 ||
    (decide (0x2000 ≤ c.toNat) && decide (c.toNat ≤ 0x200A)) ||
    c.toNat == 0x2028 || c.toNat == 0x2029 || c.toNat == 0x202F || c.toNat == 0x205F ||
    c.toNat == 0x3000

/-- The call `s.trimmed()`: `s` without the white space at its start and at
its end. -/
def trimmed (s : QString) : QString :=
  ((s.dropWhile isSpace).reverse.dropWhile isSpace).reverse

/-- Search of `QString::lastIndexOf`: `best` is the last position before the
current one (numbered `i`) where `sub` occurs, or `-1`. -/
def lastIndexOfFrom : QString → QString → Nat → Int → Int
  | [], sub, i, best => if sub.isEmpty then (i : Int) else best
  | c :: s, sub, i, best =>
    lastIndexOfFrom s sub (i + 1) (if startsWith (c :: s) sub then (i : Int) else best)

/-- The call `s.lastIndexOf(sub)`: position of the last occurrence of `sub` in
`s`, or `-1` when there is none. -/
def lastIndexOf (s sub : QString) : Int := lastIndexOfFrom s sub 0 (-1)

/-- The call `s.left(n)`: the first `n` characters; the whole string when `n`
is negative or not less than the length. -/
def left (s : QString) (n : Int) : QString :=
  if n < 0 ∨ (s.length : Int) ≤ n then s else s.take n.toNat

/-- The call `s.right(n)`: the last `n` characters; the whole string when `n`
is negative or not less than the length. -/
def right (s : QString) (n : Int) : QString :=
  if n < 0 ∨ (s.length : Int) ≤ n then s else s.drop (s.length - n.toNat)

/-- The call `s.mid(position)`: the characters from `position` on (none when
`position` is past the end, all when it is negative). -/
def mid (s : QString) (position : Int) : QString :=
  if position < 0 then s else s.drop position.toNat

/-- The call `s.mid(position, n)` for a position that is not negative: at most
`n` characters from `position` on, all of them when `n` is negative. -/
def midN (s : QString) (position n : Int) : QString :=
  if n < 0 then mid s position else (mid s position).take n.toNat

/-! ## The folder tree (`QStandardItemModel` of `workspaceTreeView`) -/

/-- A `QStandardItem` of the directory model: its text (the folder name), its
data (the full path kept by `setData`) and its child rows in row order. -/
inductive QStandardItem where
  | mk (text : QString) (data : QString) (children : List QStandardItem)

namespace QStandardItem

/-- The call `item->text()`. -/
def text : QStandardItem → QString
  | mk t _ _ => t

/-- The call `item->data()` (role `REPODIRMODEL_ROLE_PATH`). -/
def data : QStandardItem → QString
  | mk _ d _ => d

/-- The child rows of an item. -/
def children : QStandardItem → List QStandardItem
  | mk _ _ ch => ch

/-- The call `item->rowCount()`. -/
def rowCount (item : QStandardItem) : Nat := item.children.length

end QStandardItem

/-- What `addPathToTree` does from the first segment that is not found on: the
new item `dir` (with data `fullpath`) becomes the parent, it has no rows, so
each remaining segment is not found either and is appended below the previous
one, `fullpath` growing by `'/'` and the segment each time. -/
def newChain (dir : QString) (rest : QStringList) (fullpath : QString) : QStandardItem :=
  match rest with
  | [] => .mk dir fullpath []
  | d :: ds => .mk dir fullpath [newChain d ds (fullpath ++ ['/'] ++ d)]

mutual
/-- The outer loop of `addPathToTree` from the point where `parent` is the
current item, `dirs` are the segments still to be processed and `fullpath` is
the accumulated text (the earlier segments, each followed by `'/'`). The
result is `parent` after the call (the items are updated in place in the
source). For a segment `dir`, `fullpath += dir`, the rows of `parent` are
scanned from `r = 0`, and when nothing is found a new child is appended. -/
def addDirs (parent : QStandardItem) (dirs : QStringList) (fullpath : QString) :
    QStandardItem :=
  match parent, dirs with
  | p, [] => p
  | .mk t d ch, dir :: rest =>
    match findChild ch 0 0 dir rest (fullpath ++ dir) with
    | some ch2 => .mk t d ch2
    | none => .mk t d (ch ++ [newChain dir rest (fullpath ++ dir)])
/-- The inner loop `for(r=0; r<parent->rowCount(); ++r)` of `addPathToTree`.
`rows` are rows of the current `parent`: the first `skip` of them lie before
row `r` and are passed over, the one after them is `parent->child(r, 0)`. When
`child->text() == dir` the loop does not stop: `parent = child; found = true`
and the scan goes on with `r + 1` in the rows of that child (the rows of the
former parent are no longer looked at). The result is `none` when the loop ends
with `found == false`; otherwise it is the rows after the whole call, the
remaining segments `rest` having been processed below the last item found
(where `fullpath`, which already ends in `dir`, gets its `'/'`). -/
def findChild (rows : List QStandardItem) (skip r : Nat) (dir : QString)
    (rest : QStringList) (fullpath : QString) : Option (List QStandardItem) :=
  match rows, skip with
  | [], _ => none
  | c :: cs, s + 1 => (findChild cs s r dir rest fullpath).map (fun cs2 => c :: cs2)
  | (.mk t d ch) :: cs, 0 =>
    if t = dir then
      match findChild ch (r + 1) (r + 1) dir rest fullpath with
      | some ch2 => some (.mk t d ch2 :: cs)
      | none => some (addDirs (.mk t d ch) rest (fullpath ++ ['/']) :: cs)
    else (findChild cs 0 (r + 1) dir rest fullpath).map (fun cs2 => .mk t d ch :: cs2)
end

/-- The function `addPathToTree(root, path)`: `root` after the call. -/
def addPathToTree (root : QStandardItem) (path : QString) : QStandardItem :=
  addDirs root (split '/' path) []

/-- The loop of `MainWindow::updateDirView` over `getWorkspace().getPaths()`:
empty paths are skipped, every other one is added below `root`. -/
def addPaths (root : QStandardItem) : List QString → QStandardItem
  | [] => root
  | dir :: rest =>
    if dir.isEmpty then addPaths root rest
    else addPaths (addPathToTree root dir) rest

/-- The function `MainWindow::updateDirView`: the rows of the directory model
after the call. The model is cleared and gets one top-level row, the root item
(text: the project name, data: the empty path), below which the paths of the
workspace are added in the iteration order `paths` of the set. The final
`sortByColumn` of the view reorders sibling rows only and is left out. -/
def updateDirView (projectName : QString) (paths : stringset_t) : List QStandardItem :=
  [addPaths (.mk projectName [] []) paths]

mutual
/-- All items of a subtree, each as the pair of its text and its data. -/
def nodesOf : QStandardItem → List (QString × QString)
  | .mk t d ch => (t, d) :: nodesOfList ch
/-- The items of a list of subtrees. -/
def nodesOfList : List QStandardItem → List (QString × QString)
  | [] => []
  | c :: cs => nodesOf c ++ nodesOfList cs
end

mutual
/-- The parent/child relation of a subtree: one entry per item below the top,
made of the data of its parent, its own text and its own data. -/
def edgesOf : QStandardItem → List (QString × QString × QString)
  | .mk _ d ch => edgesBelow d ch
/-- The entries of the rows `rows` of an item whose data is `pdata`. -/
def edgesBelow (pdata : QString) : List QStandardItem → List (QString × QString × QString)
  | [] => []
  | c :: cs => (pdata, c.text, c.data) :: (edgesOf c ++ edgesBelow pdata cs)
end

/-- The item of the directory model that a `QModelIndex` of the tree view
points to; the index is the list of row numbers leading to it from the top
level of the model (the index of the root item is `[0]`). An index that leads
nowhere is invalid. -/
def itemAt : List QStandardItem → List Nat → Option QStandardItem
  | _, [] => none
  | rows, [i] => rows.get? i
  | rows, i :: j :: rest =>
    match rows.get? i with
    | none => none
    | some item => itemAt item.children (j :: rest)

/-- The call `getDirModel().data(index, REPODIRMODEL_ROLE_PATH).toString()`:
the path kept in the item, the empty string for an invalid index. -/
def dirModelData (dirModel : List QStandardItem) (index : List Nat) : QString :=
  match itemAt dirModel index with
  | some item => item.data
  | none => []

mutual
/-- Whether in the subtree of an item no item has two child rows with the
same text. -/
def siblingsDistinct : QStandardItem → Bool
  | .mk _ _ ch => decide ((ch.map QStandardItem.text).Nodup) && siblingsDistinctList ch
/-- Whether `siblingsDistinct` holds for every item of a list. -/
def siblingsDistinctList : List QStandardItem → Bool
  | [] => true
  | c :: cs => siblingsDistinct c && siblingsDistinctList cs
end

/-- The strings of a list joined with `'/'` (no separator at the end). -/
def joinPath : QStringList → QString
  | [] => []
  | [s] => s
  | s :: t :: rest => s ++ '/' :: joinPath (t :: rest)

mutual
/-- For every item of a subtree reached from the root over the items named
`route`: the names on the way from the child of the root down to the item,
joined with `'/'`, paired with the data of the item. -/
def routesOf (route : QStringList) : QStandardItem → List (QString × QString)
  | .mk t d ch => (joinPath (route ++ [t]), d) :: routesBelow (route ++ [t]) ch
/-- The pairs of `routesOf` for the rows of an item reached over `route`. -/
def routesBelow (route : QStringList) : List QStandardItem → List (QString × QString)
  | [] => []
  | c :: cs => routesOf route c ++ routesBelow route cs
end

/-- The rows of a single chain of folders: one item for the first segment,
whose data is `fullpath` followed by the segment, and below it the chain of
the remaining segments (`fullpath` now ending in this segment and `'/'`). -/
def chainRows : QStringList → QString → List QStandardItem
  | [], _ => []
  | s :: rest, fullpath => [.mk s (fullpath ++ s) (chainRows rest (fullpath ++ s ++ ['/']))]

/-! ## Workspace files and the file table -/

/-- The two view modes of the main window. -/
inductive ViewMode where
  | VIEWMODE_LIST
  | VIEWMODE_TREE
  deriving DecidableEq

/-- What `updateFileView` reads from the `QFileInfo` of a file: `suffix()` and
the text of `lastModified()`. -/
structure QFileInfo where
  suffix : QString
  lastModified : QString
  deriving DecidableEq

/-- A `WorkspaceFile`, as the values of its accessors. `getType` is one of the
bit values of `WorkspaceFile::Type`; `getFilePath` is the path of the file
relative to the workspace, `getPath` its directory part and `getFilename` its
base name. The class is declared in `Workspace.h`. -/
structure WorkspaceFile where
  getType : Nat
  getFilePath : QString
  getPath : QString
  getFilename : QString
  getFileInfo : QFileInfo
  deriving DecidableEq

/-- The type `Workspace::filemap_t`, a `QMap<QString, WorkspaceFile*>`: its
entries in iteration order. -/
abbrev filemap_t := List (QString × WorkspaceFile)

/-- The type `stashmap_t` of `Bridge.h`, a `QMap<QString, QString>` from the
name of a stash to its id: the entries in iteration order. -/
abbrev stashmap_t := List (QString × QString)

/-- The call `files.find(key)`: the value stored under `key`, `none` standing
for the iterator `end()`. -/
def filemap_t.find : filemap_t → QString → Option WorkspaceFile
  | [], _ => none
  | (k, e) :: rest, key => if k = key then some e else filemap_t.find rest key

/-- Invariant of the file collection: as in every `QMap` the keys are pairwise
different, and each record is stored under its own `getFilePath()` (the key
under which `getFileViewSelection` looks a record up again). -/
def KeyedByFilePath (files : filemap_t) : Prop :=
  (files.map Prod.fst).Nodup ∧ ∀ kv ∈ files, kv.1 = kv.2.getFilePath

instance (files : filemap_t) : Decidable (KeyedByFilePath files) := by
  unfold KeyedByFilePath
  exact inferInstance

/-- What the code takes from outside `MainWindow.cpp`: the values of the
`WorkspaceFile::Type` enumerators used by the status table and of the mask
`TYPE_MODIFIED` (declared in `Workspace.h`), and the platform function
`QDir::toNativeSeparators`. -/
structure Env where
  TYPE_EDITTED : Nat
  TYPE_UNCHANGED : Nat
  TYPE_ADDED : Nat
  TYPE_DELETED : Nat
  TYPE_RENAMED : Nat
  TYPE_MISSING : Nat
  TYPE_CONFLICTED : Nat
  TYPE_MODIFIED : Nat
  toNativeSeparators : QString → QString

/-- Column numbers of the file table. -/
def COLUMN_STATUS : Nat := 0

/-- Column of the file name. -/
def COLUMN_FILENAME : Nat := 1

/-- Column of the extension. -/
def COLUMN_EXTENSION : Nat := 2

/-- Column of the modification time. -/
def COLUMN_MODIFIED : Nat := 3

/-- Column of the directory path. -/
def COLUMN_PATH : Nat := 4

/-- The table `stats` of `updateFileView` (type and status text; the icons
are left out). -/
def stats (env : Env) : List (Nat × QString) :=
  [ (env.TYPE_EDITTED, "Edited".toList),
    (env.TYPE_UNCHANGED, "Unchanged".toList),
    (env.TYPE_ADDED, "Added".toList),
    (env.TYPE_DELETED, "Deleted".toList),
    (env.TYPE_RENAMED, "Renamed".toList),
    (env.TYPE_MISSING, "Missing".toList),
    (env.TYPE_CONFLICTED, "Conflicted".toList) ]

/-- The loop over `stats` in `updateFileView`: the text of the first entry
with the type of the file, and `"Unknown"` when there is none. -/
def statusText : List (Nat × QString) → Nat → QString
  | [], _ => "Unknown".toList
  | (t, text) :: rest, type => if type = t then text else statusText rest type

/-- One row of the file table: the texts of the five columns and the data
(role `Qt::UserRole+1`) of the file-name item. -/
structure FileRow where
  status : QString
  filename : QString
  filenameData : QString
  extension : QString
  modified : QString
  path : QString
  deriving DecidableEq

/-- The row that `updateFileView` makes for the record `e`. -/
def fileRow (env : Env) (display_path : Bool) (e : WorkspaceFile) : FileRow :=
  { status := statusText (stats env) e.getType
    filename := if display_path then env.toNativeSeparators e.getFilePath else e.getFilename
    filenameData := e.getFilePath
    extension := e.getFileInfo.suffix
    modified := e.getFileInfo.lastModified
    path := e.getPath }

/-- The loop of `updateFileView` over `getWorkspace().getFiles()`: the rows
set, in order (the row number `item_id` of a row is its position). -/
def fileViewRows (env : Env) (viewMode : ViewMode) (selectedDirs : stringset_t)
    (display_path : Bool) : filemap_t → List FileRow
  | [] => []
  | (_, e) :: rest =>
    if viewMode = ViewMode.VIEWMODE_TREE ∧ ¬ (e.getPath ∈ selectedDirs) then
      fileViewRows env viewMode selectedDirs display_path rest
    else
      fileRow env display_path e :: fileViewRows env viewMode selectedDirs display_path rest

/-! ## The main window -/

/-- The state of the main window that the modelled functions read and write:
the view mode, the set `selectedDirs`, the file collection of the workspace,
the rows of the file model, the top-level rows of the directory model, the
selected indexes of the tree view (each the list of row numbers from the top
level) and of the file table (row and column of each selected cell, in the
order of `selectedIndexes()`), and whether the tree view has the focus;
further the set of folder paths and the stash mapping of the workspace, the
rows of the stash model, the message of the status bar, whether the actions
are enabled, and the window title; finally the current workspace directory of
the bridge, the selected cells of the stash table and the commit messages
kept in the settings. -/
structure MainWindow where
  viewMode : ViewMode
  selectedDirs : stringset_t
  files : filemap_t
  fileModel : List FileRow
  dirModel : List QStandardItem
  treeSelection : List (List Nat)
  fileSelection : List (Nat × Nat)
  treeFocus : Bool
  paths : stringset_t := []
  stashes : stashmap_t := []
  stashModel : List QString := []
  statusBar : QString := []
  actionsEnabled : Bool := true
  windowTitle : QString := []
  currentWorkspace : QString := []
  stashSelection : List (Nat × Nat) := []
  commitMsgs : QStringList := []

namespace MainWindow

/-- The function `MainWindow::updateFileView`: the rows of the file model are
removed and set again from the file collection; with the rows gone, no cell of
the file table is selected any more. -/
def updateFileView (env : Env) (w : MainWindow) : MainWindow :=
  let display_path : Bool :=
    decide (w.viewMode = ViewMode.VIEWMODE_LIST) || decide (w.selectedDirs.length > 1)
  { w with
    fileModel := fileViewRows env w.viewMode w.selectedDirs display_path w.files
    fileSelection := [] }

/-- The function `MainWindow::getSelectionPaths(paths)`: `paths` after the
call, the path of every selected tree item having been inserted. -/
def getSelectionPaths (w : MainWindow) (paths : stringset_t) : stringset_t :=
  w.treeSelection.foldl (fun acc mi => stringset_t.insert acc (dirModelData w.dirModel mi)) paths

/-- The function `MainWindow::getAllFilenames(filenames, includeMask)`:
`filenames` after the call. -/
def getAllFilenames (w : MainWindow) (filenames : QStringList) (includeMask : Nat) :
    QStringList :=
  w.files.foldl
    (fun acc kv => if includeMask &&& kv.2.getType = 0 then acc else acc ++ [kv.2.getFilePath])
    filenames

/-- The loop over `paths` in `getDirViewSelection` for a file in directory
`ePath`: whether it ends by `include = true; break`. -/
def pathMatches (ePath : QString) : List QString → Bool
  | [] => false
  | path :: rest =>
    if path.isEmpty || decide (indexOf ePath path = 0) then true else pathMatches ePath rest

/-- The set `paths` at the start of `getDirViewSelection`: it is filled by
`getSelectionPaths` unless the tree selection is empty and `allIfEmpty` is
set, in which case it stays empty. -/
def dirViewPaths (w : MainWindow) (allIfEmpty : Bool) : stringset_t :=
  if !(w.treeSelection.isEmpty && allIfEmpty) then w.getSelectionPaths [] else []

/-- The function `MainWindow::getDirViewSelection(filenames, includeMask,
allIfEmpty)`: `filenames` after the call. -/
def getDirViewSelection (w : MainWindow) (filenames : QStringList) (includeMask : Nat)
    (allIfEmpty : Bool) : QStringList :=
  let paths : stringset_t := w.dirViewPaths allIfEmpty
  w.files.foldl
    (fun acc kv =>
      if includeMask &&& kv.2.getType = 0 then acc
      else
        let included : Bool := if !paths.isEmpty then false else true
        let included : Bool := if pathMatches kv.2.getPath paths then true else included
        if !included then acc else acc ++ [kv.2.getFilePath])
    filenames

/-- The cells of row `r` of the file table. -/
def rowCells (r : Nat) : List (Nat × Nat) :=
  [(r, COLUMN_STATUS), (r, COLUMN_FILENAME), (r, COLUMN_EXTENSION), (r, COLUMN_MODIFIED),
    (r, COLUMN_PATH)]

/-- The selected indexes after `fileTableView->selectAll()`: every cell of
every row, the rows numbered from `r` on. (Only the cells of the file-name
column are used, and they come in row order.) -/
def allCells : List FileRow → Nat → List (Nat × Nat)
  | [], _ => []
  | _ :: rest, r => rowCells r ++ allCells rest (r + 1)

/-- The call `getFileModel().data(mi, Qt::UserRole+1).toString()`: the path
kept in a file-name item, the empty string for any other index. -/
def fileModelData (rows : List FileRow) (mi : Nat × Nat) : QString :=
  if mi.2 = COLUMN_FILENAME then
    match rows.get? mi.1 with
    | some row => row.filenameData
    | none => []
  else []

/-- The loop of `getFileViewSelection` over the selected indexes: `filenames`
after the loop, or `none` when `Q_ASSERT(e_it != end())` fails. -/
def fileSelectionLoop (files : filemap_t) (rows : List FileRow) (includeMask : Nat) :
    List (Nat × Nat) → QStringList → Option QStringList
  | [], filenames => some filenames
  | mi :: rest, filenames =>
    if mi.2 ≠ COLUMN_FILENAME then fileSelectionLoop files rows includeMask rest filenames
    else
      let filename := fileModelData rows mi
      match filemap_t.find files filename with
      | none => none
      | some e =>
        if includeMask &&& e.getType = 0 then
          fileSelectionLoop files rows includeMask rest filenames
        else fileSelectionLoop files rows includeMask rest (filenames ++ [filename])

/-- The function `MainWindow::getFileViewSelection(filenames, includeMask,
allIfEmpty)`: `filenames` after the call, or `none` when the assertion fails.
The selection of the table is the same before and after the call. -/
def getFileViewSelection (w : MainWindow) (filenames : QStringList) (includeMask : Nat)
    (allIfEmpty : Bool) : Option QStringList :=
  let selection : List (Nat × Nat) :=
    if w.fileSelection.isEmpty && allIfEmpty then allCells w.fileModel 0 else w.fileSelection
  fileSelectionLoop w.files w.fileModel includeMask selection filenames

/-- The function `MainWindow::getSelectionFilenames(filenames, includeMask,
allIfEmpty)`. -/
def getSelectionFilenames (w : MainWindow) (filenames : QStringList) (includeMask : Nat)
    (allIfEmpty : Bool) : Option QStringList :=
  if w.treeFocus then some (w.getDirViewSelection filenames includeMask allIfEmpty)
  else w.getFileViewSelection filenames includeMask allIfEmpty

/-- The slot `MainWindow::onWorkspaceTreeViewSelectionChanged`, run when the
selection of the tree view has become `w.treeSelection`. -/
def onWorkspaceTreeViewSelectionChanged (env : Env) (w : MainWindow) : MainWindow :=
  let num_selected := w.treeSelection.length
  if num_selected = 0 then w
  else
    let cleared : MainWindow := { w with selectedDirs := [] }
    let filled : MainWindow :=
      { cleared with
        selectedDirs :=
          w.treeSelection.foldl
            (fun acc index => stringset_t.insert acc (dirModelData w.dirModel index))
            cleared.selectedDirs }
    filled.updateFileView env

end MainWindow


/-! ## Refresh and the new-stash action -/

/-- The enumeration `RepoStatus` of `Bridge.h`. -/
inductive RepoStatus where
  | REPO_OK
  | REPO_NOT_FOUND
  | REPO_OLD_SCHEMA
  deriving DecidableEq

/-- What a refresh obtains from outside `MainWindow.cpp`: the results of
`fossil().getRepoStatus()` and `fossil().getProjectName()`, and the file
collection, the folder paths and the stash mapping that the workspace holds
after `Workspace::scanWorkspace` (`Workspace.cpp` is not among the sources). -/
structure Fossil where
  getRepoStatus : RepoStatus
  getProjectName : QString
  scannedFiles : filemap_t
  scannedPaths : stringset_t
  scannedStashes : stashmap_t

/-- The calls that leave the modelled state, in the order in which they are
made: `Bridge::getRepoStatus`, `MainWindow::loadFossilSettings` (it writes to
the settings object only), `Workspace::scanWorkspace`, `Bridge::stashNew` with
its arguments, `QMessageBox::critical` with its message, the further calls of
the bridge (`commitFiles`, `addFiles`, `renameFile`, `stashApply`,
`stashDrop`), the changes of the file system (`QDir::mkpath`, `QFile::copy`,
`QFile::remove`) and `MainWindow::openWorkspace`, each with its arguments. -/
inductive Call where
  | getRepoStatus
  | loadFossilSettings
  | scanWorkspace
  | stashNew (fileList : QStringList) (name : QString) (revert : Bool)
  | critical (text : QString)
  | commitFiles (fileList : QStringList) (comment : QString)
  | addFiles (fileList : QStringList)
  | renameFile (beforePath afterPath : QString) (renameLocal : Bool)
  | stashApply (name : QString)
  | stashDrop (name : QString)
  | mkpath (dirPath : QString)
  | copy (fileName newName : QString)
  | remove (fileName : QString)
  | openWorkspace (path : QString)
  deriving DecidableEq

/-- What `CommitDialog::run` gives back: its return value, the list of files
and the text as the user left them, and the state of the check box. -/
structure CommitDialogResult where
  accepted : Bool
  files : QStringList
  message : QString
  checked : Bool

namespace MainWindow

/-- The function `MainWindow::updateDirView` on the state of the window: the
directory model is cleared (so no tree item is selected any more) and built
again from the paths of the workspace. -/
def updateDirView (fossil : Fossil) (w : MainWindow) : MainWindow :=
  { w with
    dirModel := Fuel.updateDirView fossil.getProjectName w.paths
    treeSelection := [] }

/-- The function `MainWindow::updateStashView`: the stash model gets one row
per stash, showing its name. -/
def updateStashView (w : MainWindow) : MainWindow :=
  { w with stashModel := w.stashes.map Prod.fst }

/-- The function `MainWindow::scanWorkspace`: the workspace is scanned, the
three views are filled again and the status message is emptied (the busy
indicator is set and reset around it). -/
def scanWorkspace (env : Env) (fossil : Fossil) (w : MainWindow) : MainWindow :=
  let scanned : MainWindow :=
    { w with
      files := fossil.scannedFiles
      paths := fossil.scannedPaths
      stashes := fossil.scannedStashes }
  let shown : MainWindow := ((scanned.updateDirView fossil).updateFileView env).updateStashView
  { shown with statusBar := [] }

/-- The function `MainWindow::refresh`: its return value, the state after the
call and the calls made. -/
def refresh (env : Env) (fossil : Fossil) (w : MainWindow) : Bool × MainWindow × List Call :=
  let title : QString := "Fuel".toList
  let st := fossil.getRepoStatus
  if st = RepoStatus.REPO_NOT_FOUND then
    (false,
      { w with
        statusBar := "No workspace detected.".toList
        actionsEnabled := false
        fileModel := []
        fileSelection := []
        dirModel := []
        treeSelection := []
        windowTitle := title },
      [Call.getRepoStatus])
  else if st = RepoStatus.REPO_OLD_SCHEMA then
    (true,
      { w with
        statusBar := "Old repository schema detected. Consider running 'fossil rebuild'".toList
        actionsEnabled := false
        fileModel := []
        fileSelection := []
        dirModel := []
        treeSelection := []
        windowTitle := title },
      [Call.getRepoStatus])
  else
    let scanned := w.scanWorkspace env fossil
    let title : QString :=
      if !fossil.getProjectName.isEmpty then title ++ " - ".toList ++ fossil.getProjectName
      else title
    (true,
      { scanned with
        statusBar := []
        actionsEnabled := true
        windowTitle := title },
      [Call.getRepoStatus, Call.loadFossilSettings, Call.scanWorkspace])

/-- The slot `MainWindow::on_actionNewStash_triggered`: the state after the
call and the calls made, or `none` when the assertion of
`getFileViewSelection` fails. `dialog` is what `CommitDialog::run` gives back
for the files offered, and `fossil` is what the final `refresh` obtains. -/
def on_actionNewStash_triggered (env : Env) (fossil : Fossil)
    (dialog : QStringList → CommitDialogResult) (w : MainWindow) :
    Option (MainWindow × List Call) :=
  match w.getSelectionFilenames [] env.TYPE_MODIFIED true with
  | none => none
  | some stashed_files =>
    if stashed_files.isEmpty then some (w, [])
    else
      let ran := dialog stashed_files
      if !ran.accepted || ran.files.isEmpty then some (w, [])
      else
        let stash_name := trimmed ran.message
        if decide (indexOf stash_name [Char.ofNat 34] ≠ -1) || stash_name.isEmpty then
          some (w, [Call.critical "Invalid stash name".toList])
        else if w.stashes.any (fun entry => stash_name == entry.1) then
          some (w, [Call.critical "This stash already exists".toList])
        else
          let refreshed := w.refresh env fossil
          some (refreshed.2.1, Call.stashNew ran.files stash_name ran.checked :: refreshed.2.2)

end MainWindow

/-! ## The file collection of the workspace -/

/-- The order of the keys of a `QMap<QString, ...>` (`operator<` of `QString`):
the strings are compared character by character, a proper beginning of a
string coming before the string. -/
def qstringLess : QString → QString → Bool
  | _, [] => false
  | [], _ :: _ => true
  | c :: s, d :: t => if c = d then qstringLess s t else decide (c < d)

/-- The call `files.insert(key, e)` of `QMap`: the value of an existing key is
replaced, a new key is put at its place in the ascending order of the keys. -/
def filemap_t.insert : filemap_t → QString → WorkspaceFile → filemap_t
  | [], key, e => [(key, e)]
  | (k, v) :: rest, key, e =>
    if key = k then (key, e) :: rest
    else if qstringLess key k then (key, e) :: (k, v) :: rest
    else (k, v) :: filemap_t.insert rest key e

/-- Modelled from the spec: how `Workspace::scanWorkspace` (`Workspace.cpp`,
which is not among the sources) puts one record into the file collection.
The `fullPath` of a record (`getFilePath()`) is its identity key and governs
map identity: the record is stored under it, and of two records with the same
`fullPath` only one stays in the collection, `keepOld` telling whether it is
the one stored before. -/
def storeFile (keepOld : WorkspaceFile → WorkspaceFile → Bool) (files : filemap_t)
    (e : WorkspaceFile) : filemap_t :=
  match filemap_t.find files e.getFilePath with
  | some old => if keepOld old e then files else filemap_t.insert files e.getFilePath e
  | none => filemap_t.insert files e.getFilePath e

/-- Modelled from the spec: the file collection that `Workspace::scanWorkspace`
(`Workspace.cpp`, which is not among the sources) builds when the scan yields
`records` in this order: it starts empty and every record is stored under its
`fullPath`. -/
def scanFiles (keepOld : WorkspaceFile → WorkspaceFile → Bool)
    (records : List WorkspaceFile) : filemap_t :=
  records.foldl (storeFile keepOld) []

/-- The keys of the collection ascend strictly in iteration order. -/
def SortedKeys (files : filemap_t) : Prop :=
  (files.map Prod.fst).Pairwise (fun a b => qstringLess a b = true)

/-! ## Maps of the bridge and of the scan -/

/-- The call `map.insert(key, value)` of a `QMap` with `QString` keys, for any
type of values: the value of an existing key is replaced, a new key is put at
its place in the ascending order of the keys. -/
def QMap.insert {β : Type} : List (QString × β) → QString → β → List (QString × β)
  | [], key, v => [(key, v)]
  | (k, x) :: rest, key, v =>
    if key = k then (key, v) :: rest
    else if qstringLess key k then (key, v) :: (k, x) :: rest
    else (k, x) :: QMap.insert rest key v

/-- The call `map.find(key)` of a `QMap` with `QString` keys: the value stored
under `key`, `none` standing for the iterator `end()`. -/
def QMap.find {β : Type} : List (QString × β) → QString → Option β
  | [], _ => none
  | (k, x) :: rest, key => if k = key then some x else QMap.find rest key

/-- Modelled from the spec: `Bridge::stashList(stashes)` (declared in
`Bridge.h`; its body, in `Bridge.cpp`, is not among the sources), which
refreshes the stash mapping from the pairs of name and id reported by fossil,
in the order reported. The mapping is emptied and every pair is inserted, a
name that is already present getting the new id (last wins). -/
def stashList (reported : List (QString × QString)) : stashmap_t :=
  reported.foldl (fun stashes pair => QMap.insert stashes pair.1 pair.2) []

/-- Modelled from the spec: the classification `type` of a status record
(section 3 of the spec). -/
inductive StatusType where
  | Edited
  | Unchanged
  | Added
  | Deleted
  | Renamed
  | Missing
  | Conflicted
  | Unknown
  | Ignored
  deriving DecidableEq

/-- Modelled from the spec: the rank of a type in the priority order
`Conflicted > Renamed > Deleted > Added > Edited > Missing > Unchanged >
Unknown > Ignored` of section 4.1 (a higher number is more specific). -/
def StatusType.priority : StatusType → Nat
  | Conflicted => 8
  | Renamed => 7
  | Deleted => 6
  | Added => 5
  | Edited => 4
  | Missing => 3
  | Unchanged => 2
  | Unknown => 1
  | Ignored => 0

/-- Modelled from the spec: the rule of `Workspace::scanWorkspace`
(`Workspace.cpp`, which is not among the sources) for two status lines with
the same path: the most specific type is kept. `classify` gives the
classification that a value of `getType()` stands for (the enumerators are
declared in `Workspace.h`); the record stored before stays unless the new one
has a higher priority. -/
def keepMoreSpecific (classify : Nat → StatusType) (old new : WorkspaceFile) : Bool :=
  decide ((classify new.getType).priority ≤ (classify old.getType).priority)

/-! ## The fossil settings -/

/-- The body of the loop of `MakeKeyValues` for one line: the key and the
value that are inserted. -/
def lineKeyValue (line : QString) : QString × QString :=
  let l := trimmed line
  let index := indexOf l [Char.ofNat 32]
  if index ≠ -1 then (trimmed (left l index), trimmed (mid l index)) else (l, [])

/-- The function `MakeKeyValues(lines)`; a `QStringMap` is the list of its
entries in iteration order. -/
def MakeKeyValues (lines : QStringList) : List (QString × QString) :=
  lines.foldl (fun res l => QMap.insert res (lineKeyValue l).1 (lineKeyValue l).2) []

/-- The kinds of settings (`Settings::Setting::SettingType`, declared in
`Settings.h`): the two kinds named in `MainWindow.cpp` and any other one. -/
inductive SettingType where
  | TYPE_FOSSIL_GLOBAL
  | TYPE_FOSSIL_LOCAL
  | TYPE_OTHER
  deriving DecidableEq

/-- A `Settings::Setting`: its member `Value` and its member `Type` (here
`type`). -/
structure Setting where
  Value : QString
  type : SettingType
  deriving DecidableEq

/-- What `loadFossilSettings` takes from outside `MainWindow.cpp`: the lines
given by `fossil().getFossilSettings(out)` (`none` when it returns `false`),
the url given by `fossil().getRemoteUrl(url)` (`none` when it returns
`false`), and the constant `FOSSIL_SETTING_REMOTE_URL`. -/
structure SettingsAnswers where
  getFossilSettings : Option QStringList
  getRemoteUrl : Option QString
  FOSSIL_SETTING_REMOTE_URL : QString

/-- The removal of quotes in `loadFossilSettings`: a value of at least two
characters that starts and ends with a double quote loses both. -/
def removeQuotes (value : QString) : QString :=
  if decide (2 ≤ value.length) && value.head? == some (Char.ofNat 34) &&
      value.getLast? == some (Char.ofNat 34) then
    midN value 1 ((value.length : Int) - 2)
  else value

/-- The loop of `loadFossilSettings` over `settings.GetMappings()`: the
mappings after the loop, or `none` when one of the two assertions fails. -/
def loadSettingsLoop (answers : SettingsAnswers) (kv : List (QString × QString)) :
    List (QString × Setting) → Option (List (QString × Setting))
  | [] => some []
  | (name, setting) :: rest =>
    if name = answers.FOSSIL_SETTING_REMOTE_URL then
      let updated : Setting :=
        match answers.getRemoteUrl with
        | some url => { setting with Value := url }
        | none => setting
      (loadSettingsLoop answers kv rest).map (fun tail => (name, updated) :: tail)
    else if ¬ (setting.type = SettingType.TYPE_FOSSIL_GLOBAL ∨
        setting.type = SettingType.TYPE_FOSSIL_LOCAL) then none
    else
      match QMap.find kv name with
      | none => (loadSettingsLoop answers kv rest).map (fun tail => (name, setting) :: tail)
      | some value =>
        if indexOf value "(global)".toList ≠ -1 ∨ indexOf value "(local)".toList ≠ -1 then
          let i := indexOf value [Char.ofNat 32]
          if i = -1 then none
          else
            let stored := removeQuotes (trimmed (mid value i))
            (loadSettingsLoop answers kv rest).map
              (fun tail => (name, { setting with Value := stored }) :: tail)
        else (loadSettingsLoop answers kv rest).map (fun tail => (name, setting) :: tail)

/-- The function `MainWindow::loadFossilSettings`: the mappings of the
settings after the call, or `none` when an assertion fails. -/
def loadFossilSettings (answers : SettingsAnswers) (mappings : List (QString × Setting)) :
    Option (List (QString × Setting)) :=
  match answers.getFossilSettings with
  | none => some mappings
  | some out => loadSettingsLoop answers (MakeKeyValues out) mappings

/-! ## Commit, stash, drop and rename actions -/

/-- The answers that the actions below obtain from outside `MainWindow.cpp`.
Each is given for the arguments of the call; the calls made in a loop also get
the number `i` of the iteration. `getText` is `QInputDialog::getText` (the
flag `ok` and the text) for the preset text; `fileActionDialog` is
`FileActionDialog::run` (its return value and the state of its check box) for
the list shown; `renameFile`, `stashApply` and `stashDrop` are the return
values of the bridge; `cleanPath` is `QDir::cleanPath`; `dirExists` is
`QDir(path).exists()`, `workspaceDirExists` the same for the workspace
directory; `mkpath`, `copy` and `remove` are the return values of
`QDir::mkpath`, `QFile::copy` and `QFile::remove`; `targetExists` and
`sourceExists` are `QFile::exists` in the copy loop and in the removal loop;
`openWorkspace` is the state after `MainWindow::openWorkspace`. -/
structure Answers where
  getText : QString → Bool × QString
  fileActionDialog : QStringList → Bool × Bool
  renameFile : Nat → QString → QString → Bool
  stashApply : Nat → QString → Bool
  stashDrop : Nat → QString → Bool
  cleanPath : QString → QString
  dirExists : Nat → QString → Bool
  workspaceDirExists : Bool
  mkpath : Nat → QString → Bool
  targetExists : Nat → QString → Bool
  copy : Nat → QString → QString → Bool
  sourceExists : Nat → QString → Bool
  remove : Nat → QString → Bool
  openWorkspace : QString → MainWindow → MainWindow

/-- What `dropEvent` reads from the `QFileInfo` of a dropped url:
`absoluteFilePath()`, `isDir()`, `suffix()` and `fileName()`. -/
structure DroppedFile where
  absoluteFilePath : QString
  isDir : Bool
  suffix : QString
  fileName : QString

/-- The constants `FOSSIL_EXT`, `FOSSIL_CHECKOUT1` and `FOSSIL_CHECKOUT2`
(declared outside `MainWindow.cpp`). -/
structure FossilNames where
  FOSSIL_EXT : QString
  FOSSIL_CHECKOUT1 : QString
  FOSSIL_CHECKOUT2 : QString

/-- The array `invalid_tokens` of `on_actionRenameFolder_triggered`: slash,
backslash, two backslashes, colon, the two angle brackets, star, question
mark, bar, double quote and two dots. -/
def invalid_tokens : QStringList :=
  ["/".toList, [Char.ofNat 92], [Char.ofNat 92, Char.ofNat 92], ":".toList, ">".toList,
    "<".toList, "*".toList, "?".toList, "|".toList, [Char.ofNat 34], "..".toList]

/-- The value of `dir_start` in `on_actionRenameFolder_triggered`: the
position after the last `'/'` of `old_path`, or 0 when there is none. -/
def renameDirStart (old_path : QString) : Int :=
  let dir_start := lastIndexOf old_path "/".toList
  if dir_start = -1 then 0 else dir_start + 1

/-- The value of `new_path` in `on_actionRenameFolder_triggered`. -/
def renameNewPath (old_path new_name : QString) : QString :=
  left old_path (renameDirStart old_path) ++ new_name

/-- The loop of `on_actionRenameFolder_triggered` that collects the files to be
moved: the lists `files_to_move`, `new_paths` and `operations` after it. -/
def collectMoves (old_path new_path : QString) (files : filemap_t) :
    List WorkspaceFile × QStringList × QStringList :=
  files.foldl
    (fun acc kv =>
      if indexOf kv.2.getPath old_path ≠ 0 then acc
      else
        let new_dir := new_path ++ mid kv.2.getPath (old_path.length : Int)
        let new_file_path := new_dir ++ "/".toList ++ kv.2.getFilename
        (acc.1 ++ [kv.2], acc.2.1 ++ [new_dir],
          acc.2.2 ++ [kv.2.getFilePath ++ " -> ".toList ++ new_file_path]))
    ([], [], [])

/-- The loop "Rename files in fossil" from iteration `i` on, over the files
from `files_to_move[i]` on: the calls made and whether every call succeeded. -/
def renameLoop (answers : Answers) (new_paths : QStringList) :
    Nat → List WorkspaceFile → List Call × Bool
  | _, [] => ([], true)
  | i, r :: rest =>
    let new_file_path := new_paths.getD i [] ++ "/".toList ++ r.getFilename
    if !answers.renameFile i r.getFilePath new_file_path then
      ([Call.renameFile r.getFilePath new_file_path false], false)
    else
      (Call.renameFile r.getFilePath new_file_path false ::
          (renameLoop answers new_paths (i + 1) rest).1,
        (renameLoop answers new_paths (i + 1) rest).2)

/-- The loop that makes the target folders, from iteration `i` on: the calls
made and whether the loop ran to its end, or `none` when
`Q_ASSERT(wkdir.exists())` fails. -/
def mkdirLoop (answers : Answers) (currentWorkspace : QString) (new_paths : QStringList) :
    Nat → List WorkspaceFile → Option (List Call × Bool)
  | _, [] => some ([], true)
  | i, _ :: rest =>
    let target_path :=
      answers.cleanPath
        (currentWorkspace ++ "/".toList ++ new_paths.getD i [] ++ "/".toList)
    if answers.dirExists i target_path then
      mkdirLoop answers currentWorkspace new_paths (i + 1) rest
    else if !answers.workspaceDirExists then none
    else if !answers.mkpath i (new_paths.getD i [] ++ "/".toList ++ ".".toList) then
      some ([Call.mkpath (new_paths.getD i [] ++ "/".toList ++ ".".toList),
        Call.critical ("Cannot make target folder '".toList ++ target_path ++ "'".toList)],
        false)
    else
      (mkdirLoop answers currentWorkspace new_paths (i + 1) rest).map
        (fun r => (Call.mkpath (new_paths.getD i [] ++ "/".toList ++ ".".toList) :: r.1, r.2))

/-- The loop that copies the files, from iteration `i` on: the calls made and
whether the loop ran to its end. -/
def copyLoop (answers : Answers) (new_paths : QStringList) :
    Nat → List WorkspaceFile → List Call × Bool
  | _, [] => ([], true)
  | i, r :: rest =>
    let new_file_path := new_paths.getD i [] ++ "/".toList ++ r.getFilename
    if answers.targetExists i new_file_path then
      ([Call.critical ("Target file '".toList ++ new_file_path ++ "' exists already".toList)],
        false)
    else if !answers.copy i r.getFilePath new_file_path then
      ([Call.copy r.getFilePath new_file_path,
        Call.critical ("Cannot copy file '".toList ++ r.getFilePath ++ "' to '".toList ++
          new_file_path ++ "'".toList)], false)
    else
      (Call.copy r.getFilePath new_file_path :: (copyLoop answers new_paths (i + 1) rest).1,
        (copyLoop answers new_paths (i + 1) rest).2)

/-- The loop that deletes the old files, from iteration `i` on: the calls made
and whether the loop ran to its end. -/
def removeLoop (answers : Answers) : Nat → List WorkspaceFile → List Call × Bool
  | _, [] => ([], true)
  | i, r :: rest =>
    if !answers.sourceExists i r.getFilePath then
      ([Call.critical ("Source file '".toList ++ r.getFilePath ++ "' does not exist".toList)],
        false)
    else if !answers.remove i r.getFilePath then
      ([Call.remove r.getFilePath,
        Call.critical ("Cannot remove file '".toList ++ r.getFilePath ++ "'".toList)], false)
    else
      (Call.remove r.getFilePath :: (removeLoop answers (i + 1) rest).1,
        (removeLoop answers (i + 1) rest).2)

/-- The part of `on_actionRenameFolder_triggered` after the confirmation, up
to the label `_exit`: the calls made, or `none` when an assertion fails. The
messages written to the log view are left out. -/
def moveFiles (answers : Answers) (currentWorkspace : QString) (move_local : Bool)
    (files_to_move : List WorkspaceFile) (new_paths : QStringList) : Option (List Call) :=
  let renamed := renameLoop answers new_paths 0 files_to_move
  if !renamed.2 then some renamed.1
  else if !move_local then some renamed.1
  else
    match mkdirLoop answers currentWorkspace new_paths 0 files_to_move with
    | none => none
    | some made =>
      if !made.2 then some (renamed.1 ++ made.1)
      else
        let copied := copyLoop answers new_paths 0 files_to_move
        if !copied.2 then some (renamed.1 ++ made.1 ++ copied.1)
        else
          some (renamed.1 ++ made.1 ++ copied.1 ++ (removeLoop answers 0 files_to_move).1)

/-- The loop of `dropEvent` over the urls: the list `newfiles` after it. -/
def droppedNewFiles (currentWorkspace : QString) (urls : List DroppedFile) : QStringList :=
  urls.foldl
    (fun newfiles url =>
      let abspath := url.absoluteFilePath
      if indexOf abspath currentWorkspace ≠ 0 then newfiles
      else
        newfiles ++
          [right abspath ((abspath.length : Int) - (currentWorkspace.length : Int) - 1)])
    []

namespace MainWindow

/-- The slot `MainWindow::on_actionCommit_triggered`: the state after the call
and the calls made, or `none` when the assertion of `getFileViewSelection`
fails. `dialog` is what `CommitDialog::run` gives back for the files offered,
and `fossil` is what the final `refresh` obtains. -/
def on_actionCommit_triggered (env : Env) (fossil : Fossil)
    (dialog : QStringList → CommitDialogResult) (w : MainWindow) :
    Option (MainWindow × List Call) :=
  match w.getSelectionFilenames [] env.TYPE_MODIFIED true with
  | none => none
  | some commit_files =>
    if commit_files.isEmpty then some (w, [])
    else
      let ran := dialog commit_files
      let aborted := !ran.accepted
      let msg := ran.message
      let kept : MainWindow :=
        if msg ∉ w.commitMsgs then { w with commitMsgs := msg :: w.commitMsgs } else w
      if aborted then some (kept, [])
      else if ran.files.isEmpty then some (kept, [])
      else
        let all_modified_files := kept.getAllFilenames [] env.TYPE_MODIFIED
        let files : QStringList :=
          if ran.files.length ≠ all_modified_files.length then ran.files else []
        let refreshed := kept.refresh env fossil
        some (refreshed.2.1, Call.commitFiles files msg :: refreshed.2.2)

/-- The function `MainWindow::dropEvent` for the dropped urls: the state after
the call and the calls made. -/
def dropEvent (env : Env) (fossil : Fossil) (answers : Answers) (names : FossilNames)
    (urls : List DroppedFile) (w : MainWindow) : MainWindow × List Call :=
  match urls with
  | [] => (w, [])
  | finfo :: _ =>
    if finfo.isDir || finfo.suffix == names.FOSSIL_EXT ||
        finfo.fileName == names.FOSSIL_CHECKOUT1 || finfo.fileName == names.FOSSIL_CHECKOUT2 then
      (answers.openWorkspace finfo.absoluteFilePath w,
        [Call.openWorkspace finfo.absoluteFilePath])
    else
      let newfiles := droppedNewFiles w.currentWorkspace urls
      if !newfiles.isEmpty then
        if !(answers.fileActionDialog newfiles).1 then (w, [])
        else ((w.refresh env fossil).2.1, Call.addFiles newfiles :: (w.refresh env fossil).2.2)
      else (w, [])

/-- The slot `MainWindow::on_actionRenameFolder_triggered`: the state after
the call and the calls made, or `none` when an assertion fails. -/
def on_actionRenameFolder_triggered (env : Env) (fossil : Fossil) (answers : Answers)
    (w : MainWindow) : Option (MainWindow × List Call) :=
  match w.getSelectionPaths [] with
  | [old_path] =>
    if old_path.isEmpty then some (w, [])
    else
      let old_name := mid old_path (renameDirStart old_path)
      let asked := answers.getText old_name
      let new_name := asked.2
      if !asked.1 || old_name == new_name then some (w, [])
      else if invalid_tokens.any (fun token => decide (indexOf new_name token ≠ -1)) then
        some (w, [Call.critical ("Cannot rename folder.".toList ++ [Char.ofNat 10] ++
          "Folder name contains invalid characters.".toList)])
      else
        let new_path := renameNewPath old_path new_name
        if w.paths.contains new_path then
          some (w, [Call.critical ("Cannot rename folder.".toList ++ [Char.ofNat 10] ++
            "This folder exists already.".toList)])
        else
          let collected := collectMoves old_path new_path w.files
          let files_to_move := collected.1
          let new_paths := collected.2.1
          let operations := collected.2.2
          if files_to_move.isEmpty then some (w, [])
          else
            let confirmed := answers.fileActionDialog operations
            if !confirmed.1 then some (w, [])
            else
              match moveFiles answers w.currentWorkspace confirmed.2 files_to_move new_paths with
              | none => none
              | some calls =>
                some ((w.refresh env fossil).2.1, calls ++ (w.refresh env fossil).2.2)
  | _ => some (w, [])

end MainWindow

/-! ## Sample data -/

/-- A sample environment: the type bits `1<<1` to `1<<7`, the mask
`TYPE_MODIFIED` made of all of them but `TYPE_UNCHANGED`, and a platform whose
native separator is `'/'`. -/
def sampleEnv : Env :=
  { TYPE_EDITTED := 4
    TYPE_UNCHANGED := 2
    TYPE_ADDED := 8
    TYPE_DELETED := 16
    TYPE_RENAMED := 64
    TYPE_MISSING := 32
    TYPE_CONFLICTED := 128
    TYPE_MODIFIED := 252
    toNativeSeparators := fun s => s }

/-- An edited file `x.txt` in the root folder. -/
def fileAtRoot : WorkspaceFile :=
  { getType := 4
    getFilePath := "x.txt".toList
    getPath := []
    getFilename := "x.txt".toList
    getFileInfo := { suffix := "txt".toList, lastModified := [] } }

/-- An edited file `y.txt` in the folder `a`. -/
def fileInA : WorkspaceFile :=
  { getType := 4
    getFilePath := "a/y.txt".toList
    getPath := "a".toList
    getFilename := "y.txt".toList
    getFileInfo := { suffix := "txt".toList, lastModified := [] } }

/-- A file `z.tmp` in the folder `a` whose type is the bit `1`. -/
def fileOther : WorkspaceFile :=
  { getType := 1
    getFilePath := "a/z.tmp".toList
    getPath := "a".toList
    getFilename := "z.tmp".toList
    getFileInfo := { suffix := "tmp".toList, lastModified := [] } }

/-- A collection with the three sample files, each under its file path. -/
def sampleFiles : filemap_t :=
  [("a/y.txt".toList, fileInA), ("a/z.tmp".toList, fileOther), ("x.txt".toList, fileAtRoot)]

/-- A main window in tree mode over `sampleFiles` and the folder tree of the
set `{"", "a"}`, with the given `selectedDirs`, tree selection and focus; the
file table is empty and nothing is selected in it. -/
def sampleWindow (selectedDirs : stringset_t) (treeSelection : List (List Nat))
    (treeFocus : Bool) : MainWindow :=
  { viewMode := ViewMode.VIEWMODE_TREE
    selectedDirs := selectedDirs
    files := sampleFiles
    fileModel := []
    dirModel := updateDirView "P".toList [[], "a".toList]
    treeSelection := treeSelection
    fileSelection := []
    treeFocus := treeFocus }

/-- A second status record for `x.txt`, of type `128`. -/
def fileAtRootConflicted : WorkspaceFile :=
  { getType := 128
    getFilePath := "x.txt".toList
    getPath := []
    getFilename := "x.txt".toList
    getFileInfo := { suffix := "txt".toList, lastModified := [] } }

/-- A sample reading of type values: `128` is Conflicted, `4` is Edited, every
other value is taken as Unknown. -/
def sampleClassify (type : Nat) : StatusType :=
  if type = 128 then StatusType.Conflicted
  else if type = 4 then StatusType.Edited
  else StatusType.Unknown

/-- A sample outcome of the bridge queries: the repository is fine, its
project is `P`, and the scan yields the sample collection, the folders `""`
and `a`, and one stash `old` with id `1`. -/
def sampleFossil : Fossil :=
  { getRepoStatus := RepoStatus.REPO_OK
    getProjectName := "P".toList
    scannedFiles := sampleFiles
    scannedPaths := [[], "a".toList]
    scannedStashes := [("old".toList, "1".toList)] }

/-- A sample run of the stash dialog: it is accepted with the offered files,
the text ` s1 ` and the check box not set. -/
def sampleDialog (offered : QStringList) : CommitDialogResult :=
  { accepted := true
    files := offered
    message := " s1 ".toList
    checked := false }

/-- An edited file `w.txt` in the folder `ab`. -/
def fileInAb : WorkspaceFile :=
  { getType := 4
    getFilePath := "ab/w.txt".toList
    getPath := "ab".toList
    getFilename := "w.txt".toList
    getFileInfo := { suffix := "txt".toList, lastModified := [] } }

/-- An edited file `v.txt` in the folder `a/sub`. -/
def fileInASub : WorkspaceFile :=
  { getType := 4
    getFilePath := "a/sub/v.txt".toList
    getPath := "a/sub".toList
    getFilename := "v.txt".toList
    getFileInfo := { suffix := "txt".toList, lastModified := [] } }

/-- A main window over the files `a/sub/v.txt`, `a/y.txt` and `ab/w.txt` and
the folder tree of `a`, `a/sub`, `ab`, in which the tree item of the folder
`a` is selected and the tree view has the focus. -/
def siblingWindow : MainWindow :=
  { viewMode := ViewMode.VIEWMODE_TREE
    selectedDirs := ["a".toList]
    files := [("a/sub/v.txt".toList, fileInASub), ("a/y.txt".toList, fileInA),
      ("ab/w.txt".toList, fileInAb)]
    fileModel := []
    dirModel := updateDirView "P".toList ["a".toList, "a/sub".toList, "ab".toList]
    treeSelection := [[0, 0]]
    fileSelection := []
    treeFocus := true
    paths := ["a".toList, "a/sub".toList, "ab".toList] }

/-- A sample answer of fossil to the settings query: one line, the setting
`autosync` with the marker `(global)` and an empty value; no remote url. -/
def sampleSettingsAnswers : SettingsAnswers :=
  { getFossilSettings := some ["autosync             (global) ".toList]
    getRemoteUrl := none
    FOSSIL_SETTING_REMOTE_URL := "remote-url".toList }

/-- A line with a tab before its first space: `a`, tab, space, `b`. -/
def sampleTabLine : QString := ['a', Char.ofNat 9, Char.ofNat 32, 'b']

/-- Sample answers: the rename dialog gives the name `x`, every confirmation
is accepted with the check box not set, every call of the bridge and of the
file system succeeds, no target exists yet and every source exists. -/
def sampleAnswers : Answers :=
  { getText := fun _ => (true, "x".toList)
    fileActionDialog := fun _ => (true, false)
    renameFile := fun _ _ _ => true
    stashApply := fun _ _ => true
    stashDrop := fun _ _ => true
    cleanPath := fun path => path
    dirExists := fun _ _ => false
    workspaceDirExists := true
    mkpath := fun _ _ => true
    targetExists := fun _ _ => false
    copy := fun _ _ _ => true
    sourceExists := fun _ _ => true
    remove := fun _ _ => true
    openWorkspace := fun _ w => w }

/-- Sample names of the fossil files. -/
def sampleFossilNames : FossilNames :=
  { FOSSIL_EXT := "fossil".toList
    FOSSIL_CHECKOUT1 := "_FOSSIL_".toList
    FOSSIL_CHECKOUT2 := ".fslckout".toList }

/-- A dropped file `/w2/f.txt`, which lies in the folder `/w2`. -/
def droppedOutside : DroppedFile :=
  { absoluteFilePath := "/w2/f.txt".toList
    isDir := false
    suffix := "txt".toList
    fileName := "f.txt".toList }

/-- A dropped file `/w/g.txt`, which lies in the folder `/w`. -/
def droppedInside : DroppedFile :=
  { absoluteFilePath := "/w/g.txt".toList
    isDir := false
    suffix := "txt".toList
    fileName := "g.txt".toList }

/-- Sample answers whose rename dialog gives the name `ab`. -/
def sampleAnswersExisting : Answers :=
  { sampleAnswers with getText := fun _ => (true, "ab".toList) }

/-- A sample run of the commit dialog: it is accepted with the one file
`x.txt` left selected and the message `m`. -/
def samplePartialCommit (_offered : QStringList) : CommitDialogResult :=
  { accepted := true
    files := ["x.txt".toList]
    message := "m".toList
    checked := false }

theorem fileViewRows_eq_filter (env : Env) (viewMode : ViewMode) (selectedDirs : stringset_t)
    (display_path : Bool) (files : filemap_t) :
    fileViewRows env viewMode selectedDirs display_path files =
      ((files.map Prod.snd).filter
        (fun e => decide (viewMode = ViewMode.VIEWMODE_LIST ∨ e.getPath ∈ selectedDirs))).map
        (fileRow env display_path) := by
  induction files with
  | nil => rfl
  | cons kv rest ih =>
    obtain ⟨k, e⟩ := kv
    cases viewMode <;> by_cases hmem : e.getPath ∈ selectedDirs <;>
      simp [fileViewRows, hmem, ih]

theorem startsWith_iff (s sub : QString) : startsWith s sub = true ↔ sub <+: s := by
  induction s generalizing sub with
  | nil =>
    cases sub with
    | nil => simp [startsWith]
    | cons d sub => simp [startsWith]
  | cons c s ih =>
    cases sub with
    | nil => simp [startsWith]
    | cons d sub =>
      simp only [startsWith, Bool.and_eq_true, beq_iff_eq, ih, List.cons_prefix_cons]
      constructor
      · rintro ⟨h1, h2⟩
        exact ⟨h1.symm, h2⟩
      · rintro ⟨h1, h2⟩
        exact ⟨h1.symm, h2⟩

theorem indexOfFrom_range (s sub : QString) (i : Nat) :
    indexOfFrom s sub i = -1 ∨ (i : Int) ≤ indexOfFrom s sub i := by
  induction s generalizing i with
  | nil =>
    unfold indexOfFrom
    split <;> simp
  | cons c s ih =>
    unfold indexOfFrom
    split
    · simp
    · rcases ih (i + 1) with h | h
      · exact Or.inl h
      · right
        have : (i : Int) ≤ ((i + 1 : Nat) : Int) := by omega
        omega

theorem indexOf_eq_zero_iff (s sub : QString) : indexOf s sub = 0 ↔ sub <+: s := by
  rw [← startsWith_iff]
  unfold indexOf
  cases s with
  | nil =>
    cases sub with
    | nil => simp [indexOfFrom, startsWith]
    | cons d sub => simp [indexOfFrom, startsWith]
  | cons c s =>
    unfold indexOfFrom
    by_cases h : startsWith (c :: s) sub = true
    · simp [h]
    · simp only [h, Bool.false_eq_true, if_false, iff_false]
      rcases indexOfFrom_range s sub (0 + 1) with h1 | h1
      · rw [h1]
        decide
      · intro h0
        rw [h0] at h1
        omega

theorem pathMatches_iff (ePath : QString) (paths : List QString) :
    MainWindow.pathMatches ePath paths = true ↔ ∃ p ∈ paths, p <+: ePath := by
  induction paths with
  | nil => simp [MainWindow.pathMatches]
  | cons p rest ih =>
    unfold MainWindow.pathMatches
    by_cases hp : (p.isEmpty || decide (indexOf ePath p = 0)) = true
    · simp only [hp, if_true, List.mem_cons, true_iff]
      refine ⟨p, Or.inl rfl, ?_⟩
      rcases Bool.or_eq_true _ _ ▸ hp with h | h
      · have : p = [] := by simpa using h
        subst this
        exact List.nil_prefix
      · exact (indexOf_eq_zero_iff ePath p).1 (by simpa using h)
    · simp only [hp, Bool.false_eq_true, if_false, ih, List.mem_cons]
      constructor
      · rintro ⟨q, hq, hpre⟩
        exact ⟨q, Or.inr hq, hpre⟩
      · rintro ⟨q, hq | hq, hpre⟩
        · subst hq
          exfalso
          apply hp
          simp [(indexOf_eq_zero_iff ePath q).2 hpre]
        · exact ⟨q, hq, hpre⟩

theorem foldl_append_unless {α : Type} (p : α → Prop) [DecidablePred p] (g : α → QString)
    (xs : List α) (init : QStringList) :
    xs.foldl (fun acc x => if p x then acc else acc ++ [g x]) init =
      init ++ (xs.filter (fun x => !decide (p x))).map g := by
  induction xs generalizing init with
  | nil => simp
  | cons x xs ih =>
    by_cases h : p x
    · simp [List.foldl_cons, h, ih]
    · simp [List.foldl_cons, h, ih]

theorem mem_stringset_insert (s : stringset_t) (x y : QString) :
    y ∈ stringset_t.insert s x ↔ y ∈ s ∨ y = x := by
  unfold stringset_t.insert
  split
  · constructor
    · exact Or.inl
    · rintro (h | h)
      · exact h
      · subst h
        assumption
  · simp

theorem mem_foldl_insert {α : Type} (f : α → QString) (xs : List α) (init : stringset_t)
    (y : QString) :
    y ∈ xs.foldl (fun acc x => stringset_t.insert acc (f x)) init ↔ y ∈ init ∨ y ∈ xs.map f := by
  induction xs generalizing init with
  | nil => simp
  | cons x xs ih =>
    simp only [List.foldl_cons, ih, mem_stringset_insert, List.map_cons, List.mem_cons]
    tauto

theorem mem_getSelectionPaths (w : MainWindow) (p : QString) :
    p ∈ w.getSelectionPaths [] ↔ p ∈ w.treeSelection.map (dirModelData w.dirModel) := by
  unfold MainWindow.getSelectionPaths
  rw [mem_foldl_insert]
  simp

theorem getSelectionPaths_eq_nil_iff (w : MainWindow) :
    w.getSelectionPaths [] = [] ↔ w.treeSelection = [] := by
  constructor
  · intro h
    cases hsel : w.treeSelection with
    | nil => rfl
    | cons mi rest =>
      exfalso
      have hmem : dirModelData w.dirModel mi ∈ w.getSelectionPaths [] := by
        rw [mem_getSelectionPaths, hsel]
        simp
      rw [h] at hmem
      exact List.not_mem_nil _ hmem
  · intro h
    simp [MainWindow.getSelectionPaths, h]

theorem getAllFilenames_eq (w : MainWindow) (filenames : QStringList) (includeMask : Nat) :
    w.getAllFilenames filenames includeMask =
      filenames ++ ((w.files.map Prod.snd).filter
        (fun e => decide (includeMask &&& e.getType ≠ 0))).map WorkspaceFile.getFilePath := by
  unfold MainWindow.getAllFilenames
  rw [foldl_append_unless (fun kv : QString × WorkspaceFile => includeMask &&& kv.2.getType = 0)
    (fun kv => kv.2.getFilePath)]
  simp [List.filter_map, Function.comp_def]

theorem getDirViewSelection_eq (w : MainWindow) (filenames : QStringList) (includeMask : Nat)
    (allIfEmpty : Bool) :
    w.getDirViewSelection filenames includeMask allIfEmpty =
      filenames ++ ((w.files.map Prod.snd).filter
        (fun e => decide (includeMask &&& e.getType ≠ 0) &&
          ((w.dirViewPaths allIfEmpty).isEmpty ||
            MainWindow.pathMatches e.getPath (w.dirViewPaths allIfEmpty)))).map
        WorkspaceFile.getFilePath := by
  have hfun : (fun (acc : QStringList) (kv : QString × WorkspaceFile) =>
      if includeMask &&& kv.2.getType = 0 then acc
      else
        let included : Bool := if !(w.dirViewPaths allIfEmpty).isEmpty then false else true
        let included : Bool :=
          if MainWindow.pathMatches kv.2.getPath (w.dirViewPaths allIfEmpty) then true
          else included
        if !included then acc else acc ++ [kv.2.getFilePath]) =
      (fun acc kv =>
        if (includeMask &&& kv.2.getType = 0 ∨
            ((w.dirViewPaths allIfEmpty).isEmpty ||
              MainWindow.pathMatches kv.2.getPath (w.dirViewPaths allIfEmpty)) = false)
        then acc else acc ++ [kv.2.getFilePath]) := by
    funext acc kv
    by_cases hm : includeMask &&& kv.2.getType = 0
    · simp [hm]
    · cases h1 : (w.dirViewPaths allIfEmpty).isEmpty <;>
        cases h2 : MainWindow.pathMatches kv.2.getPath (w.dirViewPaths allIfEmpty) <;>
        simp [hm, h1, h2]
  have hdef : w.getDirViewSelection filenames includeMask allIfEmpty =
      w.files.foldl (fun (acc : QStringList) (kv : QString × WorkspaceFile) =>
        if includeMask &&& kv.2.getType = 0 then acc
        else
          let included : Bool := if !(w.dirViewPaths allIfEmpty).isEmpty then false else true
          let included : Bool :=
            if MainWindow.pathMatches kv.2.getPath (w.dirViewPaths allIfEmpty) then true
            else included
          if !included then acc else acc ++ [kv.2.getFilePath]) filenames := rfl
  rw [hdef, hfun, foldl_append_unless]
  simp only [List.filter_map, List.map_map]
  congr 2
  apply List.filter_congr
  intro kv _
  by_cases hm : includeMask &&& kv.2.getType = 0
  · simp [hm]
  · cases h1 : (w.dirViewPaths allIfEmpty).isEmpty <;>
      cases h2 : MainWindow.pathMatches kv.2.getPath (w.dirViewPaths allIfEmpty) <;>
      simp [hm, h1, h2]

theorem mem_getDirViewSelection (w : MainWindow) (includeMask : Nat) (allIfEmpty : Bool)
    (f : QString) :
    f ∈ w.getDirViewSelection [] includeMask allIfEmpty ↔
      ∃ kv ∈ w.files, kv.2.getFilePath = f ∧ includeMask &&& kv.2.getType ≠ 0 ∧
        ((w.dirViewPaths allIfEmpty).isEmpty = true ∨
          ∃ p ∈ w.dirViewPaths allIfEmpty, p <+: kv.2.getPath) := by
  rw [getDirViewSelection_eq]
  simp only [List.nil_append, List.mem_map, List.mem_filter, Bool.and_eq_true,
    Bool.or_eq_true, decide_eq_true_eq, pathMatches_iff]
  constructor
  · rintro ⟨e, ⟨⟨kv, hkv, rfl⟩, hm, hp⟩, hf⟩
    exact ⟨kv, hkv, hf, hm, hp⟩
  · rintro ⟨kv, hkv, hf, hm, hp⟩
    exact ⟨kv.2, ⟨⟨kv, hkv, rfl⟩, hm, hp⟩, hf⟩

theorem find_some_mem (files : filemap_t) (key : QString) (e : WorkspaceFile)
    (h : filemap_t.find files key = some e) : (key, e) ∈ files := by
  induction files with
  | nil => simp [filemap_t.find] at h
  | cons kv rest ih =>
    obtain ⟨k, v⟩ := kv
    unfold filemap_t.find at h
    by_cases hk : k = key
    · simp only [hk, if_true, Option.some.injEq] at h
      subst hk
      subst h
      exact List.mem_cons_self _ _
    · simp only [hk, if_false] at h
      exact List.mem_cons_of_mem _ (ih h)

theorem find_of_mem (files : filemap_t) (hnd : (files.map Prod.fst).Nodup)
    (kv : QString × WorkspaceFile) (hkv : kv ∈ files) :
    filemap_t.find files kv.1 = some kv.2 := by
  induction files with
  | nil => exact absurd hkv (List.not_mem_nil _)
  | cons hd rest ih =>
    obtain ⟨k, v⟩ := hd
    rw [List.map_cons, List.nodup_cons] at hnd
    unfold filemap_t.find
    rcases List.mem_cons.1 hkv with h | h
    · subst h
      simp
    · have hne : k ≠ kv.1 := by
        intro heq
        apply hnd.1
        rw [heq]
        exact List.mem_map.2 ⟨kv, h, rfl⟩
      simp only [hne, if_false]
      exact ih hnd.2 h

theorem find_filePath (files : filemap_t) (hk : KeyedByFilePath files)
    (kv : QString × WorkspaceFile) (hkv : kv ∈ files) :
    filemap_t.find files kv.2.getFilePath = some kv.2 := by
  rw [← hk.2 kv hkv]
  exact find_of_mem files hk.1 kv hkv

theorem fileSelectionLoop_sound (files : filemap_t) (rows : List FileRow) (includeMask : Nat)
    (selection : List (Nat × Nat)) (filenames out : QStringList)
    (h : MainWindow.fileSelectionLoop files rows includeMask selection filenames = some out) :
    ∀ f ∈ out, f ∈ filenames ∨
      ∃ e, filemap_t.find files f = some e ∧ includeMask &&& e.getType ≠ 0 := by
  induction selection generalizing filenames with
  | nil =>
    simp only [MainWindow.fileSelectionLoop, Option.some.injEq] at h
    subst h
    intro f hf
    exact Or.inl hf
  | cons mi rest ih =>
    unfold MainWindow.fileSelectionLoop at h
    by_cases hc : mi.2 ≠ COLUMN_FILENAME
    · rw [if_pos hc] at h
      exact ih filenames h
    · rw [if_neg hc] at h
      cases hfind : filemap_t.find files (MainWindow.fileModelData rows mi) with
      | none => simp [hfind] at h
      | some e =>
        simp only [hfind] at h
        by_cases hm : includeMask &&& e.getType = 0
        · rw [if_pos hm] at h
          exact ih filenames h
        · rw [if_neg hm] at h
          intro f hf
          rcases ih _ h f hf with h1 | h1
          · rcases List.mem_append.1 h1 with h2 | h2
            · exact Or.inl h2
            · rw [List.mem_singleton] at h2
              subst h2
              exact Or.inr ⟨e, hfind, hm⟩
          · exact Or.inr h1

theorem fileModelData_append (pre rest : List FileRow) (row : FileRow) :
    MainWindow.fileModelData (pre ++ row :: rest) (pre.length, COLUMN_FILENAME) =
      row.filenameData := by
  have hget : (pre ++ row :: rest).get? pre.length = some row := by
    induction pre with
    | nil => rfl
    | cons p pre ih => simpa using ih
  unfold MainWindow.fileModelData
  simp only [if_true, hget]

theorem fileSelectionLoop_rowCells (files : filemap_t) (rows : List FileRow) (includeMask : Nat)
    (r : Nat) (rest : List (Nat × Nat)) (filenames : QStringList) :
    MainWindow.fileSelectionLoop files rows includeMask (MainWindow.rowCells r ++ rest) filenames =
      match filemap_t.find files (MainWindow.fileModelData rows (r, COLUMN_FILENAME)) with
      | none => none
      | some e =>
        if includeMask &&& e.getType = 0 then
          MainWindow.fileSelectionLoop files rows includeMask rest filenames
        else
          MainWindow.fileSelectionLoop files rows includeMask rest
            (filenames ++ [MainWindow.fileModelData rows (r, COLUMN_FILENAME)]) := by
  simp [MainWindow.rowCells, MainWindow.fileSelectionLoop, COLUMN_STATUS, COLUMN_FILENAME,
    COLUMN_EXTENSION, COLUMN_MODIFIED, COLUMN_PATH]

theorem fileSelectionLoop_allCells (files : filemap_t) (includeMask : Nat)
    (rows pre : List FileRow) (filenames : QStringList) (es : List WorkspaceFile)
    (hrows : rows.map FileRow.filenameData = es.map WorkspaceFile.getFilePath)
    (hfind : ∀ e ∈ es, filemap_t.find files e.getFilePath = some e) :
    MainWindow.fileSelectionLoop files (pre ++ rows) includeMask
        (MainWindow.allCells rows pre.length) filenames =
      some (filenames ++ (es.filter (fun e => decide (includeMask &&& e.getType ≠ 0))).map
        WorkspaceFile.getFilePath) := by
  induction rows generalizing pre filenames es with
  | nil =>
    cases es with
    | nil => simp [MainWindow.allCells, MainWindow.fileSelectionLoop]
    | cons e es => simp at hrows
  | cons row rows ih =>
    cases es with
    | nil => simp at hrows
    | cons e es =>
      simp only [List.map_cons, List.cons.injEq] at hrows
      have hnext := fun fn => ih (pre ++ [row]) fn es hrows.2
        (fun x hx => hfind x (List.mem_cons_of_mem _ hx))
      simp only [List.append_assoc, List.singleton_append, List.length_append,
        List.length_singleton] at hnext
      unfold MainWindow.allCells
      rw [fileSelectionLoop_rowCells, fileModelData_append, hrows.1,
        hfind e (List.mem_cons_self _ _)]
      by_cases hm : includeMask &&& e.getType = 0
      · simp [hm, hnext]
      · simp [hm, hnext]

theorem qstringLess_irrefl (a : QString) : qstringLess a a = false := by
  induction a with
  | nil => rfl
  | cons c s ih => simp [qstringLess, ih]

theorem qstringLess_trans (a b c : QString) (hab : qstringLess a b = true)
    (hbc : qstringLess b c = true) : qstringLess a c = true := by
  induction a generalizing b c with
  | nil =>
    cases b with
    | nil => simp [qstringLess] at hab
    | cons y b =>
      cases c with
      | nil => simp [qstringLess] at hbc
      | cons z c => rfl
  | cons x a ih =>
    cases b with
    | nil => simp [qstringLess] at hab
    | cons y b =>
      cases c with
      | nil => simp [qstringLess] at hbc
      | cons z c =>
        unfold qstringLess at hab hbc ⊢
        by_cases hxy : x = y
        · subst hxy
          simp only [if_true] at hab
          by_cases hxz : x = z
          · subst hxz
            simp only [if_true] at hbc ⊢
            exact ih b c hab hbc
          · simp only [hxz, if_false] at hbc ⊢
            exact hbc
        · simp only [hxy, if_false, decide_eq_true_eq] at hab
          by_cases hyz : y = z
          · subst hyz
            simp only [hxy, if_false, decide_eq_true_eq]
            exact hab
          · simp only [hyz, if_false, decide_eq_true_eq] at hbc
            have hxz : x < z := lt_trans hab hbc
            simp only [ne_of_lt hxz, if_false, decide_eq_true_eq]
            exact hxz

theorem qstringLess_total (a b : QString) (hne : a ≠ b) (hab : qstringLess a b = false) :
    qstringLess b a = true := by
  induction a generalizing b with
  | nil =>
    cases b with
    | nil => exact absurd rfl hne
    | cons y b => simp [qstringLess] at hab
  | cons x a ih =>
    cases b with
    | nil => rfl
    | cons y b =>
      unfold qstringLess at hab ⊢
      by_cases hxy : x = y
      · subst hxy
        simp only [if_true] at hab ⊢
        exact ih b (fun h => hne (by rw [h])) hab
      · have hyx : ¬ y = x := fun h => hxy h.symm
        simp only [hxy, if_false, decide_eq_false_iff_not] at hab
        simp only [hyx, if_false, decide_eq_true_eq]
        exact lt_of_le_of_ne (not_lt.1 hab) hyx

theorem mem_insert_file (files : filemap_t) (key : QString) (e : WorkspaceFile)
    (kv : QString × WorkspaceFile) (h : kv ∈ filemap_t.insert files key e) :
    kv = (key, e) ∨ kv ∈ files := by
  induction files with
  | nil =>
    simp only [filemap_t.insert, List.mem_singleton] at h
    exact Or.inl h
  | cons hd rest ih =>
    obtain ⟨k, v⟩ := hd
    unfold filemap_t.insert at h
    by_cases h1 : key = k
    · rw [if_pos h1] at h
      rcases List.mem_cons.1 h with h3 | h3
      · exact Or.inl h3
      · exact Or.inr (List.mem_cons_of_mem _ h3)
    · rw [if_neg h1] at h
      by_cases h2 : qstringLess key k = true
      · rw [if_pos h2] at h
        rcases List.mem_cons.1 h with h3 | h3
        · exact Or.inl h3
        · exact Or.inr h3
      · rw [if_neg h2] at h
        rcases List.mem_cons.1 h with h3 | h3
        · exact Or.inr (h3 ▸ List.mem_cons_self _ _)
        · rcases ih h3 with h4 | h4
          · exact Or.inl h4
          · exact Or.inr (List.mem_cons_of_mem _ h4)

theorem sortedKeys_insert (files : filemap_t) (key : QString) (e : WorkspaceFile)
    (hs : SortedKeys files) : SortedKeys (filemap_t.insert files key e) := by
  induction files with
  | nil => simp [filemap_t.insert, SortedKeys]
  | cons hd rest ih =>
    obtain ⟨k, v⟩ := hd
    unfold SortedKeys at hs ih ⊢
    rw [List.map_cons, List.pairwise_cons] at hs
    unfold filemap_t.insert
    by_cases h1 : key = k
    · rw [if_pos h1, List.map_cons, List.pairwise_cons, h1]
      exact hs
    · rw [if_neg h1]
      by_cases h2 : qstringLess key k = true
      · rw [if_pos h2, List.map_cons, List.map_cons, List.pairwise_cons, List.pairwise_cons]
        refine ⟨?_, hs⟩
        intro x hx
        rcases List.mem_cons.1 hx with hx | hx
        · rw [hx]
          exact h2
        · exact qstringLess_trans key k x h2 (hs.1 x hx)
      · rw [if_neg h2, List.map_cons, List.pairwise_cons]
        refine ⟨?_, ih hs.2⟩
        intro x hx
        obtain ⟨kv, hkv, rfl⟩ := List.mem_map.1 hx
        rcases mem_insert_file rest key e kv hkv with h3 | h3
        · rw [h3]
          exact qstringLess_total key k h1 (by simpa using h2)
        · exact hs.1 kv.1 (List.mem_map.2 ⟨kv, h3, rfl⟩)

theorem sortedKeys_nodup (files : filemap_t) (hs : SortedKeys files) :
    (files.map Prod.fst).Nodup := by
  unfold SortedKeys at hs
  refine List.Pairwise.imp ?_ hs
  intro a b hab heq
  rw [heq, qstringLess_irrefl] at hab
  exact Bool.false_ne_true hab

theorem storeFile_invariant (keepOld : WorkspaceFile → WorkspaceFile → Bool)
    (files : filemap_t) (e : WorkspaceFile)
    (h : SortedKeys files ∧ ∀ kv ∈ files, kv.1 = kv.2.getFilePath) :
    SortedKeys (storeFile keepOld files e) ∧
      ∀ kv ∈ storeFile keepOld files e, kv.1 = kv.2.getFilePath := by
  have hins : SortedKeys (filemap_t.insert files e.getFilePath e) ∧
      ∀ kv ∈ filemap_t.insert files e.getFilePath e, kv.1 = kv.2.getFilePath := by
    refine ⟨sortedKeys_insert files _ e h.1, ?_⟩
    intro kv hkv
    rcases mem_insert_file files _ e kv hkv with h1 | h1
    · rw [h1]
    · exact h.2 kv h1
  unfold storeFile
  cases hfind : filemap_t.find files e.getFilePath with
  | none => exact hins
  | some old =>
    by_cases hkeep : keepOld old e = true
    · simp only [hkeep, if_true]
      exact h
    · simp only [hkeep, if_false]
      exact hins

theorem scanFiles_invariant (keepOld : WorkspaceFile → WorkspaceFile → Bool)
    (records : List WorkspaceFile) :
    SortedKeys (scanFiles keepOld records) ∧
      ∀ kv ∈ scanFiles keepOld records, kv.1 = kv.2.getFilePath := by
  have hgen : ∀ (files : filemap_t),
      (SortedKeys files ∧ ∀ kv ∈ files, kv.1 = kv.2.getFilePath) →
      SortedKeys (records.foldl (storeFile keepOld) files) ∧
        ∀ kv ∈ records.foldl (storeFile keepOld) files, kv.1 = kv.2.getFilePath := by
    induction records with
    | nil => exact fun files h => h
    | cons e rest ih =>
      intro files h
      exact ih _ (storeFile_invariant keepOld files e h)
  exact hgen [] ⟨by simp [SortedKeys], by simp⟩

theorem scanFiles_keyed (keepOld : WorkspaceFile → WorkspaceFile → Bool)
    (records : List WorkspaceFile) : KeyedByFilePath (scanFiles keepOld records) :=
  ⟨sortedKeys_nodup _ (scanFiles_invariant keepOld records).1,
    (scanFiles_invariant keepOld records).2⟩

theorem allCells_range (rows : List FileRow) (r : Nat) (mi : Nat × Nat)
    (h : mi ∈ MainWindow.allCells rows r) : mi.1 < r + rows.length := by
  induction rows generalizing r with
  | nil => simp [MainWindow.allCells] at h
  | cons row rows ih =>
    unfold MainWindow.allCells at h
    rcases List.mem_append.1 h with h1 | h1
    · simp only [MainWindow.rowCells, List.mem_cons, List.mem_singleton, List.not_mem_nil,
        or_false] at h1
      rcases h1 with h1 | h1 | h1 | h1 | h1 <;> simp [h1]
    · have := ih (r + 1) h1
      simp only [List.length_cons]
      omega

theorem fileSelectionLoop_isSome (files : filemap_t) (rows : List FileRow) (includeMask : Nat)
    (selection : List (Nat × Nat)) (filenames : QStringList)
    (hrows : ∀ row ∈ rows, ∃ e, filemap_t.find files row.filenameData = some e)
    (hsel : ∀ mi ∈ selection, mi.1 < rows.length) :
    (MainWindow.fileSelectionLoop files rows includeMask selection filenames).isSome = true := by
  induction selection generalizing filenames with
  | nil => rfl
  | cons mi rest ih =>
    have hrest : ∀ mi2 ∈ rest, mi2.1 < rows.length :=
      fun mi2 h => hsel mi2 (List.mem_cons_of_mem _ h)
    unfold MainWindow.fileSelectionLoop
    by_cases hc : mi.2 ≠ COLUMN_FILENAME
    · rw [if_pos hc]
      exact ih filenames hrest
    · rw [if_neg hc]
      have hlt : mi.1 < rows.length := hsel mi (List.mem_cons_self _ _)
      have hdata : MainWindow.fileModelData rows mi = (rows.get ⟨mi.1, hlt⟩).filenameData := by
        unfold MainWindow.fileModelData
        rw [if_pos (not_not.1 hc), List.get?_eq_get hlt]
      obtain ⟨e, he⟩ := hrows _ (List.get_mem rows mi.1 hlt)
      simp only [hdata, he]
      by_cases hm : includeMask &&& e.getType = 0
      · rw [if_pos hm]
        exact ih filenames hrest
      · rw [if_neg hm]
        exact ih _ hrest

theorem filePaths_nodup (files : filemap_t) (hk : KeyedByFilePath files)
    (p : WorkspaceFile → Bool) :
    (((files.map Prod.snd).filter p).map WorkspaceFile.getFilePath).Nodup := by
  have hkeys : (files.map Prod.snd).map WorkspaceFile.getFilePath = files.map Prod.fst := by
    rw [List.map_map]
    apply List.map_congr_left
    intro kv hkv
    exact (hk.2 kv hkv).symm
  have hnd : ((files.map Prod.snd).map WorkspaceFile.getFilePath).Nodup := by
    rw [hkeys]
    exact hk.1
  exact List.Nodup.sublist (List.Sublist.map _ (List.filter_sublist _)) hnd

theorem fileViewRows_found (env : Env) (viewMode : ViewMode) (selectedDirs : stringset_t)
    (display_path : Bool) (files : filemap_t) (hk : KeyedByFilePath files) (row : FileRow)
    (hrow : row ∈ fileViewRows env viewMode selectedDirs display_path files) :
    ∃ e, filemap_t.find files row.filenameData = some e ∧ row = fileRow env display_path e := by
  rw [fileViewRows_eq_filter] at hrow
  obtain ⟨e, he, rfl⟩ := List.mem_map.1 hrow
  obtain ⟨kv, hkv, rfl⟩ := List.mem_map.1 (List.mem_filter.1 he).1
  exact ⟨kv.2, find_filePath files hk kv hkv, rfl⟩

theorem newChain_text (dir : QString) (rest : QStringList) (fullpath : QString) :
    (newChain dir rest fullpath).text = dir := by
  cases rest <;> rfl

theorem newChain_siblingsDistinct (dir : QString) (rest : QStringList) (fullpath : QString) :
    siblingsDistinct (newChain dir rest fullpath) = true := by
  induction rest generalizing dir fullpath with
  | nil => simp [newChain, siblingsDistinct, siblingsDistinctList]
  | cons d ds ih => simp [newChain, siblingsDistinct, siblingsDistinctList, ih]

theorem findChild_none_not_mem (rows : List QStandardItem) (r : Nat) (dir : QString)
    (rest : QStringList) (fullpath : QString)
    (h : findChild rows 0 r dir rest fullpath = none) :
    dir ∉ rows.map QStandardItem.text := by
  induction rows generalizing r with
  | nil => simp
  | cons c cs ih =>
    obtain ⟨t, d, ch⟩ := c
    rw [findChild] at h
    by_cases ht : t = dir
    · rw [if_pos ht] at h
      split at h <;> simp at h
    · rw [if_neg ht] at h
      simp only [Option.map_eq_none'] at h
      simp only [List.map_cons, List.mem_cons, QStandardItem.text, not_or]
      exact ⟨fun h2 => ht h2.symm, ih _ h⟩

theorem siblingsDistinctList_append (xs ys : List QStandardItem) :
    siblingsDistinctList (xs ++ ys) = (siblingsDistinctList xs && siblingsDistinctList ys) := by
  induction xs with
  | nil => simp [siblingsDistinctList]
  | cons x xs ih => simp [siblingsDistinctList, ih, Bool.and_assoc]

mutual
theorem addDirs_keeps (parent : QStandardItem) (dirs : QStringList) (fullpath : QString) :
    (addDirs parent dirs fullpath).text = parent.text ∧
      (addDirs parent dirs fullpath).data = parent.data ∧
      (siblingsDistinct parent = true → siblingsDistinct (addDirs parent dirs fullpath) = true) := by
  match parent, dirs with
  | p, [] =>
    rw [addDirs]
    exact ⟨rfl, rfl, id⟩
  | .mk t d ch, dir :: rest =>
    rw [addDirs]
    cases hfc : findChild ch 0 0 dir rest (fullpath ++ dir) with
    | none =>
      refine ⟨rfl, rfl, ?_⟩
      intro h
      have hnot := findChild_none_not_mem ch 0 dir rest _ hfc
      simp only [siblingsDistinct, Bool.and_eq_true, decide_eq_true_eq] at h ⊢
      refine ⟨?_, ?_⟩
      · rw [List.map_append, List.nodup_append]
        refine ⟨h.1, by simp, ?_⟩
        intro a ha hb
        simp only [List.map_cons, List.map_nil, List.mem_singleton, newChain_text] at hb
        exact hnot (hb ▸ ha)
      · rw [siblingsDistinctList_append]
        simp [siblingsDistinctList, h.2, newChain_siblingsDistinct]
    | some ch2 =>
      refine ⟨rfl, rfl, ?_⟩
      intro h
      have hch := findChild_keeps ch 0 0 dir rest (fullpath ++ dir) ch2 hfc
      simp only [siblingsDistinct, Bool.and_eq_true, decide_eq_true_eq] at h ⊢
      exact ⟨hch.1 ▸ h.1, hch.2 h.2⟩
termination_by sizeOf parent
theorem findChild_keeps (rows : List QStandardItem) (skip r : Nat) (dir : QString)
    (rest : QStringList) (fullpath : QString) (rows2 : List QStandardItem)
    (h : findChild rows skip r dir rest fullpath = some rows2) :
    rows2.map QStandardItem.text = rows.map QStandardItem.text ∧
      (siblingsDistinctList rows = true → siblingsDistinctList rows2 = true) := by
  match rows, skip with
  | [], _ =>
    rw [findChild] at h
    simp at h
  | c :: cs, s + 1 =>
    rw [findChild] at h
    simp only [Option.map_eq_some'] at h
    obtain ⟨cs2, hcs, rfl⟩ := h
    have hrec := findChild_keeps cs s r dir rest fullpath cs2 hcs
    refine ⟨by simp [hrec.1], ?_⟩
    intro hd
    simp only [siblingsDistinctList, Bool.and_eq_true] at hd ⊢
    exact ⟨hd.1, hrec.2 hd.2⟩
  | (.mk t d ch) :: cs, 0 =>
    rw [findChild] at h
    by_cases ht : t = dir
    · rw [if_pos ht] at h
      cases hfc : findChild ch (r + 1) (r + 1) dir rest fullpath with
      | some ch2 =>
        rw [hfc] at h
        simp only [Option.some.injEq] at h
        subst h
        have hrec := findChild_keeps ch (r + 1) (r + 1) dir rest fullpath ch2 hfc
        refine ⟨rfl, ?_⟩
        intro hd
        simp only [siblingsDistinctList, siblingsDistinct, Bool.and_eq_true,
          decide_eq_true_eq] at hd ⊢
        exact ⟨⟨hrec.1 ▸ hd.1.1, hrec.2 hd.1.2⟩, hd.2⟩
      | none =>
        rw [hfc] at h
        simp only [Option.some.injEq] at h
        subst h
        have hrec := addDirs_keeps (.mk t d ch) rest (fullpath ++ ['/'])
        refine ⟨by simp [hrec.1], ?_⟩
        intro hd
        simp only [siblingsDistinctList, Bool.and_eq_true] at hd ⊢
        exact ⟨hrec.2.2 hd.1, hd.2⟩
    · rw [if_neg ht] at h
      simp only [Option.map_eq_some'] at h
      obtain ⟨cs2, hcs, rfl⟩ := h
      have hrec := findChild_keeps cs 0 (r + 1) dir rest fullpath cs2 hcs
      refine ⟨by simp [hrec.1], ?_⟩
      intro hd
      simp only [siblingsDistinctList, Bool.and_eq_true] at hd ⊢
      exact ⟨hd.1, hrec.2 hd.2⟩
termination_by sizeOf rows
end

theorem addPathToTree_siblingsDistinct (root : QStandardItem) (path : QString)
    (h : siblingsDistinct root = true) : siblingsDistinct (addPathToTree root path) = true :=
  (addDirs_keeps root (split '/' path) []).2.2 h

theorem foldl_addPathToTree_siblingsDistinct (paths : List QString) (root : QStandardItem)
    (h : siblingsDistinct root = true) :
    siblingsDistinct (paths.foldl addPathToTree root) = true := by
  induction paths generalizing root with
  | nil => exact h
  | cons p ps ih => exact ih _ (addPathToTree_siblingsDistinct root p h)

theorem addPaths_root (paths : List QString) (root : QStandardItem) :
    (addPaths root paths).text = root.text ∧ (addPaths root paths).data = root.data := by
  induction paths generalizing root with
  | nil => exact ⟨rfl, rfl⟩
  | cons p ps ih =>
    unfold addPaths
    by_cases hp : p.isEmpty = true
    · rw [if_pos hp]
      exact ih root
    · rw [if_neg hp]
      have h1 := ih (addPathToTree root p)
      have h2 := addDirs_keeps root (split '/' p) []
      exact ⟨h1.1.trans h2.1, h1.2.trans h2.2.1⟩

theorem newChain_eq_chainRows (dir : QString) (rest : QStringList) (fullpath : QString) :
    newChain dir rest fullpath = .mk dir fullpath (chainRows rest (fullpath ++ ['/'])) := by
  induction rest generalizing dir fullpath with
  | nil => rfl
  | cons d ds ih =>
    rw [newChain, ih]
    rfl

theorem findChild_chainRows_skip (xs : QStringList) (fp : QString) (r : Nat) (dir : QString)
    (rest : QStringList) (fullpath : QString) :
    findChild (chainRows xs fp) (r + 1) (r + 1) dir rest fullpath = none := by
  cases xs with
  | nil => simp [chainRows, findChild]
  | cons x xs => simp [chainRows, findChild]

theorem addDirs_chainRows (ys xs : QStringList) (t d fp : QString)
    (h : xs <+: ys ∨ ys <+: xs) :
    addDirs (.mk t d (chainRows xs fp)) ys fp =
      .mk t d (chainRows (if xs.length ≤ ys.length then ys else xs) fp) := by
  induction ys generalizing xs t d fp with
  | nil =>
    rw [addDirs]
    cases xs with
    | nil => rfl
    | cons x xs => simp
  | cons y ys ih =>
    cases xs with
    | nil =>
      rw [addDirs]
      simp [chainRows, findChild, newChain_eq_chainRows]
    | cons x xs =>
      have hxy : x = y := by
        rcases h with h | h
        · exact (List.cons_prefix_cons.1 h).1
        · exact (List.cons_prefix_cons.1 h).1.symm
      have hrest : xs <+: ys ∨ ys <+: xs := by
        rcases h with h | h
        · exact Or.inl (List.cons_prefix_cons.1 h).2
        · exact Or.inr (List.cons_prefix_cons.1 h).2
      subst hxy
      rw [addDirs]
      simp only [chainRows]
      rw [findChild, if_pos rfl, findChild_chainRows_skip]
      simp only
      rw [ih xs x (fp ++ x) (fp ++ x ++ ['/']) hrest]
      by_cases hl : xs.length ≤ ys.length
      · simp [hl, chainRows]
      · simp [hl, chainRows]

theorem split_no_sep (sep : Char) (s : QString) (h : sep ∉ s) : split sep s = [s] := by
  induction s with
  | nil => rfl
  | cons c s ih =>
    have hc : ¬ c = sep := fun hc => h (hc ▸ List.mem_cons_self _ _)
    have hs : sep ∉ s := fun hs => h (List.mem_cons_of_mem _ hs)
    rw [split, if_neg hc, ih hs]

theorem split_append_sep (sep : Char) (s rest : QString) (h : sep ∉ s) :
    split sep (s ++ sep :: rest) = s :: split sep rest := by
  induction s with
  | nil =>
    rw [List.nil_append, split, if_pos rfl]
  | cons c s ih =>
    have hc : ¬ c = sep := fun hc => h (hc ▸ List.mem_cons_self _ _)
    have hs : sep ∉ s := fun hs => h (List.mem_cons_of_mem _ hs)
    rw [List.cons_append, split, if_neg hc, ih hs]

theorem split_joinPath (segs : QStringList) (hne : segs ≠ [])
    (hsep : ∀ s ∈ segs, '/' ∉ s) : split '/' (joinPath segs) = segs := by
  induction segs with
  | nil => exact absurd rfl hne
  | cons s rest ih =>
    cases rest with
    | nil =>
      rw [joinPath]
      exact split_no_sep '/' s (hsep s (List.mem_cons_self _ _))
    | cons t rest =>
      rw [joinPath, split_append_sep '/' s _ (hsep s (List.mem_cons_self _ _)),
        ih (List.cons_ne_nil _ _) (fun x hx => hsep x (List.mem_cons_of_mem _ hx))]

theorem joinPath_isEmpty (segs : QStringList) (hne : segs ≠ [])
    (hseg : ∀ s ∈ segs, s ≠ []) : (joinPath segs).isEmpty = false := by
  cases segs with
  | nil => exact absurd rfl hne
  | cons s rest =>
    have hs : s ≠ [] := hseg s (List.mem_cons_self _ _)
    cases s with
    | nil => exact absurd rfl hs
    | cons c s =>
      cases rest with
      | nil => rfl
      | cons t rest => rfl

theorem nodesOfList_chainRows (segs : QStringList) (fp : QString) :
    (nodesOfList (chainRows segs fp)).length = segs.length := by
  induction segs generalizing fp with
  | nil => rfl
  | cons s rest ih =>
    simp [chainRows, nodesOfList, nodesOf, ih]

theorem foldl_max_bounds (ks : List Nat) (m n : Nat) (hm : m ≤ n) (hks : ∀ k ∈ ks, k ≤ n) :
    m ≤ ks.foldl max m ∧ ks.foldl max m ≤ n ∧ ∀ k ∈ ks, k ≤ ks.foldl max m := by
  induction ks generalizing m with
  | nil => simp [hm]
  | cons k ks ih =>
    have hk : k ≤ n := hks k (List.mem_cons_self _ _)
    have h := ih (max m k) (max_le hm hk) (fun x hx => hks x (List.mem_cons_of_mem _ hx))
    rw [List.foldl_cons]
    refine ⟨le_trans (le_max_left m k) h.1, h.2.1, ?_⟩
    intro x hx
    rcases List.mem_cons.1 hx with hx | hx
    · rw [hx]
      exact le_trans (le_max_right m k) h.1
    · exact h.2.2 x hx

theorem addPaths_chain (projectName : QString) (segs : QStringList)
    (hseg : ∀ s ∈ segs, s ≠ [] ∧ '/' ∉ s) (ks : List Nat) (m : Nat) (hm : m ≤ segs.length)
    (hks : ∀ k ∈ ks, 1 ≤ k ∧ k ≤ segs.length) :
    addPaths (.mk projectName [] (chainRows (segs.take m) []))
        (ks.map (fun k => joinPath (segs.take k))) =
      .mk projectName [] (chainRows (segs.take (ks.foldl max m)) []) := by
  induction ks generalizing m with
  | nil => rfl
  | cons k ks ih =>
    have hk := hks k (List.mem_cons_self _ _)
    have htake : segs.take k ≠ [] := by
      intro h0
      have hlen : (segs.take k).length = 0 := by rw [h0]; rfl
      rw [List.length_take] at hlen
      omega
    have hne : (joinPath (segs.take k)).isEmpty = false :=
      joinPath_isEmpty _ htake (fun s hs => (hseg s (List.mem_of_mem_take hs)).1)
    have hsplit : split '/' (joinPath (segs.take k)) = segs.take k :=
      split_joinPath _ htake (fun s hs => (hseg s (List.mem_of_mem_take hs)).2)
    have hpre : segs.take m <+: segs.take k ∨ segs.take k <+: segs.take m := by
      rcases Nat.le_total m k with h | h
      · exact Or.inl (List.take_prefix_take_left segs h)
      · exact Or.inr (List.take_prefix_take_left segs h)
    have hstep : addPathToTree (.mk projectName [] (chainRows (segs.take m) []))
        (joinPath (segs.take k)) =
        .mk projectName [] (chainRows (segs.take (max m k)) []) := by
      unfold addPathToTree
      rw [hsplit, addDirs_chainRows _ _ _ _ _ hpre]
      simp only [List.length_take]
      by_cases hmk : m ≤ k
      · have h1 : min m segs.length ≤ min k segs.length := by omega
        rw [if_pos h1, max_eq_right hmk]
      · have h1 : ¬ min m segs.length ≤ min k segs.length := by omega
        rw [if_neg h1, max_eq_left (by omega)]
    rw [List.map_cons, addPaths, hne]
    simp only [Bool.false_eq_true, if_false]
    rw [hstep, List.foldl_cons]
    exact ih (max m k) (max_le hm hk.2) (fun x hx => hks x (List.mem_cons_of_mem _ hx))

theorem mem_tree_rows_data (env : Env) (w : MainWindow) (selected : stringset_t) (f : QString) :
    f ∈ (MainWindow.updateFileView env
        { w with viewMode := ViewMode.VIEWMODE_TREE, selectedDirs := selected }).fileModel.map
        FileRow.filenameData ↔
      ∃ kv ∈ w.files, kv.2.getPath ∈ selected ∧ kv.2.getFilePath = f := by
  simp only [MainWindow.updateFileView, fileViewRows_eq_filter, List.map_map, List.mem_map,
    List.mem_filter, decide_eq_true_eq, Function.comp_apply]
  constructor
  · rintro ⟨e, ⟨⟨kv, hkv, rfl⟩, hp⟩, hf⟩
    rcases hp with hp | hp
    · exact absurd hp (by decide)
    · exact ⟨kv, hkv, hp, hf⟩
  · rintro ⟨kv, hkv, hp, hf⟩
    exact ⟨kv.2, ⟨⟨kv, hkv, rfl⟩, Or.inr hp⟩, hf⟩

theorem QMap.find_insert {β : Type} (m : List (QString × β)) (key : QString) (v : β)
    (key2 : QString) :
    QMap.find (QMap.insert m key v) key2 = if key2 = key then some v else QMap.find m key2 := by
  induction m with
  | nil =>
    by_cases h : key2 = key
    · simp [QMap.insert, QMap.find, h]
    · have h2 : ¬ key = key2 := fun h3 => h h3.symm
      simp [QMap.insert, QMap.find, h, h2]
  | cons hd rest ih =>
    obtain ⟨k, x⟩ := hd
    unfold QMap.insert
    by_cases h1 : key = k
    · rw [if_pos h1]
      subst h1
      by_cases h : key2 = key
      · simp [QMap.find, h]
      · have h2 : ¬ key = key2 := fun h3 => h h3.symm
        simp [QMap.find, h, h2]
    · rw [if_neg h1]
      by_cases h3 : qstringLess key k = true
      · rw [if_pos h3]
        by_cases h : key2 = key
        · simp [QMap.find, h]
        · have h2 : ¬ key = key2 := fun h4 => h h4.symm
          simp [QMap.find, h, h2]
      · rw [if_neg h3]
        by_cases h : key2 = key
        · subst h
          have h2 : ¬ k = key2 := fun h4 => h1 h4.symm
          simp [QMap.find, h2, ih]
        · by_cases h5 : k = key2
          · simp [QMap.find, h5, h]
          · simp [QMap.find, h5, ih, h]

theorem filemap_insert_eq (files : filemap_t) (key : QString) (e : WorkspaceFile) :
    filemap_t.insert files key e = QMap.insert files key e := by
  induction files with
  | nil => rfl
  | cons hd rest ih =>
    obtain ⟨k, x⟩ := hd
    simp only [filemap_t.insert, QMap.insert, ih]

theorem filemap_find_eq (files : filemap_t) (key : QString) :
    filemap_t.find files key = QMap.find files key := by
  induction files with
  | nil => rfl
  | cons hd rest ih =>
    obtain ⟨k, x⟩ := hd
    simp only [filemap_t.find, QMap.find, ih]

theorem find_insert_file (files : filemap_t) (key : QString) (e : WorkspaceFile)
    (key2 : QString) :
    filemap_t.find (filemap_t.insert files key e) key2 =
      if key2 = key then some e else filemap_t.find files key2 := by
  rw [filemap_insert_eq, filemap_find_eq, filemap_find_eq, QMap.find_insert]

theorem find_foldl_insert (reported : List (QString × QString)) (m : stashmap_t)
    (name : QString) :
    QMap.find (reported.foldl (fun stashes pair => QMap.insert stashes pair.1 pair.2) m) name =
      match reported.reverse.find? (fun pair => decide (pair.1 = name)) with
      | some pair => some pair.2
      | none => QMap.find m name := by
  induction reported generalizing m with
  | nil => rfl
  | cons p ps ih =>
    rw [List.foldl_cons, ih, List.reverse_cons, List.find?_append]
    cases hps : List.find? (fun pair => decide (pair.1 = name)) ps.reverse with
    | some q => rfl
    | none =>
      simp only [Option.none_or, List.find?_cons, List.find?_nil, QMap.find_insert]
      by_cases h : p.1 = name
      · simp [h]
      · have h2 : ¬ name = p.1 := fun h3 => h h3.symm
        simp [h, h2]

theorem priority_injective (a b : StatusType) (h : a.priority = b.priority) : a = b := by
  cases a <;> cases b <;> simp [StatusType.priority] at h <;> rfl

theorem storeFile_find (keepOld : WorkspaceFile → WorkspaceFile → Bool) (files : filemap_t)
    (e : WorkspaceFile) (key : QString) :
    filemap_t.find (storeFile keepOld files e) key =
      if key = e.getFilePath then
        (match filemap_t.find files e.getFilePath with
          | some old => if keepOld old e then some old else some e
          | none => some e)
      else filemap_t.find files key := by
  unfold storeFile
  cases hfind : filemap_t.find files e.getFilePath with
  | none =>
    simp only [find_insert_file]
  | some old =>
    by_cases hkeep : keepOld old e = true
    · simp only [hkeep, if_true]
      by_cases hkey : key = e.getFilePath
      · rw [if_pos hkey, hkey, hfind]
      · rw [if_neg hkey]
    · simp only [hkeep, Bool.false_eq_true, if_false, find_insert_file]

theorem storeFile_keeps_highest (classify : Nat → StatusType) (files : filemap_t)
    (seen : List WorkspaceFile) (x : WorkspaceFile)
    (hnone : ∀ p, filemap_t.find files p = none → ∀ e ∈ seen, e.getFilePath ≠ p)
    (hsome : ∀ p e, filemap_t.find files p = some e →
      e ∈ seen ∧ e.getFilePath = p ∧
        ∀ e2 ∈ seen, e2.getFilePath = p →
          (classify e2.getType).priority ≤ (classify e.getType).priority) :
    (∀ p, filemap_t.find (storeFile (keepMoreSpecific classify) files x) p = none →
      ∀ e ∈ seen ++ [x], e.getFilePath ≠ p)
    ∧ (∀ p e, filemap_t.find (storeFile (keepMoreSpecific classify) files x) p = some e →
      e ∈ seen ++ [x] ∧ e.getFilePath = p ∧
        ∀ e2 ∈ seen ++ [x], e2.getFilePath = p →
          (classify e2.getType).priority ≤ (classify e.getType).priority) := by
  refine ⟨?_, ?_⟩
  · intro p hp e he
    rw [storeFile_find] at hp
    by_cases hpx : p = x.getFilePath
    · rw [if_pos hpx] at hp
      cases hold : filemap_t.find files x.getFilePath with
      | none => simp [hold] at hp
      | some old =>
        rw [hold] at hp
        by_cases hkeep : keepMoreSpecific classify old x = true <;> simp [hkeep] at hp
    · rw [if_neg hpx] at hp
      rcases List.mem_append.1 he with h | h
      · exact hnone p hp e h
      · rw [List.mem_singleton] at h
        rw [h]
        exact fun h2 => hpx h2.symm
  · intro p e hp
    rw [storeFile_find] at hp
    by_cases hpx : p = x.getFilePath
    · rw [if_pos hpx] at hp
      cases hold : filemap_t.find files x.getFilePath with
      | none =>
        simp only [hold, Option.some.injEq] at hp
        subst hp
        refine ⟨List.mem_append_right _ (List.mem_singleton_self _), hpx.symm, ?_⟩
        intro e2 he2 hpath
        rcases List.mem_append.1 he2 with h | h
        · exact absurd (hpx ▸ hpath) (hnone _ hold e2 h)
        · rw [List.mem_singleton] at h
          rw [h]
      | some old =>
        have hinv := hsome _ old hold
        rw [hold] at hp
        by_cases hkeep : keepMoreSpecific classify old x = true
        · simp only [hkeep, if_true, Option.some.injEq] at hp
          subst hp
          refine ⟨List.mem_append_left _ hinv.1, hpx ▸ hinv.2.1, ?_⟩
          intro e2 he2 hpath
          rcases List.mem_append.1 he2 with h | h
          · exact hinv.2.2 e2 h (hpx ▸ hpath)
          · rw [List.mem_singleton] at h
            rw [h]
            simpa [keepMoreSpecific] using hkeep
        · simp only [hkeep, Bool.false_eq_true, if_false, Option.some.injEq] at hp
          subst hp
          have hlt : (classify old.getType).priority < (classify x.getType).priority := by
            simpa [keepMoreSpecific] using hkeep
          refine ⟨List.mem_append_right _ (List.mem_singleton_self _), hpx.symm, ?_⟩
          intro e2 he2 hpath
          rcases List.mem_append.1 he2 with h | h
          · exact le_trans (hinv.2.2 e2 h (hpx ▸ hpath)) (le_of_lt hlt)
          · rw [List.mem_singleton] at h
            rw [h]
    · rw [if_neg hpx] at hp
      have hinv := hsome p e hp
      refine ⟨List.mem_append_left _ hinv.1, hinv.2.1, ?_⟩
      intro e2 he2 hpath
      rcases List.mem_append.1 he2 with h | h
      · exact hinv.2.2 e2 h hpath
      · rw [List.mem_singleton] at h
        rw [h] at hpath
        exact absurd hpath.symm hpx

theorem foldl_storeFile_keeps_highest (classify : Nat → StatusType)
    (records : List WorkspaceFile) (files : filemap_t) (seen : List WorkspaceFile)
    (hnone : ∀ p, filemap_t.find files p = none → ∀ e ∈ seen, e.getFilePath ≠ p)
    (hsome : ∀ p e, filemap_t.find files p = some e →
      e ∈ seen ∧ e.getFilePath = p ∧
        ∀ e2 ∈ seen, e2.getFilePath = p →
          (classify e2.getType).priority ≤ (classify e.getType).priority) :
    (∀ p, filemap_t.find (records.foldl (storeFile (keepMoreSpecific classify)) files) p = none →
      ∀ e ∈ seen ++ records, e.getFilePath ≠ p)
    ∧ (∀ p e,
      filemap_t.find (records.foldl (storeFile (keepMoreSpecific classify)) files) p = some e →
      e ∈ seen ++ records ∧ e.getFilePath = p ∧
        ∀ e2 ∈ seen ++ records, e2.getFilePath = p →
          (classify e2.getType).priority ≤ (classify e.getType).priority) := by
  induction records generalizing files seen with
  | nil =>
    simp only [List.foldl_nil, List.append_nil]
    exact ⟨hnone, hsome⟩
  | cons x rest ih =>
    have hstep := storeFile_keeps_highest classify files seen x hnone hsome
    have h := ih (storeFile (keepMoreSpecific classify) files x) (seen ++ [x]) hstep.1 hstep.2
    simp only [List.append_assoc, List.singleton_append] at h
    exact h

theorem scanFiles_keeps_highest (classify : Nat → StatusType) (records : List WorkspaceFile) :
    (∀ p, filemap_t.find (scanFiles (keepMoreSpecific classify) records) p = none →
      ∀ e ∈ records, e.getFilePath ≠ p)
    ∧ (∀ p e, filemap_t.find (scanFiles (keepMoreSpecific classify) records) p = some e →
      e ∈ records ∧ e.getFilePath = p ∧
        ∀ e2 ∈ records, e2.getFilePath = p →
          (classify e2.getType).priority ≤ (classify e.getType).priority) := by
  have h := foldl_storeFile_keeps_highest classify records [] []
    (fun _ _ e he => absurd he (List.not_mem_nil e))
    (fun p e hp => by simp [filemap_t.find] at hp)
  simpa [scanFiles] using h

theorem indexOfFrom_single (s : QString) (c : Char) (i : Nat) :
    indexOfFrom s [c] i = -1 ↔ c ∉ s := by
  induction s generalizing i with
  | nil => simp [indexOfFrom]
  | cons x s ih =>
    unfold indexOfFrom
    by_cases hx : x = c
    · subst hx
      simp only [startsWith, beq_self_eq_true, Bool.and_self, if_true, List.mem_cons, true_or,
        not_true_eq_false, iff_false]
      omega
    · have hc : ¬ c = x := fun h => hx h.symm
      simp only [startsWith, beq_iff_eq, hx, Bool.and_true, decide_False, Bool.false_eq_true,
        if_false, ih, List.mem_cons, hc, false_or]

theorem refresh_calls (env : Env) (fossil : Fossil) (w : MainWindow) (c : Call)
    (h : c ∈ (w.refresh env fossil).2.2) :
    c = Call.getRepoStatus ∨ c = Call.loadFossilSettings ∨ c = Call.scanWorkspace := by
  unfold MainWindow.refresh at h
  cases hst : fossil.getRepoStatus <;> simp [hst] at h <;> tauto

theorem indexOfFrom_single_eq (s : QString) (c : Char) (i : Nat) (h : c ∈ s) :
    indexOfFrom s [c] i = ((i + (s.takeWhile (fun x => !(x == c))).length : Nat) : Int) := by
  induction s generalizing i with
  | nil => exact absurd h (List.not_mem_nil c)
  | cons x s ih =>
    unfold indexOfFrom
    by_cases hx : x = c
    · subst hx
      simp [startsWith, List.takeWhile]
    · have hs : c ∈ s := by
        rcases List.mem_cons.1 h with h1 | h1
        · exact absurd h1.symm hx
        · exact h1
      simp only [startsWith, beq_iff_eq, hx, Bool.and_true, decide_False, Bool.false_eq_true,
        if_false, ih (i + 1) hs]
      have hb : (!(x == c)) = true := by simp [hx]
      rw [List.takeWhile_cons, if_pos hb, List.length_cons]
      congr 1
      omega

theorem left_mid_at_first (l : QString) (c : Char) (h : c ∈ l) :
    left l (indexOf l [c]) = l.takeWhile (fun x => !(x == c)) ∧
      mid l (indexOf l [c]) = l.dropWhile (fun x => !(x == c)) := by
  have hidx : indexOf l [c] = (((l.takeWhile (fun x => !(x == c))).length : Nat) : Int) := by
    unfold indexOf
    rw [indexOfFrom_single_eq l c 0 h]
    simp
  have hlt : (l.takeWhile (fun x => !(x == c))).length < l.length := by
    have hsplit := List.takeWhile_append_dropWhile (fun x => !(x == c)) l
    have hne : l.dropWhile (fun x => !(x == c)) ≠ [] := by
      intro hnil
      rw [List.dropWhile_eq_nil_iff] at hnil
      have := hnil c h
      simp at this
    have hlen : l.length = (l.takeWhile (fun x => !(x == c))).length +
        (l.dropWhile (fun x => !(x == c))).length := by
      conv_lhs => rw [← hsplit]
      rw [List.length_append]
    have hpos : 0 < (l.dropWhile (fun x => !(x == c))).length := List.length_pos.2 hne
    omega
  have htd : ∀ (p : Char → Bool) (xs : QString),
      xs.take (xs.takeWhile p).length = xs.takeWhile p ∧
      xs.drop (xs.takeWhile p).length = xs.dropWhile p := by
    intro p xs
    induction xs with
    | nil => simp
    | cons x xs ih =>
      by_cases hp : p x = true
      · simp [List.takeWhile_cons, List.dropWhile_cons, hp, ih.1, ih.2]
      · simp [List.takeWhile_cons, List.dropWhile_cons, hp]
  refine ⟨?_, ?_⟩
  · unfold left
    rw [hidx]
    have hcond : ¬ ((((l.takeWhile (fun x => !(x == c))).length : Nat) : Int) < 0 ∨
        (l.length : Int) ≤ (((l.takeWhile (fun x => !(x == c))).length : Nat) : Int)) := by
      omega
    rw [if_neg hcond, Int.toNat_ofNat]
    exact (htd _ l).1
  · unfold mid
    rw [hidx]
    have hcond : ¬ ((((l.takeWhile (fun x => !(x == c))).length : Nat) : Int) < 0) := by omega
    rw [if_neg hcond, Int.toNat_ofNat]
    exact (htd _ l).2

theorem dropWhile_head_not (p : Char → Bool) (s : QString) (c : Char)
    (h : (s.dropWhile p).head? = some c) : p c = false := by
  induction s with
  | nil => simp at h
  | cons x s ih =>
    by_cases hp : p x = true
    · rw [List.dropWhile_cons, if_pos hp] at h
      exact ih h
    · rw [List.dropWhile_cons, if_neg hp] at h
      simp only [List.head?_cons, Option.some.injEq] at h
      rw [← h]
      simpa using hp

theorem trimmed_ends (s : QString) (c : Char) :
    ((trimmed s).head? = some c → isSpace c = false) ∧
      ((trimmed s).getLast? = some c → isSpace c = false) := by
  unfold trimmed
  refine ⟨?_, ?_⟩
  · intro h
    have hsuf : (s.dropWhile isSpace).reverse.dropWhile isSpace <:+ (s.dropWhile isSpace).reverse :=
      List.dropWhile_suffix _
    have hpre : ((s.dropWhile isSpace).reverse.dropWhile isSpace).reverse <+:
        s.dropWhile isSpace := by
      have := List.reverse_prefix.2 hsuf
      simpa using this
    obtain ⟨t, ht⟩ := hpre
    cases hrev : ((s.dropWhile isSpace).reverse.dropWhile isSpace).reverse with
    | nil => simp [hrev] at h
    | cons x xs =>
      rw [hrev] at h ht
      simp only [List.head?_cons, Option.some.injEq] at h
      subst h
      apply dropWhile_head_not isSpace s
      rw [← ht]
      rfl
  · intro h
    rw [List.getLast?_reverse] at h
    exact dropWhile_head_not isSpace _ c h

theorem trimmed_subset (s : QString) (c : Char) (h : c ∈ trimmed s) : c ∈ s := by
  unfold trimmed at h
  rw [List.mem_reverse] at h
  have h1 := (List.dropWhile_suffix isSpace).subset h
  rw [List.mem_reverse] at h1
  exact (List.dropWhile_suffix isSpace).subset h1

theorem QMap.mem_insert {β : Type} (m : List (QString × β)) (key : QString) (v : β)
    (kv : QString × β) (h : kv ∈ QMap.insert m key v) : kv = (key, v) ∨ kv ∈ m := by
  induction m with
  | nil =>
    simp only [QMap.insert, List.mem_singleton] at h
    exact Or.inl h
  | cons hd rest ih =>
    obtain ⟨k, x⟩ := hd
    unfold QMap.insert at h
    by_cases h1 : key = k
    · rw [if_pos h1] at h
      rcases List.mem_cons.1 h with h3 | h3
      · exact Or.inl h3
      · exact Or.inr (List.mem_cons_of_mem _ h3)
    · rw [if_neg h1] at h
      by_cases h2 : qstringLess key k = true
      · rw [if_pos h2] at h
        rcases List.mem_cons.1 h with h3 | h3
        · exact Or.inl h3
        · exact Or.inr h3
      · rw [if_neg h2] at h
        rcases List.mem_cons.1 h with h3 | h3
        · exact Or.inr (h3 ▸ List.mem_cons_self _ _)
        · rcases ih h3 with h4 | h4
          · exact Or.inl h4
          · exact Or.inr (List.mem_cons_of_mem _ h4)

theorem mem_MakeKeyValues (lines : QStringList) (kv : QString × QString)
    (h : kv ∈ MakeKeyValues lines) : ∃ line ∈ lines, kv = lineKeyValue line := by
  have hgen : ∀ (res : List (QString × QString)),
      kv ∈ lines.foldl (fun res l => QMap.insert res (lineKeyValue l).1 (lineKeyValue l).2) res →
      kv ∈ res ∨ ∃ line ∈ lines, kv = lineKeyValue line := by
    clear h
    induction lines with
    | nil => exact fun res h => Or.inl h
    | cons l ls ih =>
      intro res hres
      rw [List.foldl_cons] at hres
      rcases ih _ hres with h1 | ⟨line, hline, heq⟩
      · rcases QMap.mem_insert _ _ _ _ h1 with h2 | h2
        · exact Or.inr ⟨l, List.mem_cons_self _ _, h2⟩
        · exact Or.inl h2
      · exact Or.inr ⟨line, List.mem_cons_of_mem _ hline, heq⟩
  rcases hgen [] h with h1 | h1
  · exact absurd h1 (List.not_mem_nil _)
  · exact h1

theorem lineKeyValue_spec (line : QString) :
    lineKeyValue line =
      if Char.ofNat 32 ∈ trimmed line then
        (trimmed ((trimmed line).takeWhile (fun x => !(x == Char.ofNat 32))),
          trimmed ((trimmed line).dropWhile (fun x => !(x == Char.ofNat 32))))
      else (trimmed line, []) := by
  unfold lineKeyValue
  by_cases h : Char.ofNat 32 ∈ trimmed line
  · have hidx : indexOf (trimmed line) [Char.ofNat 32] ≠ -1 := by
      intro h1
      exact (indexOfFrom_single _ _ 0).1 h1 h
    have hlm := left_mid_at_first (trimmed line) (Char.ofNat 32) h
    simp only [hidx, ne_eq, not_false_eq_true, if_true, h, hlm.1, hlm.2]
  · have hidx : indexOf (trimmed line) [Char.ofNat 32] = -1 :=
      (indexOfFrom_single _ _ 0).2 h
    simp only [hidx, ne_eq, not_true_eq_false, if_false, h]

theorem collectMoves_eq (old_path new_path : QString) (files : filemap_t) :
    collectMoves old_path new_path files =
      (((files.map Prod.snd).filter (fun r => decide (indexOf r.getPath old_path = 0))),
        ((files.map Prod.snd).filter (fun r => decide (indexOf r.getPath old_path = 0))).map
          (fun r => new_path ++ mid r.getPath (old_path.length : Int)),
        ((files.map Prod.snd).filter (fun r => decide (indexOf r.getPath old_path = 0))).map
          (fun r => r.getFilePath ++ " -> ".toList ++
            (new_path ++ mid r.getPath (old_path.length : Int) ++ "/".toList ++ r.getFilename))) := by
  have hgen : ∀ (acc : List WorkspaceFile × QStringList × QStringList),
      files.foldl
        (fun acc kv =>
          if indexOf kv.2.getPath old_path ≠ 0 then acc
          else
            let new_dir := new_path ++ mid kv.2.getPath (old_path.length : Int)
            let new_file_path := new_dir ++ "/".toList ++ kv.2.getFilename
            (acc.1 ++ [kv.2], acc.2.1 ++ [new_dir],
              acc.2.2 ++ [kv.2.getFilePath ++ " -> ".toList ++ new_file_path]))
        acc =
      (acc.1 ++ ((files.map Prod.snd).filter (fun r => decide (indexOf r.getPath old_path = 0))),
        acc.2.1 ++
          ((files.map Prod.snd).filter (fun r => decide (indexOf r.getPath old_path = 0))).map
            (fun r => new_path ++ mid r.getPath (old_path.length : Int)),
        acc.2.2 ++
          ((files.map Prod.snd).filter (fun r => decide (indexOf r.getPath old_path = 0))).map
            (fun r => r.getFilePath ++ " -> ".toList ++
              (new_path ++ mid r.getPath (old_path.length : Int) ++ "/".toList ++
                r.getFilename))) := by
    induction files with
    | nil => intro acc; simp
    | cons kv rest ih =>
      intro acc
      rw [List.foldl_cons, ih]
      by_cases hidx : indexOf kv.2.getPath old_path = 0
      · simp [hidx]
      · simp [hidx]
  have h := hgen ([], [], [])
  simpa [collectMoves] using h

theorem getD_map_append {α : Type} (f : α → QString) (pre rest : List α) (r : α) :
    ((pre ++ r :: rest).map f).getD pre.length [] = f r := by
  induction pre with
  | nil => rfl
  | cons p pre ih => simpa using ih

theorem indexOfFrom_found_iff (s sub : QString) (i : Nat) :
    indexOfFrom s sub i ≠ -1 ↔ sub <:+: s := by
  induction s generalizing i with
  | nil =>
    cases sub with
    | nil => simp [indexOfFrom]
    | cons d sub => simp [indexOfFrom]
  | cons c s ih =>
    unfold indexOfFrom
    rw [List.infix_cons_iff, ← startsWith_iff]
    by_cases hs : startsWith (c :: s) sub = true
    · rw [if_pos hs]
      constructor
      · intro _
        exact Or.inl hs
      · intro _
        omega
    · rw [if_neg hs, ih]
      constructor
      · intro h
        exact Or.inr h
      · intro h
        rcases h with h | h
        · exact absurd h hs
        · exact h

theorem lastIndexOfFrom_not_mem (s : QString) (c : Char) (i : Nat) (best : Int) (h : c ∉ s) :
    lastIndexOfFrom s [c] i best = best := by
  induction s generalizing i best with
  | nil => simp [lastIndexOfFrom]
  | cons x s ih =>
    have hx : ¬ x = c := fun hxc => h (hxc ▸ List.mem_cons_self _ _)
    have hs : c ∉ s := fun hcs => h (List.mem_cons_of_mem _ hcs)
    unfold lastIndexOfFrom
    rw [ih (i + 1) _ hs]
    simp [startsWith, hx]

theorem lastIndexOfFrom_last (pre post : QString) (c : Char) (i : Nat) (best : Int)
    (h : c ∉ post) :
    lastIndexOfFrom (pre ++ c :: post) [c] i best = ((i + pre.length : Nat) : Int) := by
  induction pre generalizing i best with
  | nil =>
    rw [List.nil_append]
    unfold lastIndexOfFrom
    rw [lastIndexOfFrom_not_mem post c (i + 1) _ h]
    simp [startsWith]
  | cons x pre ih =>
    rw [List.cons_append]
    unfold lastIndexOfFrom
    rw [ih (i + 1)]
    simp only [List.length_cons]
    congr 1
    omega

theorem exists_last_occurrence (s : QString) (c : Char) (h : c ∈ s) :
    ∃ pre post, s = pre ++ c :: post ∧ c ∉ post := by
  induction s with
  | nil => exact absurd h (List.not_mem_nil c)
  | cons x s ih =>
    by_cases hs : c ∈ s
    · obtain ⟨pre, post, heq, hpost⟩ := ih hs
      exact ⟨x :: pre, post, by rw [heq, List.cons_append], hpost⟩
    · have hx : c = x := by
        rcases List.mem_cons.1 h with hcx | hcs
        · exact hcx
        · exact absurd hcs hs
      exact ⟨[], s, by rw [hx, List.nil_append], hs⟩

theorem left_eq_take (s : QString) (n : Nat) : left s (n : Int) = s.take n := by
  unfold left
  by_cases h : ((n : Int) < 0 ∨ (s.length : Int) ≤ (n : Int))
  · rw [if_pos h]
    have hle : s.length ≤ n := by omega
    exact (List.take_of_length_le hle).symm
  · rw [if_neg h]
    simp

theorem mid_eq_drop (s : QString) (n : Nat) : mid s (n : Int) = s.drop n := by
  unfold mid
  have h : ¬ ((n : Int) < 0) := by omega
  rw [if_neg h]
  simp

theorem renameDirStart_split (old_path : QString) :
    ∃ parent old_name, old_path = parent ++ old_name ∧ '/' ∉ old_name ∧
      (parent = [] ∨ parent.getLast? = some '/') ∧
      renameDirStart old_path = (parent.length : Int) := by
  by_cases h : '/' ∈ old_path
  · obtain ⟨pre, post, heq, hpost⟩ := exists_last_occurrence old_path '/' h
    refine ⟨pre ++ ['/'], post, by simp [heq], hpost, Or.inr (by simp), ?_⟩
    have hlast : lastIndexOf old_path "/".toList = ((0 + pre.length : Nat) : Int) := by
      rw [heq]
      exact lastIndexOfFrom_last pre post '/' 0 (-1) hpost
    unfold renameDirStart
    simp only [hlast]
    rw [if_neg (by omega)]
    simp
  · refine ⟨[], old_path, rfl, h, Or.inl rfl, ?_⟩
    have hlast : lastIndexOf old_path "/".toList = -1 :=
      lastIndexOfFrom_not_mem old_path '/' 0 (-1) h
    unfold renameDirStart
    simp only [hlast]
    rfl

theorem length_eq_iff_subset (chosen all : QStringList) (hnd : chosen.Nodup)
    (hall : all.Nodup) (hsub : ∀ f ∈ chosen, f ∈ all) :
    chosen.length = all.length ↔ ∀ f ∈ all, f ∈ chosen := by
  have hsp : List.Subperm chosen all := List.subperm_of_subset hnd hsub
  constructor
  · intro hlen
    have hperm : List.Perm chosen all := hsp.perm_of_length_le (by omega)
    intro f hf
    exact hperm.symm.subset hf
  · intro hback
    have hsp2 : List.Subperm all chosen := List.subperm_of_subset hall hback
    have h1 := hsp.length_le
    have h2 := hsp2.length_le
    omega

theorem renameLoop_spec (answers : Answers) (f : WorkspaceFile → QString)
    (suffix pre : List WorkspaceFile) :
    ((∀ k r, suffix.get? k = some r →
          answers.renameFile (pre.length + k) r.getFilePath
            (f r ++ "/".toList ++ r.getFilename) = true) ∧
        renameLoop answers ((pre ++ suffix).map f) pre.length suffix =
          (suffix.map (fun r =>
            Call.renameFile r.getFilePath (f r ++ "/".toList ++ r.getFilename) false), true))
    ∨ (∃ k r, suffix.get? k = some r ∧
        answers.renameFile (pre.length + k) r.getFilePath
          (f r ++ "/".toList ++ r.getFilename) = false ∧
        renameLoop answers ((pre ++ suffix).map f) pre.length suffix =
          ((suffix.take (k + 1)).map (fun r =>
            Call.renameFile r.getFilePath (f r ++ "/".toList ++ r.getFilename) false),
            false)) := by
  induction suffix generalizing pre with
  | nil =>
    left
    exact ⟨by simp, by simp [renameLoop]⟩
  | cons r rest ih =>
    have hnext := ih (pre ++ [r])
    rw [List.append_assoc, List.singleton_append, List.length_append,
      List.length_singleton] at hnext
    unfold renameLoop
    simp only [getD_map_append]
    by_cases hok : answers.renameFile pre.length r.getFilePath
        (f r ++ "/".toList ++ r.getFilename) = true
    · simp only [hok, Bool.not_true, Bool.false_eq_true, if_false]
      rcases hnext with ⟨hall, heq⟩ | ⟨k, r2, hk, hfalse, heq⟩
      · left
        refine ⟨?_, by rw [heq]; rfl⟩
        intro k r2 hk
        cases k with
        | zero =>
          simp only [List.get?_cons_zero, Option.some.injEq] at hk
          rw [← hk]
          exact hok
        | succ k =>
          rw [List.get?_cons_succ] at hk
          have := hall k r2 hk
          rw [Nat.add_assoc, Nat.add_comm 1 k] at this
          exact this
      · right
        refine ⟨k + 1, r2, by rw [List.get?_cons_succ]; exact hk, ?_, by rw [heq]; rfl⟩
        rw [Nat.add_assoc, Nat.add_comm 1 k] at hfalse
        exact hfalse
    · right
      have hfalse : answers.renameFile pre.length r.getFilePath
          (f r ++ "/".toList ++ r.getFilename) = false := by
        cases hv : answers.renameFile pre.length r.getFilePath
            (f r ++ "/".toList ++ r.getFilename) with
        | true => exact absurd hv hok
        | false => rfl
      refine ⟨0, r, rfl, hfalse, ?_⟩
      rw [hfalse]
      rfl

theorem moveFiles_not_local (answers : Answers) (currentWorkspace : QString)
    (files_to_move : List WorkspaceFile) (new_paths : QStringList) :
    moveFiles answers currentWorkspace false files_to_move new_paths =
      some (renameLoop answers new_paths 0 files_to_move).1 := by
  unfold moveFiles
  by_cases h : (!(renameLoop answers new_paths 0 files_to_move).2) = true
  · simp [h]
  · simp [h]

theorem moveFiles_starts_with_renames (answers : Answers) (currentWorkspace : QString)
    (move_local : Bool) (files_to_move : List WorkspaceFile) (new_paths : QStringList)
    (calls : List Call)
    (h : moveFiles answers currentWorkspace move_local files_to_move new_paths = some calls) :
    (renameLoop answers new_paths 0 files_to_move).1 <+: calls := by
  unfold moveFiles at h
  simp only [] at h
  split at h
  · simp only [Option.some.injEq] at h
    rw [← h]
  · split at h
    · simp only [Option.some.injEq] at h
      rw [← h]
    · split at h
      · exact absurd h (by simp)
      · split at h
        · simp only [Option.some.injEq] at h
          rw [← h]
          exact List.prefix_append _ _
        · split at h
          · simp only [Option.some.injEq] at h
            rw [← h, List.append_assoc]
            exact List.prefix_append _ _
          · simp only [Option.some.injEq] at h
            rw [← h, List.append_assoc, List.append_assoc]
            exact List.prefix_append _ _

theorem renameFolder_accepted (env : Env) (fossil : Fossil) (answers : Answers)
    (w : MainWindow) (old_path : QString)
    (hsel : w.getSelectionPaths [] = [old_path])
    (hne : old_path ≠ [])
    (hok : (answers.getText (mid old_path (renameDirStart old_path))).1 = true)
    (hnew : (answers.getText (mid old_path (renameDirStart old_path))).2 ≠
      mid old_path (renameDirStart old_path))
    (htok : ∀ token ∈ invalid_tokens,
      ¬ token <:+: (answers.getText (mid old_path (renameDirStart old_path))).2)
    (hfresh : renameNewPath old_path
      (answers.getText (mid old_path (renameDirStart old_path))).2 ∉ w.paths)
    (hmoved : (collectMoves old_path (renameNewPath old_path
      (answers.getText (mid old_path (renameDirStart old_path))).2) w.files).1 ≠ [])
    (hconf : (answers.fileActionDialog (collectMoves old_path (renameNewPath old_path
      (answers.getText (mid old_path (renameDirStart old_path))).2) w.files).2.2).1 = true) :
    w.on_actionRenameFolder_triggered env fossil answers =
      (moveFiles answers w.currentWorkspace
        (answers.fileActionDialog (collectMoves old_path (renameNewPath old_path
          (answers.getText (mid old_path (renameDirStart old_path))).2) w.files).2.2).2
        (collectMoves old_path (renameNewPath old_path
          (answers.getText (mid old_path (renameDirStart old_path))).2) w.files).1
        (collectMoves old_path (renameNewPath old_path
          (answers.getText (mid old_path (renameDirStart old_path))).2) w.files).2.1).map
        (fun calls => ((w.refresh env fossil).2.1, calls ++ (w.refresh env fossil).2.2)) := by
  have h1 : ¬ (old_path.isEmpty = true) := by
    cases old_path with
    | nil => exact absurd rfl hne
    | cons c s => simp
  have h2 : ¬ ((!(answers.getText (mid old_path (renameDirStart old_path))).1 ||
      mid old_path (renameDirStart old_path) ==
        (answers.getText (mid old_path (renameDirStart old_path))).2) = true) := by
    simp only [hok, Bool.not_true, Bool.false_or, beq_iff_eq]
    exact fun h => hnew h.symm
  have h3 : ¬ (invalid_tokens.any (fun token =>
      decide (indexOf (answers.getText (mid old_path (renameDirStart old_path))).2 token ≠ -1))
        = true) := by
    rw [List.any_eq_true]
    rintro ⟨token, htoken, hfound⟩
    rw [decide_eq_true_eq] at hfound
    exact htok token htoken ((indexOfFrom_found_iff _ _ 0).1 hfound)
  have h4 : ¬ (w.paths.contains (renameNewPath old_path
      (answers.getText (mid old_path (renameDirStart old_path))).2) = true) := by
    simpa using hfresh
  have h5 : ¬ ((collectMoves old_path (renameNewPath old_path
      (answers.getText (mid old_path (renameDirStart old_path))).2) w.files).1.isEmpty = true) := by
    cases hc : (collectMoves old_path (renameNewPath old_path
      (answers.getText (mid old_path (renameDirStart old_path))).2) w.files).1 with
    | nil => exact absurd hc hmoved
    | cons r rs => simp
  unfold MainWindow.on_actionRenameFolder_triggered
  rw [hsel]
  simp only []
  rw [if_neg h1, if_neg h2, if_neg h3, if_neg h4, if_neg h5, hconf]
  simp only [Bool.not_true, Bool.false_eq_true, if_false]
  cases moveFiles answers w.currentWorkspace
    (answers.fileActionDialog (collectMoves old_path (renameNewPath old_path
      (answers.getText (mid old_path (renameDirStart old_path))).2) w.files).2.2).2
    (collectMoves old_path (renameNewPath old_path
      (answers.getText (mid old_path (renameDirStart old_path))).2) w.files).1
    (collectMoves old_path (renameNewPath old_path
      (answers.getText (mid old_path (renameDirStart old_path))).2) w.files).2.1 <;> rfl

/-! ## Specified properties -/

/-- C1: in tree mode `updateFileView` sets one row per record whose `getPath()`
is an element of `selectedDirs`, in the order of the collection, and no other
row (membership is exact equality with a selected path, descendants of a
selected folder are not included); with `selectedDirs = {""}` these are the
records whose path is `""`, and with `selectedDirs` empty there is no row. -/
theorem tree_mode_rows_exact_match (env : Env) (w : MainWindow) :
    (MainWindow.updateFileView env { w with viewMode := ViewMode.VIEWMODE_TREE }).fileModel =
        ((w.files.map Prod.snd).filter (fun e => decide (e.getPath ∈ w.selectedDirs))).map
          (fileRow env (decide (w.selectedDirs.length > 1)))
    ∧ (MainWindow.updateFileView env
          { w with viewMode := ViewMode.VIEWMODE_TREE, selectedDirs := [[]] }).fileModel =
        ((w.files.map Prod.snd).filter (fun e => decide (e.getPath = []))).map
          (fileRow env false)
    ∧ (MainWindow.updateFileView env
          { w with viewMode := ViewMode.VIEWMODE_TREE, selectedDirs := [] }).fileModel = [] := by
  refine ⟨?_, ?_, ?_⟩
  · simp [MainWindow.updateFileView, fileViewRows_eq_filter]
  · simp [MainWindow.updateFileView, fileViewRows_eq_filter]
  · simp [MainWindow.updateFileView, fileViewRows_eq_filter]

/-- C2: the set of folders `a/p`, `a/a`, `a/b` fed to `updateDirView` in two
orders. In the order `a/p`, `a/a`, `a/b` the scan for the segment `a` of `a/b`
goes on in the rows of the item found and ends on the item `a/a`, so the item
`b` with data `a/b` is appended below `a/a`; in the order `a/b`, `a/p`, `a/a`
it is a child of `a`. Both trees have the same items, but not the same
parent/child relation. -/
theorem updateDirView_depends_on_order :
    updateDirView "P".toList ["a/p".toList, "a/a".toList, "a/b".toList] =
      [.mk "P".toList [] [.mk "a".toList "a".toList
        [.mk "p".toList "a/p".toList [],
         .mk "a".toList "a/a".toList [.mk "b".toList "a/b".toList []]]]]
    ∧ updateDirView "P".toList ["a/b".toList, "a/p".toList, "a/a".toList] =
      [.mk "P".toList [] [.mk "a".toList "a".toList
        [.mk "b".toList "a/b".toList [],
         .mk "p".toList "a/p".toList [],
         .mk "a".toList "a/a".toList []]]]
    ∧ (∀ n, n ∈ nodesOfList (updateDirView "P".toList ["a/p".toList, "a/a".toList, "a/b".toList])
        ↔ n ∈ nodesOfList (updateDirView "P".toList ["a/b".toList, "a/p".toList, "a/a".toList]))
    ∧ ("a/a".toList, "b".toList, "a/b".toList) ∈
        edgesBelow [] (updateDirView "P".toList ["a/p".toList, "a/a".toList, "a/b".toList])
    ∧ ("a/a".toList, "b".toList, "a/b".toList) ∉
        edgesBelow [] (updateDirView "P".toList ["a/b".toList, "a/p".toList, "a/a".toList]) := by
  refine ⟨rfl, rfl, ?_, by decide, by decide⟩
  intro n
  have h1 : nodesOfList (updateDirView "P".toList ["a/p".toList, "a/a".toList, "a/b".toList]) =
      [("P".toList, []), ("a".toList, "a".toList), ("p".toList, "a/p".toList),
        ("a".toList, "a/a".toList), ("b".toList, "a/b".toList)] := rfl
  have h2 : nodesOfList (updateDirView "P".toList ["a/b".toList, "a/p".toList, "a/a".toList]) =
      [("P".toList, []), ("a".toList, "a".toList), ("b".toList, "a/b".toList),
        ("p".toList, "a/p".toList), ("a".toList, "a/a".toList)] := rfl
  rw [h1, h2]
  simp only [List.mem_cons, List.mem_singleton, List.not_mem_nil, or_false]
  tauto

/-- C3: the folders `a/1`, `a/a/b`, `a/b` added in this order (which is also
their sorted order). For `a/b` the scan for the segment `a` ends on the item
`a/a`, whose child `b` (data `a/a/b`) is then taken for the segment `b`: no
item with data `a/b` is made, although `a/b` is a folder of the set. -/
theorem updateDirView_folder_without_item :
    updateDirView "P".toList ["a/1".toList, "a/a/b".toList, "a/b".toList] =
      [.mk "P".toList [] [.mk "a".toList "a".toList
        [.mk "1".toList "a/1".toList [],
         .mk "a".toList "a/a".toList [.mk "b".toList "a/a/b".toList []]]]]
    ∧ ((nodesOfList
          (updateDirView "P".toList ["a/1".toList, "a/a/b".toList, "a/b".toList])).map
        Prod.snd).count "a/b".toList = 0 := by
  refine ⟨rfl, by decide⟩

/-- C4 (as stated, refuted): the root item is the only selected folder, and
`getDirViewSelection` returns `a/y.txt`, a file whose `getPath()` is `a` and
not the selected path `""`. -/
theorem dirViewSelection_root_returns_subfolder_file :
    (sampleWindow [] [[0]] true).treeSelection.map
        (dirModelData (sampleWindow [] [[0]] true).dirModel) = [[]]
    ∧ (sampleWindow [] [[0]] true).getDirViewSelection [] 4 false =
        ["a/y.txt".toList, "x.txt".toList]
    ∧ ¬ ∃ kv ∈ (sampleWindow [] [[0]] true).files,
        kv.2.getFilePath = "a/y.txt".toList ∧ kv.2.getPath = [] := by
  refine ⟨by decide, by decide, by decide⟩

/-- C4 (amended): with a non-empty tree selection, `getDirViewSelection` returns
a record only if its type matches the mask and its `getPath()` begins with one
of the selected paths; it returns every record matching the mask whose
`getPath()` is a selected path or continues one after a `'/'`; and when the
root `""` is among the selected paths it returns every record matching the
mask. -/
theorem dirViewSelection_follows_selected_paths (w : MainWindow) (includeMask : Nat)
    (allIfEmpty : Bool) (hsel : w.treeSelection ≠ []) :
    (∀ f ∈ w.getDirViewSelection [] includeMask allIfEmpty,
      ∃ kv ∈ w.files, kv.2.getFilePath = f ∧ includeMask &&& kv.2.getType ≠ 0 ∧
        ∃ p ∈ w.treeSelection.map (dirModelData w.dirModel), p <+: kv.2.getPath)
    ∧ (∀ kv ∈ w.files, includeMask &&& kv.2.getType ≠ 0 →
        (∃ p ∈ w.treeSelection.map (dirModelData w.dirModel),
          kv.2.getPath = p ∨ (p ++ ['/']) <+: kv.2.getPath) →
        kv.2.getFilePath ∈ w.getDirViewSelection [] includeMask allIfEmpty)
    ∧ ([] ∈ w.treeSelection.map (dirModelData w.dirModel) →
        ∀ kv ∈ w.files, includeMask &&& kv.2.getType ≠ 0 →
          kv.2.getFilePath ∈ w.getDirViewSelection [] includeMask allIfEmpty) := by
  have hpaths : w.dirViewPaths allIfEmpty = w.getSelectionPaths [] := by
    unfold MainWindow.dirViewPaths
    cases hs : w.treeSelection with
    | nil => exact absurd hs hsel
    | cons mi rest => simp
  have hne : (w.getSelectionPaths []).isEmpty = false := by
    cases hp : w.getSelectionPaths [] with
    | nil => exact absurd ((getSelectionPaths_eq_nil_iff w).1 hp) hsel
    | cons p rest => rfl
  have hmem : ∀ f, f ∈ w.getDirViewSelection [] includeMask allIfEmpty ↔
      ∃ kv ∈ w.files, kv.2.getFilePath = f ∧ includeMask &&& kv.2.getType ≠ 0 ∧
        ∃ p ∈ w.treeSelection.map (dirModelData w.dirModel), p <+: kv.2.getPath := by
    intro f
    rw [mem_getDirViewSelection, hpaths, hne]
    constructor
    · rintro ⟨kv, hkv, hf, hm, hp | ⟨p, hp, hpre⟩⟩
      · exact absurd hp (by simp)
      · exact ⟨kv, hkv, hf, hm, p, (mem_getSelectionPaths w p).1 hp, hpre⟩
    · rintro ⟨kv, hkv, hf, hm, p, hp, hpre⟩
      exact ⟨kv, hkv, hf, hm, Or.inr ⟨p, (mem_getSelectionPaths w p).2 hp, hpre⟩⟩
  refine ⟨fun f hf => (hmem f).1 hf, ?_, ?_⟩
  · rintro kv hkv hm ⟨p, hp, hpath⟩
    refine (hmem _).2 ⟨kv, hkv, rfl, hm, p, hp, ?_⟩
    rcases hpath with h | h
    · rw [h]
    · exact List.IsPrefix.trans (List.prefix_append p ['/']) h
  · intro hroot kv hkv hm
    exact (hmem _).2 ⟨kv, hkv, rfl, hm, [], hroot, List.nil_prefix⟩

/-- Instance of C4 (amended): with the folder `a` selected in the sample window,
the file `a/y.txt` is returned. -/
theorem dirViewSelection_follows_selected_paths_witness :
    "a/y.txt".toList ∈ (sampleWindow [] [[0, 0]] true).getDirViewSelection [] 4 false :=
  (dirViewSelection_follows_selected_paths (sampleWindow [] [[0, 0]] true) 4 false
    (by decide)).2.1 ("a/y.txt".toList, fileInA) (by decide) (by decide)
    ⟨"a".toList, by decide, Or.inl rfl⟩

/-- C5: in a collection keyed by file path, the file path of a record whose
type has no bit in common with `includeMask` is in the result of none of
`getAllFilenames`, `getDirViewSelection` and `getFileViewSelection`, whatever
the selections, the rows of the file table and `allIfEmpty` are. -/
theorem mask_excludes_record (w : MainWindow) (hk : KeyedByFilePath w.files)
    (includeMask : Nat) (allIfEmpty : Bool) (kv : QString × WorkspaceFile)
    (hkv : kv ∈ w.files) (hm : includeMask &&& kv.2.getType = 0) :
    kv.2.getFilePath ∉ w.getAllFilenames [] includeMask
    ∧ kv.2.getFilePath ∉ w.getDirViewSelection [] includeMask allIfEmpty
    ∧ ∀ out, w.getFileViewSelection [] includeMask allIfEmpty = some out →
        kv.2.getFilePath ∉ out := by
  have hsame : ∀ kv2 ∈ w.files, kv2.2.getFilePath = kv.2.getFilePath → kv2 = kv := by
    intro kv2 hkv2 heq
    have h1 := find_filePath w.files hk kv2 hkv2
    have h2 := find_filePath w.files hk kv hkv
    rw [heq, h2, Option.some.injEq] at h1
    have hk1 : kv2.1 = kv.1 := by
      rw [hk.2 kv2 hkv2, hk.2 kv hkv, heq]
    exact Prod.ext hk1 h1.symm
  refine ⟨?_, ?_, ?_⟩
  · intro hmem
    rw [getAllFilenames_eq] at hmem
    simp only [List.nil_append, List.mem_map, List.mem_filter, decide_eq_true_eq] at hmem
    obtain ⟨e, ⟨⟨kv2, hkv2, rfl⟩, hm2⟩, hf⟩ := hmem
    rw [hsame kv2 hkv2 hf] at hm2
    exact hm2 hm
  · intro hmem
    obtain ⟨kv2, hkv2, hf, hm2, _⟩ := (mem_getDirViewSelection w includeMask allIfEmpty _).1 hmem
    rw [hsame kv2 hkv2 hf] at hm2
    exact hm2 hm
  · intro out hout hmem
    rcases fileSelectionLoop_sound _ _ _ _ _ _ hout _ hmem with h | ⟨e, hfind, hm2⟩
    · exact List.not_mem_nil _ h
    · rw [find_filePath w.files hk kv hkv, Option.some.injEq] at hfind
      rw [← hfind] at hm2
      exact hm2 hm

/-- Instance of C5: in the sample window, with every cell of the file table
selected, the file `a/z.tmp` of type `1` is not returned for the mask `4`. -/
theorem mask_excludes_record_witness :
    KeyedByFilePath sampleFiles
    ∧ (MainWindow.updateFileView sampleEnv (sampleWindow ["a".toList] [[0, 0]] true)).getFileViewSelection
        [] 4 true = some ["a/y.txt".toList]
    ∧ "a/z.tmp".toList ∉
        (MainWindow.updateFileView sampleEnv (sampleWindow ["a".toList] [[0, 0]] true)).getAllFilenames [] 4
    ∧ "a/z.tmp".toList ∉
        (MainWindow.updateFileView sampleEnv (sampleWindow ["a".toList] [[0, 0]] true)).getDirViewSelection
          [] 4 true :=
  ⟨by decide, by decide,
    (mask_excludes_record
      (MainWindow.updateFileView sampleEnv (sampleWindow ["a".toList] [[0, 0]] true))
      (by decide) 4 true ("a/z.tmp".toList, fileOther) (by decide) (by decide)).1,
    (mask_excludes_record
      (MainWindow.updateFileView sampleEnv (sampleWindow ["a".toList] [[0, 0]] true))
      (by decide) 4 true ("a/z.tmp".toList, fileOther) (by decide) (by decide)).2.1⟩

/-- C6: in the sample window the tree view has the focus, no folder is
selected and `allIfEmpty` is `false`; `getSelectionFilenames` returns both
files that match the mask instead of none. With the focus on the file table
(and no cell selected) it returns nothing. -/
theorem empty_tree_selection_returns_all :
    (sampleWindow [] [] true).treeSelection = []
    ∧ (sampleWindow [] [] true).getSelectionFilenames [] 4 false =
        some ["a/y.txt".toList, "x.txt".toList]
    ∧ (sampleWindow [] [] false).getSelectionFilenames [] 4 false = some [] := by
  refine ⟨rfl, by decide, by decide⟩

/-- C7: with no tree item selected and `allIfEmpty` set, `getDirViewSelection`
returns the file path of every record whose type matches the mask, one entry
per record in the order of the collection, which is the result of
`getAllFilenames` for the same mask; in a collection keyed by file path no
path occurs twice in it. -/
theorem dirViewSelection_allIfEmpty_eq_getAllFilenames (w : MainWindow)
    (hk : KeyedByFilePath w.files) (includeMask : Nat) :
    MainWindow.getDirViewSelection { w with treeSelection := [] } [] includeMask true =
        MainWindow.getAllFilenames { w with treeSelection := [] } [] includeMask
    ∧ MainWindow.getDirViewSelection { w with treeSelection := [] } [] includeMask true =
        ((w.files.map Prod.snd).filter (fun e => decide (includeMask &&& e.getType ≠ 0))).map
          WorkspaceFile.getFilePath
    ∧ (MainWindow.getDirViewSelection { w with treeSelection := [] } [] includeMask
        true).Nodup := by
  have hres : MainWindow.getDirViewSelection { w with treeSelection := [] } [] includeMask true =
      ((w.files.map Prod.snd).filter (fun e => decide (includeMask &&& e.getType ≠ 0))).map
        WorkspaceFile.getFilePath := by
    rw [getDirViewSelection_eq]
    simp [MainWindow.dirViewPaths]
  refine ⟨?_, hres, ?_⟩
  · rw [hres, getAllFilenames_eq]
    simp
  · rw [hres]
    have hkeys : (w.files.map Prod.snd).map WorkspaceFile.getFilePath = w.files.map Prod.fst := by
      rw [List.map_map]
      apply List.map_congr_left
      intro kv hkv
      exact (hk.2 kv hkv).symm
    have hnd : ((w.files.map Prod.snd).map WorkspaceFile.getFilePath).Nodup := by
      rw [hkeys]
      exact hk.1
    exact List.Nodup.sublist (List.Sublist.map _ (List.filter_sublist _)) hnd

/-- Instance of C7 on the sample collection: the two edited files are returned. -/
theorem dirViewSelection_allIfEmpty_eq_getAllFilenames_witness :
    MainWindow.getDirViewSelection { sampleWindow [] [[0]] true with treeSelection := [] } [] 4
        true = ["a/y.txt".toList, "x.txt".toList]
    ∧ MainWindow.getDirViewSelection { sampleWindow [] [[0]] true with treeSelection := [] } [] 4
        true =
      MainWindow.getAllFilenames { sampleWindow [] [[0]] true with treeSelection := [] } [] 4 :=
  ⟨by decide,
    (dirViewSelection_allIfEmpty_eq_getAllFilenames (sampleWindow [] [[0]] true) (by decide) 4).1⟩

/-- C8 (as stated, refuted): tree mode with only the root folder in
`selectedDirs`. The file table filled by `updateFileView` shows `x.txt` only,
and `getFileViewSelection` with no cell selected and `allIfEmpty` set returns
`x.txt` alone: the record `a/y.txt` of the collection, whose type matches the
mask, is not returned. -/
theorem fileViewSelection_allIfEmpty_omits_hidden_record :
    (MainWindow.updateFileView sampleEnv (sampleWindow [[]] [[0]] false)).fileSelection = []
    ∧ ("a/y.txt".toList, fileInA) ∈
        (MainWindow.updateFileView sampleEnv (sampleWindow [[]] [[0]] false)).files
    ∧ 4 &&& fileInA.getType ≠ 0
    ∧ (MainWindow.updateFileView sampleEnv (sampleWindow [[]] [[0]] false)).getFileViewSelection
        [] 4 true = some ["x.txt".toList] := by
  refine ⟨rfl, by decide, by decide, by decide⟩

/-- C8 (amended): in a collection keyed by file path, after `updateFileView`
has filled the file table, `getFileViewSelection` with no cell selected and
`allIfEmpty` set returns the file path of every record that is shown in the
table and whose type matches the mask: in list mode every record of the
collection, in tree mode the records whose `getPath()` is in `selectedDirs`. -/
theorem fileViewSelection_allIfEmpty_returns_shown (env : Env) (w : MainWindow)
    (hk : KeyedByFilePath w.files) (includeMask : Nat) :
    (w.updateFileView env).getFileViewSelection [] includeMask true =
      some (((w.files.map Prod.snd).filter
        (fun e => decide (w.viewMode = ViewMode.VIEWMODE_LIST ∨ e.getPath ∈ w.selectedDirs) &&
          decide (includeMask &&& e.getType ≠ 0))).map WorkspaceFile.getFilePath) := by
  unfold MainWindow.getFileViewSelection MainWindow.updateFileView
  simp only [List.isEmpty_nil, Bool.and_self, if_true]
  have h := fileSelectionLoop_allCells w.files includeMask
    (fileViewRows env w.viewMode w.selectedDirs
      (decide (w.viewMode = ViewMode.VIEWMODE_LIST) || decide (w.selectedDirs.length > 1))
      w.files) [] []
    ((w.files.map Prod.snd).filter
      (fun e => decide (w.viewMode = ViewMode.VIEWMODE_LIST ∨ e.getPath ∈ w.selectedDirs)))
    (by
      rw [fileViewRows_eq_filter, List.map_map]
      rfl)
    (by
      intro e he
      obtain ⟨kv, hkv, rfl⟩ := List.mem_map.1 (List.mem_filter.1 he).1
      exact find_filePath w.files hk kv hkv)
  simp only [List.nil_append, List.length_nil] at h
  rw [h, List.filter_filter]
  congr 3
  funext e
  exact Bool.and_comm _ _

/-- Instance of C8 (amended) on the sample window with the folder `a` shown. -/
theorem fileViewSelection_allIfEmpty_returns_shown_witness :
    (MainWindow.updateFileView sampleEnv (sampleWindow ["a".toList] [[0, 0]] false)).getFileViewSelection
        [] 4 true = some ["a/y.txt".toList] :=
  (fileViewSelection_allIfEmpty_returns_shown sampleEnv (sampleWindow ["a".toList] [[0, 0]] false)
    (by decide) 4).trans (by decide)

/-- C9: in a file collection built by storing every scanned record under its
`getFilePath()`, the keys are pairwise different and each record lies under
its own file path; the rows that `updateFileView` sets carry pairwise
different file paths; for every row the lookup `find` of its file path
succeeds and gives a record from which `updateFileView` makes exactly this
row; and `getFileViewSelection` passes its assertion for every selection of
cells of the table. -/
theorem scanned_files_unique_and_found (env : Env)
    (keepOld : WorkspaceFile → WorkspaceFile → Bool) (records : List WorkspaceFile)
    (w : MainWindow) (selection : List (Nat × Nat)) (includeMask : Nat) (allIfEmpty : Bool)
    (hsel : ∀ mi ∈ selection, mi.1 <
      (MainWindow.updateFileView env
        { w with files := scanFiles keepOld records }).fileModel.length) :
    KeyedByFilePath (scanFiles keepOld records)
    ∧ ((MainWindow.updateFileView env
          { w with files := scanFiles keepOld records }).fileModel.map
        FileRow.filenameData).Nodup
    ∧ (∀ row ∈ (MainWindow.updateFileView env
          { w with files := scanFiles keepOld records }).fileModel,
        ∃ e, filemap_t.find (scanFiles keepOld records) row.filenameData = some e ∧
          row = fileRow env
            (decide (w.viewMode = ViewMode.VIEWMODE_LIST) || decide (w.selectedDirs.length > 1))
            e)
    ∧ (MainWindow.getFileViewSelection
          { MainWindow.updateFileView env { w with files := scanFiles keepOld records } with
            fileSelection := selection } [] includeMask allIfEmpty).isSome = true := by
  have hk := scanFiles_keyed keepOld records
  have hfound := fileViewRows_found env w.viewMode w.selectedDirs
    (decide (w.viewMode = ViewMode.VIEWMODE_LIST) || decide (w.selectedDirs.length > 1))
    (scanFiles keepOld records) hk
  refine ⟨hk, ?_, hfound, ?_⟩
  · show (List.map FileRow.filenameData (fileViewRows env w.viewMode w.selectedDirs _
      (scanFiles keepOld records))).Nodup
    rw [fileViewRows_eq_filter, List.map_map]
    exact filePaths_nodup (scanFiles keepOld records) hk _
  · unfold MainWindow.getFileViewSelection
    apply fileSelectionLoop_isSome
    · intro row hrow
      obtain ⟨e, he, _⟩ := hfound row hrow
      exact ⟨e, he⟩
    · intro mi hmi
      by_cases hc : (selection.isEmpty && allIfEmpty) = true
      · simp only [hc, if_true] at hmi
        have h0 := allCells_range _ 0 mi hmi
        rw [Nat.zero_add] at h0
        exact h0
      · simp only [hc, Bool.false_eq_true, if_false] at hmi
        exact hsel mi hmi

/-- Instance of C9: the three sample records scanned in the order `x.txt`,
`a/y.txt`, `a/z.tmp` (a second record for `x.txt` coming last), shown in list
mode with the file-name cells of rows 0 and 2 selected. -/
theorem scanned_files_unique_and_found_witness :
    scanFiles (fun _ _ => false) [fileAtRoot, fileInA, fileOther, fileAtRoot] = sampleFiles
    ∧ (MainWindow.getFileViewSelection
        { MainWindow.updateFileView sampleEnv
            { sampleWindow [] [] false with
              viewMode := ViewMode.VIEWMODE_LIST
              files := scanFiles (fun _ _ => false) [fileAtRoot, fileInA, fileOther, fileAtRoot] }
          with fileSelection := [(0, 1), (2, 1)] } [] 4 false).isSome = true :=
  ⟨by decide,
    (scanned_files_unique_and_found sampleEnv (fun _ _ => false)
      [fileAtRoot, fileInA, fileOther, fileAtRoot]
      { sampleWindow [] [] false with viewMode := ViewMode.VIEWMODE_LIST }
      [(0, 1), (2, 1)] 4 false (by decide)).2.2.2⟩

/-- C10 (as stated, refuted): the root folder is selected and shown, then the
tree selection becomes empty. The handler leaves `selectedDirs` as `{""}`
although no folder is selected any more, and the file table still shows the
file `x.txt` of the root folder. -/
theorem empty_tree_selection_not_applied :
    (MainWindow.updateFileView sampleEnv (sampleWindow [[]] [] true)).treeSelection.map
        (dirModelData (MainWindow.updateFileView sampleEnv (sampleWindow [[]] [] true)).dirModel)
      = []
    ∧ (MainWindow.onWorkspaceTreeViewSelectionChanged sampleEnv
        (MainWindow.updateFileView sampleEnv (sampleWindow [[]] [] true))).selectedDirs = [[]]
    ∧ (MainWindow.onWorkspaceTreeViewSelectionChanged sampleEnv
        (MainWindow.updateFileView sampleEnv (sampleWindow [[]] [] true))).viewMode =
        ViewMode.VIEWMODE_TREE
    ∧ (MainWindow.onWorkspaceTreeViewSelectionChanged sampleEnv
        (MainWindow.updateFileView sampleEnv (sampleWindow [[]] [] true))).fileModel =
        [fileRow sampleEnv false fileAtRoot] := by
  refine ⟨rfl, rfl, rfl, by decide⟩

/-- C10 (amended): when at least one tree item is selected, after
`onWorkspaceTreeViewSelectionChanged` the elements of `selectedDirs` are
exactly the paths of the selected items and the file table has been filled
again from this set; when no tree item is selected the handler changes
nothing, `selectedDirs` and the file table stay as they were. -/
theorem tree_selection_applied_unless_empty (env : Env) (w : MainWindow) :
    (∀ p, p ∈ (w.onWorkspaceTreeViewSelectionChanged env).selectedDirs ↔
      p ∈ (if w.treeSelection = [] then w.selectedDirs
        else w.treeSelection.map (dirModelData w.dirModel)))
    ∧ (w.onWorkspaceTreeViewSelectionChanged env).fileModel =
        (if w.treeSelection = [] then w.fileModel
          else (MainWindow.updateFileView env
            { w with
              selectedDirs := (w.onWorkspaceTreeViewSelectionChanged env).selectedDirs }).fileModel) := by
  cases hsel : w.treeSelection with
  | nil =>
    have hw : w.onWorkspaceTreeViewSelectionChanged env = w := by
      simp [MainWindow.onWorkspaceTreeViewSelectionChanged, hsel]
    simp [hw]
  | cons mi rest =>
    have hlen : ¬ (mi :: rest).length = 0 := by simp
    have hdirs : (w.onWorkspaceTreeViewSelectionChanged env).selectedDirs =
        (mi :: rest).foldl
          (fun acc index => stringset_t.insert acc (dirModelData w.dirModel index)) [] := by
      simp [MainWindow.onWorkspaceTreeViewSelectionChanged, hsel, MainWindow.updateFileView]
    have hmodel : (w.onWorkspaceTreeViewSelectionChanged env).fileModel =
        (MainWindow.updateFileView env
          { w with
            selectedDirs := (w.onWorkspaceTreeViewSelectionChanged env).selectedDirs }).fileModel := by
      rw [hdirs]
      simp [MainWindow.onWorkspaceTreeViewSelectionChanged, hsel, MainWindow.updateFileView]
    refine ⟨?_, ?_⟩
    · intro p
      rw [hdirs, mem_foldl_insert]
      simp
    · simpa using hmodel

/-- C11: the calls `addPathToTree(root, "a/p")`, `addPathToTree(root, "a/a")`,
`addPathToTree(root, "a/b")` on a childless root. In the last call the scan
for the segment `a` ends on the item `a/a`, so the new item `b` with data
`a/b` becomes a child of `a/a`: the names on its route are `a`, `a`, `b`, and
its data is not `a/a/b`. -/
theorem addPathToTree_data_differs_from_route :
    ["a/p".toList, "a/a".toList, "a/b".toList].foldl addPathToTree (.mk "P".toList [] []) =
      .mk "P".toList [] [.mk "a".toList "a".toList
        [.mk "p".toList "a/p".toList [],
         .mk "a".toList "a/a".toList [.mk "b".toList "a/b".toList []]]]
    ∧ routesBelow []
        (["a/p".toList, "a/a".toList, "a/b".toList].foldl addPathToTree
          (.mk "P".toList [] [])).children =
      [("a".toList, "a".toList), ("a/p".toList, "a/p".toList), ("a/a".toList, "a/a".toList),
        ("a/a/b".toList, "a/b".toList)] := by
  refine ⟨rfl, by decide⟩

/-- C12: when no item below `root` has two children with the same name, this
is still so after any sequence of `addPathToTree` calls; in particular it
holds after any sequence of calls on a childless root. -/
theorem sibling_names_stay_distinct (root : QStandardItem) (paths : List QString)
    (h : siblingsDistinct root = true) :
    siblingsDistinct (paths.foldl addPathToTree root) = true
    ∧ ∀ text data : QString,
        siblingsDistinct (paths.foldl addPathToTree (.mk text data [])) = true := by
  refine ⟨foldl_addPathToTree_siblingsDistinct paths root h, ?_⟩
  intro text data
  exact foldl_addPathToTree_siblingsDistinct paths _ (by simp [siblingsDistinct, siblingsDistinctList])

/-- Instance of C12: one more call on the tree built from `a/p`, `a/a`. -/
theorem sibling_names_stay_distinct_witness :
    siblingsDistinct
      (["a/b".toList, "a/a/c".toList].foldl addPathToTree
        (["a/p".toList, "a/a".toList].foldl addPathToTree (.mk "P".toList [] []))) = true :=
  (sibling_names_stay_distinct
    (["a/p".toList, "a/a".toList].foldl addPathToTree (.mk "P".toList [] []))
    ["a/b".toList, "a/a/c".toList] (by decide)).1

/-- C13: `updateDirView` produces exactly one top-level item, the root, whose
text is the project name and whose path data is `""`; for the empty set of
paths and for the set that holds only the empty path, the root has no
children. -/
theorem updateDirView_single_root (projectName : QString) (paths : stringset_t) :
    (∃ children, updateDirView projectName paths = [.mk projectName [] children])
    ∧ updateDirView projectName [] = [.mk projectName [] []]
    ∧ updateDirView projectName [[]] = [.mk projectName [] []] := by
  refine ⟨?_, rfl, rfl⟩
  have h := addPaths_root paths (.mk projectName [] [])
  cases hroot : addPaths (.mk projectName [] []) paths with
  | mk t d ch =>
    rw [hroot] at h
    simp only [QStandardItem.text, QStandardItem.data] at h
    refine ⟨ch, ?_⟩
    unfold updateDirView
    rw [hroot, h.1, h.2]

/-- C14: let `segs` be non-empty segments without `'/'`, and let the paths fed
to `updateDirView` be the segments up to position `k` joined with `'/'`, for
the numbers `k` of a list `ks` that contains the full length (the path itself)
and otherwise numbers between 1 and that length (its ancestors), in any order.
Then the tree is the root with the single chain of the segments below it, and
the chain has exactly one item per segment. -/
theorem ancestors_build_single_chain (projectName : QString) (segs : QStringList)
    (ks : List Nat) (hseg : ∀ s ∈ segs, s ≠ [] ∧ '/' ∉ s)
    (hks : ∀ k ∈ ks, 1 ≤ k ∧ k ≤ segs.length) (hfull : segs.length ∈ ks) :
    updateDirView projectName (ks.map (fun k => joinPath (segs.take k))) =
        [.mk projectName [] (chainRows segs [])]
    ∧ (nodesOfList (chainRows segs [])).length = segs.length := by
  refine ⟨?_, nodesOfList_chainRows segs []⟩
  have hb := foldl_max_bounds ks 0 segs.length (Nat.zero_le _) (fun k hk => (hks k hk).2)
  have hmax : ks.foldl max 0 = segs.length := le_antisymm hb.2.1 (hb.2.2 _ hfull)
  have h := addPaths_chain projectName segs hseg ks 0 (Nat.zero_le _) hks
  rw [hmax, List.take_length] at h
  unfold updateDirView
  rw [← h]
  rfl

/-- Instance of C14: the set `{"a/b", "a/b/c"}` gives root, `a`, `b`, `c`. -/
theorem ancestors_build_single_chain_witness :
    updateDirView "P".toList ["a/b".toList, "a/b/c".toList] =
      [.mk "P".toList [] [.mk "a".toList "a".toList [.mk "b".toList "a/b".toList
        [.mk "c".toList "a/b/c".toList []]]]] :=
  (ancestors_build_single_chain "P".toList ["a".toList, "b".toList, "c".toList] [2, 3]
    (by decide) (by decide) (by decide)).1

/-- C15: in list mode `updateFileView` sets one row per record of the
collection, in the iteration order of the collection and whatever
`selectedDirs` is: row `i` is the row of the `i`-th record (showing its full
path), and the number of rows is the number of records. -/
theorem list_mode_rows_all_records (env : Env) (w : MainWindow) :
    (MainWindow.updateFileView env { w with viewMode := ViewMode.VIEWMODE_LIST }).fileModel =
        (w.files.map Prod.snd).map (fileRow env true)
    ∧ (MainWindow.updateFileView env
        { w with viewMode := ViewMode.VIEWMODE_LIST }).fileModel.length = w.files.length
    ∧ ∀ i : Nat,
        (MainWindow.updateFileView env
          { w with viewMode := ViewMode.VIEWMODE_LIST }).fileModel.get? i =
        (w.files.get? i).map (fun kv => fileRow env true kv.2) := by
  have hrows : (MainWindow.updateFileView env
      { w with viewMode := ViewMode.VIEWMODE_LIST }).fileModel =
      (w.files.map Prod.snd).map (fileRow env true) := by
    simp [MainWindow.updateFileView, fileViewRows_eq_filter]
  refine ⟨hrows, ?_, ?_⟩
  · rw [hrows]
    simp
  · intro i
    rw [hrows]
    simp only [List.get?_eq_getElem?, List.getElem?_map, Option.map_map]
    rfl

/-- C16: let the elements of `selected` be those of `first` and those of
`second`. In tree mode over a collection keyed by file path, a file is shown
for `selected` if and only if it is shown for `first` or for `second`, and no
file is shown twice. -/
theorem selected_folders_union (env : Env) (w : MainWindow) (first second selected : stringset_t)
    (hk : KeyedByFilePath w.files) (hunion : ∀ p, p ∈ selected ↔ p ∈ first ∨ p ∈ second) :
    (∀ f,
      f ∈ (MainWindow.updateFileView env
          { w with viewMode := ViewMode.VIEWMODE_TREE, selectedDirs := selected }).fileModel.map
          FileRow.filenameData ↔
        f ∈ (MainWindow.updateFileView env
            { w with viewMode := ViewMode.VIEWMODE_TREE, selectedDirs := first }).fileModel.map
            FileRow.filenameData ∨
          f ∈ (MainWindow.updateFileView env
            { w with viewMode := ViewMode.VIEWMODE_TREE, selectedDirs := second }).fileModel.map
            FileRow.filenameData)
    ∧ ((MainWindow.updateFileView env
          { w with viewMode := ViewMode.VIEWMODE_TREE, selectedDirs := selected }).fileModel.map
        FileRow.filenameData).Nodup := by
  refine ⟨?_, ?_⟩
  · intro f
    rw [mem_tree_rows_data, mem_tree_rows_data, mem_tree_rows_data]
    constructor
    · rintro ⟨kv, hkv, hp, hf⟩
      rcases (hunion _).1 hp with h | h
      · exact Or.inl ⟨kv, hkv, h, hf⟩
      · exact Or.inr ⟨kv, hkv, h, hf⟩
    · rintro (⟨kv, hkv, hp, hf⟩ | ⟨kv, hkv, hp, hf⟩)
      · exact ⟨kv, hkv, (hunion _).2 (Or.inl hp), hf⟩
      · exact ⟨kv, hkv, (hunion _).2 (Or.inr hp), hf⟩
  · show (List.map FileRow.filenameData (fileViewRows env _ _ _ w.files)).Nodup
    rw [fileViewRows_eq_filter, List.map_map]
    exact filePaths_nodup w.files hk _

/-- Instance of C16: the root folder and the folder `a` of the sample window
selected together show the files of both. -/
theorem selected_folders_union_witness :
    ((MainWindow.updateFileView sampleEnv
        { sampleWindow [] [] true with
          viewMode := ViewMode.VIEWMODE_TREE
          selectedDirs := [[], "a".toList] }).fileModel.map FileRow.filenameData).Nodup
    ∧ (MainWindow.updateFileView sampleEnv
        { sampleWindow [] [] true with
          viewMode := ViewMode.VIEWMODE_TREE
          selectedDirs := [[], "a".toList] }).fileModel.map FileRow.filenameData =
      ["a/y.txt".toList, "a/z.tmp".toList, "x.txt".toList] :=
  ⟨(selected_folders_union sampleEnv (sampleWindow [] [] true) [[]] ["a".toList]
      [[], "a".toList] (by decide) (by intro p; simp)).2,
    by decide⟩

/-- C19: after the stash mapping has been refreshed from the pairs reported by
the bridge, the lookup of a name gives the id of the last reported pair with
this name, and it finds nothing exactly when no pair with this name was
reported. -/
theorem stash_lookup_last_wins (reported : List (QString × QString)) (name : QString) :
    QMap.find (stashList reported) name =
        (reported.reverse.find? (fun pair => decide (pair.1 = name))).map Prod.snd
    ∧ (QMap.find (stashList reported) name = none ↔ name ∉ reported.map Prod.fst) := by
  have h : QMap.find (stashList reported) name =
      (reported.reverse.find? (fun pair => decide (pair.1 = name))).map Prod.snd := by
    unfold stashList
    rw [find_foldl_insert]
    cases List.find? (fun pair => decide (pair.1 = name)) reported.reverse <;> rfl
  refine ⟨h, ?_⟩
  rw [h]
  simp only [Option.map_eq_none', List.find?_eq_none, List.mem_reverse, decide_eq_true_eq,
    List.mem_map, not_exists, not_and]

/-- C20: the collection built from the status records of a scan, the more
specific of two records with the same path being kept. It holds one record per
path. The record found under a path is one of the records reported for it,
and no record reported for this path has a higher priority; nothing is found
exactly when no record was reported for the path. The type found under a path
is the same when the records come in another order. -/
theorem duplicate_lines_keep_highest_priority (classify : Nat → StatusType)
    (records reordered : List WorkspaceFile) (path : QString)
    (hperm : reordered.Perm records) :
    KeyedByFilePath (scanFiles (keepMoreSpecific classify) records)
    ∧ (filemap_t.find (scanFiles (keepMoreSpecific classify) records) path = none ↔
        ∀ e ∈ records, e.getFilePath ≠ path)
    ∧ (∀ e, filemap_t.find (scanFiles (keepMoreSpecific classify) records) path = some e →
        e ∈ records ∧ e.getFilePath = path ∧
          ∀ e2 ∈ records, e2.getFilePath = path →
            (classify e2.getType).priority ≤ (classify e.getType).priority)
    ∧ (filemap_t.find (scanFiles (keepMoreSpecific classify) reordered) path).map
          (fun e => classify e.getType) =
        (filemap_t.find (scanFiles (keepMoreSpecific classify) records) path).map
          (fun e => classify e.getType) := by
  have h1 := scanFiles_keeps_highest classify records
  have h2 := scanFiles_keeps_highest classify reordered
  refine ⟨scanFiles_keyed _ records, ?_, h1.2 path, ?_⟩
  · constructor
    · exact h1.1 path
    · intro hall
      cases hfind : filemap_t.find (scanFiles (keepMoreSpecific classify) records) path with
      | none => rfl
      | some e =>
        have h := h1.2 path e hfind
        exact absurd h.2.1 (hall e h.1)
  · cases hf1 : filemap_t.find (scanFiles (keepMoreSpecific classify) records) path with
    | none =>
      cases hf2 : filemap_t.find (scanFiles (keepMoreSpecific classify) reordered) path with
      | none => rfl
      | some e =>
        have h := h2.2 path e hf2
        exact absurd h.2.1 (h1.1 path hf1 e (hperm.mem_iff.1 h.1))
    | some e1 =>
      cases hf2 : filemap_t.find (scanFiles (keepMoreSpecific classify) reordered) path with
      | none =>
        have h := h1.2 path e1 hf1
        exact absurd h.2.1 (h2.1 path hf2 e1 (hperm.mem_iff.2 h.1))
      | some e2 =>
        have ha := h1.2 path e1 hf1
        have hb := h2.2 path e2 hf2
        have hle1 := ha.2.2 e2 (hperm.mem_iff.1 hb.1) hb.2.1
        have hle2 := hb.2.2 e1 (hperm.mem_iff.2 ha.1) ha.2.1
        simp only [Option.map_some', Option.some.injEq]
        exact priority_injective _ _ (le_antisymm hle1 hle2)

/-- Instance of C20: an Edited and a Conflicted line for `x.txt`; in both
orders the record kept is the Conflicted one. -/
theorem duplicate_lines_keep_highest_priority_witness :
    (filemap_t.find
        (scanFiles (keepMoreSpecific sampleClassify) [fileAtRoot, fileAtRootConflicted])
        "x.txt".toList).map (fun e => sampleClassify e.getType) = some StatusType.Conflicted
    ∧ (filemap_t.find
        (scanFiles (keepMoreSpecific sampleClassify) [fileAtRootConflicted, fileAtRoot])
        "x.txt".toList).map (fun e => sampleClassify e.getType) = some StatusType.Conflicted :=
  ⟨by decide,
    ((duplicate_lines_keep_highest_priority sampleClassify [fileAtRoot, fileAtRootConflicted]
      [fileAtRootConflicted, fileAtRoot] "x.txt".toList (List.Perm.swap _ _ _)).2.2.2).trans
      (by decide)⟩

/-- C17: `refresh` calls `Workspace::scanWorkspace` exactly when the status of
the repository is `REPO_OK`. For `REPO_NOT_FOUND` and `REPO_OLD_SCHEMA` its
only call is the query of the status, the file table is left without rows, the
directory model is cleared, the actions are disabled and the file collection
is not touched; for `REPO_OK` the workspace holds the scanned collection and
the actions are enabled. -/
theorem refresh_scans_only_when_repo_ok (env : Env) (fossil : Fossil) (w : MainWindow) :
    (Call.scanWorkspace ∈ (w.refresh env fossil).2.2 ↔
      fossil.getRepoStatus = RepoStatus.REPO_OK)
    ∧ (fossil.getRepoStatus = RepoStatus.REPO_OK ∨
        ((w.refresh env fossil).2.2 = [Call.getRepoStatus]
          ∧ (w.refresh env fossil).2.1.fileModel = []
          ∧ (w.refresh env fossil).2.1.dirModel = []
          ∧ (w.refresh env fossil).2.1.actionsEnabled = false
          ∧ (w.refresh env fossil).2.1.files = w.files))
    ∧ (fossil.getRepoStatus ≠ RepoStatus.REPO_OK ∨
        ((w.refresh env fossil).2.1.files = fossil.scannedFiles
          ∧ (w.refresh env fossil).2.1.actionsEnabled = true
          ∧ (w.refresh env fossil).1 = true)) := by
  unfold MainWindow.refresh
  cases hst : fossil.getRepoStatus
  · simp [hst, MainWindow.scanWorkspace, MainWindow.updateStashView, MainWindow.updateFileView,
      MainWindow.updateDirView]
  · simp [hst]
  · simp [hst]

/-- C18: when `on_actionNewStash_triggered` calls `Bridge::stashNew`, the name
passed is the trimmed text of the dialog, it is not empty, it contains no
double quote and it is not a key of the stash mapping of the workspace (and
the files passed are those the dialog gave back). When `stashNew` is not
called, the state of the window is unchanged and neither the status of the
repository is queried nor the workspace scanned: no refresh happens. -/
theorem newStash_requires_valid_fresh_name (env : Env) (fossil : Fossil)
    (dialog : QStringList → CommitDialogResult) (w w2 : MainWindow) (calls : List Call)
    (h : w.on_actionNewStash_triggered env fossil dialog = some (w2, calls)) :
    (∀ fileList name revert, Call.stashNew fileList name revert ∈ calls →
      (∃ offered, w.getSelectionFilenames [] env.TYPE_MODIFIED true = some offered ∧
        name = trimmed (dialog offered).message ∧ fileList = (dialog offered).files) ∧
      name ≠ [] ∧ Char.ofNat 34 ∉ name ∧ name ∉ w.stashes.map Prod.fst)
    ∧ ((∀ fileList name revert, Call.stashNew fileList name revert ∉ calls) →
        w2 = w ∧ Call.getRepoStatus ∉ calls ∧ Call.scanWorkspace ∉ calls) := by
  unfold MainWindow.on_actionNewStash_triggered at h
  cases hsel : w.getSelectionFilenames [] env.TYPE_MODIFIED true with
  | none => simp [hsel] at h
  | some offered =>
    simp only [hsel] at h
    by_cases h1 : offered.isEmpty = true
    · rw [if_pos h1] at h
      simp only [Option.some.injEq, Prod.mk.injEq] at h
      obtain ⟨rfl, rfl⟩ := h
      simp
    · rw [if_neg h1] at h
      by_cases h2 : (!(dialog offered).accepted || (dialog offered).files.isEmpty) = true
      · rw [if_pos h2] at h
        simp only [Option.some.injEq, Prod.mk.injEq] at h
        obtain ⟨rfl, rfl⟩ := h
        simp
      · rw [if_neg h2] at h
        by_cases h3 : (decide (indexOf (trimmed (dialog offered).message) [Char.ofNat 34] ≠ -1) ||
            (trimmed (dialog offered).message).isEmpty) = true
        · rw [if_pos h3] at h
          simp only [Option.some.injEq, Prod.mk.injEq] at h
          obtain ⟨rfl, rfl⟩ := h
          simp
        · rw [if_neg h3] at h
          by_cases h4 : (w.stashes.any
              (fun entry => trimmed (dialog offered).message == entry.1)) = true
          · rw [if_pos h4] at h
            simp only [Option.some.injEq, Prod.mk.injEq] at h
            obtain ⟨rfl, rfl⟩ := h
            simp
          · rw [if_neg h4] at h
            simp only [Option.some.injEq, Prod.mk.injEq] at h
            obtain ⟨rfl, rfl⟩ := h
            refine ⟨?_, ?_⟩
            · intro fileList name revert hmem
              rcases List.mem_cons.1 hmem with heq | hin
              · simp only [Call.stashNew.injEq] at heq
                obtain ⟨rfl, rfl, rfl⟩ := heq
                simp only [Bool.or_eq_true, decide_eq_true_eq, not_or, ne_eq, not_not,
                  indexOf, indexOfFrom_single] at h3
                refine ⟨⟨offered, rfl, rfl, rfl⟩, ?_, h3.1, ?_⟩
                · intro hempty
                  apply h3.2
                  rw [hempty]
                  rfl
                · intro hkey
                  apply h4
                  obtain ⟨entry, hentry, hname⟩ := List.mem_map.1 hkey
                  rw [List.any_eq_true]
                  exact ⟨entry, hentry, by simp [hname]⟩
              · rcases refresh_calls env fossil w _ hin with hc | hc | hc <;> cases hc
            · intro hno
              exact absurd (List.mem_cons_self _ _) (hno _ _ _)

/-- Instance of C18: in the sample window (tree view focused, nothing
selected, no stash yet) the dialog gives the text ` s1 `; the stash `s1` is
made from the two modified files and the window is refreshed. -/
theorem newStash_requires_valid_fresh_name_witness :
    (sampleWindow [] [] true).on_actionNewStash_triggered sampleEnv sampleFossil sampleDialog =
      some (((sampleWindow [] [] true).refresh sampleEnv sampleFossil).2.1,
        [Call.stashNew ["a/y.txt".toList, "x.txt".toList] "s1".toList false,
          Call.getRepoStatus, Call.loadFossilSettings, Call.scanWorkspace])
    ∧ "s1".toList ≠ []
    ∧ "s1".toList ∉ (sampleWindow [] [] true).stashes.map Prod.fst :=
  ⟨rfl,
    ((newStash_requires_valid_fresh_name sampleEnv sampleFossil sampleDialog
      (sampleWindow [] [] true) _ _ rfl).1 _ _ _ (List.mem_cons_self _ _)).2.1,
    ((newStash_requires_valid_fresh_name sampleEnv sampleFossil sampleDialog
      (sampleWindow [] [] true) _ _ rfl).1 _ _ _ (List.mem_cons_self _ _)).2.2.2⟩

/-- C21: in every mode the data of the file-name cell of every row is the full
relative path `getFilePath()` of its record, and the text of the cell is
`getFilePath()` in native separators when the mode is the list mode or more
than one folder is selected, and the base name `getFilename()` otherwise; the
column of cell data is the list of the file paths of the records shown, in
order. In list mode the text of every row is the full relative path in native
separators; in tree mode with at most one selected folder it is the base
name. -/
theorem filename_cell_shows_path_in_list_mode (env : Env) (w : MainWindow) :
    (∀ row ∈ (MainWindow.updateFileView env w).fileModel,
      ∃ kv ∈ w.files, row.filenameData = kv.2.getFilePath ∧
        row.filename =
          (if w.viewMode = ViewMode.VIEWMODE_LIST ∨ 1 < w.selectedDirs.length then
            env.toNativeSeparators kv.2.getFilePath
          else kv.2.getFilename))
    ∧ (MainWindow.updateFileView env w).fileModel.map FileRow.filenameData =
        ((w.files.map Prod.snd).filter
          (fun e => decide (w.viewMode = ViewMode.VIEWMODE_LIST ∨ e.getPath ∈ w.selectedDirs))).map
          WorkspaceFile.getFilePath
    ∧ (MainWindow.updateFileView env w).fileModel.map FileRow.filename =
        ((w.files.map Prod.snd).filter
          (fun e => decide (w.viewMode = ViewMode.VIEWMODE_LIST ∨ e.getPath ∈ w.selectedDirs))).map
          (fun e =>
            if w.viewMode = ViewMode.VIEWMODE_LIST ∨ 1 < w.selectedDirs.length then
              env.toNativeSeparators e.getFilePath
            else e.getFilename)
    ∧ (∀ row ∈ (MainWindow.updateFileView env
        { w with viewMode := ViewMode.VIEWMODE_LIST }).fileModel,
      ∃ kv ∈ w.files, row = fileRow env true kv.2 ∧
        row.filename = env.toNativeSeparators kv.2.getFilePath ∧
        row.filenameData = kv.2.getFilePath)
    ∧ (MainWindow.updateFileView env
        { w with viewMode := ViewMode.VIEWMODE_LIST }).fileModel.map FileRow.filename =
        w.files.map (fun kv => env.toNativeSeparators kv.2.getFilePath)
    ∧ (w.selectedDirs.length ≤ 1 →
      ∀ row ∈ (MainWindow.updateFileView env
        { w with viewMode := ViewMode.VIEWMODE_TREE }).fileModel,
      ∃ kv ∈ w.files, row = fileRow env false kv.2 ∧
        row.filename = kv.2.getFilename ∧
        row.filenameData = kv.2.getFilePath) := by
  have hcell : ∀ e : WorkspaceFile,
      (fileRow env (decide (w.viewMode = ViewMode.VIEWMODE_LIST) ||
          decide (w.selectedDirs.length > 1)) e).filename =
        (if w.viewMode = ViewMode.VIEWMODE_LIST ∨ 1 < w.selectedDirs.length then
          env.toNativeSeparators e.getFilePath
        else e.getFilename) := by
    intro e
    by_cases hd : w.viewMode = ViewMode.VIEWMODE_LIST ∨ 1 < w.selectedDirs.length
    · rw [if_pos hd]
      rcases hd with hd | hd <;> simp [fileRow, hd]
    · rw [if_neg hd]
      have h1 : ¬ w.viewMode = ViewMode.VIEWMODE_LIST := fun h => hd (Or.inl h)
      have h2 : ¬ 1 < w.selectedDirs.length := fun h => hd (Or.inr h)
      simp [fileRow, h1, h2]
  refine ⟨?_, ?_, ?_, ?_, ?_, ?_⟩
  · intro row hrow
    simp only [MainWindow.updateFileView, fileViewRows_eq_filter, List.mem_map,
      List.mem_filter] at hrow
    obtain ⟨e, ⟨⟨kv, hkv, rfl⟩, _⟩, hrow⟩ := hrow
    refine ⟨kv, hkv, ?_, ?_⟩
    · rw [← hrow]
      rfl
    · rw [← hrow]
      exact hcell kv.2
  · simp only [MainWindow.updateFileView, fileViewRows_eq_filter, List.map_map]
    rfl
  · simp only [MainWindow.updateFileView, fileViewRows_eq_filter, List.map_map]
    apply List.map_congr_left
    intro e _
    exact hcell e
  · intro row hrow
    simp only [MainWindow.updateFileView, fileViewRows_eq_filter, List.mem_map,
      List.mem_filter] at hrow
    obtain ⟨e, ⟨⟨kv, hkv, rfl⟩, _⟩, hrow⟩ := hrow
    refine ⟨kv, hkv, ?_, ?_, ?_⟩
    · rw [← hrow]
      simp
    · rw [← hrow]
      simp [fileRow]
    · rw [← hrow]
      rfl
  · simp [MainWindow.updateFileView, fileViewRows_eq_filter, fileRow, Function.comp_def]
  · intro hsel row hrow
    have hnot : ¬ (1 < w.selectedDirs.length) := by omega
    simp only [MainWindow.updateFileView, fileViewRows_eq_filter, List.mem_map,
      List.mem_filter] at hrow
    obtain ⟨e, ⟨⟨kv, hkv, rfl⟩, _⟩, hrow⟩ := hrow
    refine ⟨kv, hkv, ?_, ?_, ?_⟩
    · rw [← hrow]
      simp [hnot]
    · rw [← hrow]
      simp [fileRow, hnot]
    · rw [← hrow]
      rfl

/-- Instance of C21: the sample window with the folder `a` selected shows the
base names in tree mode. -/
theorem filename_cell_shows_path_in_list_mode_witness :
    (MainWindow.updateFileView sampleEnv
      { sampleWindow ["a".toList] [] true with viewMode := ViewMode.VIEWMODE_TREE }).fileModel.map
        FileRow.filename = ["y.txt".toList, "z.tmp".toList]
    ∧ (MainWindow.updateFileView sampleEnv
        (sampleWindow ["a".toList, [], "b".toList] [] true)).fileModel.map
          (fun row => (row.filename, row.filenameData)) =
        [("a/y.txt".toList, "a/y.txt".toList), ("a/z.tmp".toList, "a/z.tmp".toList),
          ("x.txt".toList, "x.txt".toList)]
    ∧ (sampleWindow ["a".toList] [] true).selectedDirs.length ≤ 1
    ∧ ∀ row ∈ (MainWindow.updateFileView sampleEnv
        { sampleWindow ["a".toList] [] true with viewMode := ViewMode.VIEWMODE_TREE }).fileModel,
      ∃ kv ∈ (sampleWindow ["a".toList] [] true).files, row = fileRow sampleEnv false kv.2 ∧
        row.filename = kv.2.getFilename ∧
        row.filenameData = kv.2.getFilePath :=
  ⟨by decide, by decide, by decide,
    (filename_cell_shows_path_in_list_mode sampleEnv
      (sampleWindow ["a".toList] [] true)).2.2.2.2.2 (by decide)⟩

/-- C22: the folder `a` is the only selected folder; `getDirViewSelection`
returns, besides the files of `a` and `a/sub`, the file `ab/w.txt` of the
sibling folder `ab`, whose path neither is `a` nor starts with `a/`. -/
theorem dirViewSelection_returns_sibling_folder_file :
    siblingWindow.treeSelection.map (dirModelData siblingWindow.dirModel) = ["a".toList]
    ∧ siblingWindow.getDirViewSelection [] 4 false =
        ["a/sub/v.txt".toList, "a/y.txt".toList, "ab/w.txt".toList]
    ∧ fileInAb.getPath ≠ "a".toList
    ∧ ¬ ("a/".toList <+: fileInAb.getPath) := by
  refine ⟨by decide, by decide, by decide, ?_⟩
  rw [← startsWith_iff]
  decide

/-- C29: fossil reports the line `autosync (global)` followed by an empty
value. `MakeKeyValues` maps `autosync` to `(global)`, which contains
`(global)` but no space, so for a global setting `autosync` the assertion
`i != -1` of `loadFossilSettings` fails. -/
theorem loadFossilSettings_assertion_fails :
    MakeKeyValues ["autosync             (global) ".toList] =
      [("autosync".toList, "(global)".toList)]
    ∧ indexOf "(global)".toList "(global)".toList ≠ -1
    ∧ indexOf "(global)".toList [Char.ofNat 32] = -1
    ∧ loadFossilSettings sampleSettingsAnswers
        [("autosync".toList, { Value := [], type := SettingType.TYPE_FOSSIL_GLOBAL })] = none := by
  refine ⟨by decide, by decide, by decide, by decide⟩

/-- C30 (as stated, refuted): for the line made of `a`, a tab, a space and
`b`, the text before the first space is `a` followed by the tab, while the key
that `MakeKeyValues` inserts is `a`. -/
theorem makeKeyValues_key_differs_from_text_before_space :
    MakeKeyValues [sampleTabLine] = [(['a'], ['b'])]
    ∧ (trimmed sampleTabLine).takeWhile (fun x => !(x == Char.ofNat 32)) = ['a', Char.ofNat 9]
    ∧ (['a', Char.ofNat 9] : QString) ≠ ['a'] := by
  refine ⟨by decide, by decide, by decide⟩

/-- C30 (amended): a line, after trimming, contributes the key equal to the
trimmed text before its first space and the value equal to the trimmed
remainder, or the whole trimmed line as key and an empty value when it has no
space. Every entry of the result comes from a line in this way, its key
contains no space and its value neither starts nor ends with white space.
The value found under a key is that of the last line that yields the key. -/
theorem makeKeyValues_splits_at_first_space (lines : QStringList) (line key : QString) :
    lineKeyValue line =
        (if Char.ofNat 32 ∈ trimmed line then
          (trimmed ((trimmed line).takeWhile (fun x => !(x == Char.ofNat 32))),
            trimmed ((trimmed line).dropWhile (fun x => !(x == Char.ofNat 32))))
        else (trimmed line, []))
    ∧ (∀ kv ∈ MakeKeyValues lines,
        (∃ l ∈ lines, kv = lineKeyValue l) ∧ Char.ofNat 32 ∉ kv.1 ∧
          (∀ c, kv.2.head? = some c → isSpace c = false) ∧
          (∀ c, kv.2.getLast? = some c → isSpace c = false))
    ∧ QMap.find (MakeKeyValues lines) key =
        ((lines.map lineKeyValue).reverse.find? (fun kv => decide (kv.1 = key))).map Prod.snd := by
  refine ⟨lineKeyValue_spec line, ?_, ?_⟩
  · intro kv hkv
    obtain ⟨l, hl, rfl⟩ := mem_MakeKeyValues lines kv hkv
    refine ⟨⟨l, hl, rfl⟩, ?_⟩
    rw [lineKeyValue_spec]
    by_cases h : Char.ofNat 32 ∈ trimmed l
    · rw [if_pos h]
      refine ⟨?_, fun c hc => (trimmed_ends _ c).1 hc, fun c hc => (trimmed_ends _ c).2 hc⟩
      intro hmem
      have h1 := List.mem_takeWhile_imp (trimmed_subset _ _ hmem)
      simp at h1
    · rw [if_neg h]
      exact ⟨h, fun c hc => by simp at hc, fun c hc => by simp at hc⟩
  · have hfold : MakeKeyValues lines =
        (lines.map lineKeyValue).foldl (fun stashes pair => QMap.insert stashes pair.1 pair.2) [] := by
      unfold MakeKeyValues
      rw [List.foldl_map]
    rw [hfold, find_foldl_insert]
    cases List.find? (fun pair => decide (pair.1 = key)) (lines.map lineKeyValue).reverse <;> rfl

/-- C23: the folder `a` is renamed to `x` in a collection that also has the
folder `ab`. The file `ab/w.txt`, whose folder neither is `a` nor starts with
`a/`, is put into `files_to_move` (with the new folder `xb`), and
`Bridge::renameFile` is called for it. -/
theorem renameFolder_moves_sibling_folder_file :
    siblingWindow.getSelectionPaths [] = ["a".toList]
    ∧ (collectMoves "a".toList (renameNewPath "a".toList "x".toList) siblingWindow.files).1 =
        [fileInASub, fileInA, fileInAb]
    ∧ (collectMoves "a".toList (renameNewPath "a".toList "x".toList) siblingWindow.files).2.1 =
        ["x/sub".toList, "x".toList, "xb".toList]
    ∧ fileInAb.getPath ≠ "a".toList
    ∧ ¬ ("a/".toList <+: fileInAb.getPath)
    ∧ (siblingWindow.on_actionRenameFolder_triggered sampleEnv sampleFossil sampleAnswers).map
        Prod.snd =
      some [Call.renameFile "a/sub/v.txt".toList "x/sub/v.txt".toList false,
        Call.renameFile "a/y.txt".toList "x/y.txt".toList false,
        Call.renameFile "ab/w.txt".toList "xb/w.txt".toList false,
        Call.getRepoStatus, Call.loadFossilSettings, Call.scanWorkspace] := by
  refine ⟨by decide, by decide, by decide, by decide, ?_, by decide⟩
  rw [← startsWith_iff]
  decide

/-- C27: the current workspace is `/w` and the file `/w2/f.txt` is dropped.
It passes the test on the workspace although it lies in the folder `/w2`, the
path computed for it is `/f.txt`, which put after `/w` and `/` does not give
back `/w2/f.txt`, and this path is passed to `Bridge::addFiles`. -/
theorem dropEvent_adds_file_outside_workspace :
    droppedNewFiles "/w".toList [droppedOutside] = ["/f.txt".toList]
    ∧ "/w".toList ++ "/".toList ++ "/f.txt".toList ≠ droppedOutside.absoluteFilePath
    ∧ ¬ ("/w/".toList <+: droppedOutside.absoluteFilePath)
    ∧ (MainWindow.dropEvent sampleEnv sampleFossil sampleAnswers sampleFossilNames
        [droppedOutside]
        { sampleWindow [] [] true with currentWorkspace := "/w".toList }).2 =
      [Call.addFiles ["/f.txt".toList], Call.getRepoStatus, Call.loadFossilSettings,
        Call.scanWorkspace] := by
  refine ⟨by decide, by decide, ?_, by decide⟩
  rw [← startsWith_iff]
  decide

/-- C24: the collecting loop of `on_actionRenameFolder_triggered` puts into
`files_to_move` the records whose folder begins with `old_path`, in the order
of the collection, and `new_paths` and `operations` have one entry for each
of them, so the three lists have the same length; entry `i` of `new_paths` is
`new_path` followed by the part of the folder of file `i` after the first
`old_path.length()` characters. A record directly in `old_path` is collected
with the target `new_path/filename`, a record in `old_path/sub` with the
target `new_path/sub/filename`. The rename loop calls `Bridge::renameFile`
for the files in order, each from `getFilePath()` to its new folder, `/` and
the unchanged file name: for all of them when every call succeeds, and up to
the first failing call otherwise. When the rename is accepted and every call
succeeds, these calls are the first calls of the slot, and without the move
of the workspace files they are followed by the calls of `refresh` only. -/
theorem renameFolder_targets (env : Env) (fossil : Fossil) (answers : Answers)
    (w : MainWindow) (old_path new_name new_path : QString) :
    (collectMoves old_path new_path w.files).1 =
        (w.files.map Prod.snd).filter (fun r => decide (indexOf r.getPath old_path = 0))
    ∧ (collectMoves old_path new_path w.files).2.1 =
        (collectMoves old_path new_path w.files).1.map
          (fun r => new_path ++ mid r.getPath (old_path.length : Int))
    ∧ (collectMoves old_path new_path w.files).2.2 =
        (collectMoves old_path new_path w.files).1.map
          (fun r => r.getFilePath ++ " -> ".toList ++
            (new_path ++ mid r.getPath (old_path.length : Int) ++ "/".toList ++ r.getFilename))
    ∧ (collectMoves old_path new_path w.files).1.length =
        (collectMoves old_path new_path w.files).2.1.length
    ∧ (collectMoves old_path new_path w.files).2.1.length =
        (collectMoves old_path new_path w.files).2.2.length
    ∧ (∀ kv ∈ w.files, kv.2.getPath = old_path →
        kv.2 ∈ (collectMoves old_path new_path w.files).1 ∧
        new_path ++ mid kv.2.getPath (old_path.length : Int) ++ "/".toList ++ kv.2.getFilename =
          new_path ++ "/".toList ++ kv.2.getFilename)
    ∧ (∀ kv ∈ w.files, ∀ sub : QString, kv.2.getPath = old_path ++ "/".toList ++ sub →
        kv.2 ∈ (collectMoves old_path new_path w.files).1 ∧
        new_path ++ mid kv.2.getPath (old_path.length : Int) ++ "/".toList ++ kv.2.getFilename =
          new_path ++ "/".toList ++ sub ++ "/".toList ++ kv.2.getFilename)
    ∧ (((∀ k r, (collectMoves old_path new_path w.files).1.get? k = some r →
            answers.renameFile k r.getFilePath
              (new_path ++ mid r.getPath (old_path.length : Int) ++ "/".toList ++
                r.getFilename) = true) ∧
          renameLoop answers (collectMoves old_path new_path w.files).2.1 0
              (collectMoves old_path new_path w.files).1 =
            ((collectMoves old_path new_path w.files).1.map (fun r =>
              Call.renameFile r.getFilePath
                (new_path ++ mid r.getPath (old_path.length : Int) ++ "/".toList ++
                  r.getFilename) false), true))
        ∨ (∃ k r, (collectMoves old_path new_path w.files).1.get? k = some r ∧
            answers.renameFile k r.getFilePath
              (new_path ++ mid r.getPath (old_path.length : Int) ++ "/".toList ++
                r.getFilename) = false ∧
            renameLoop answers (collectMoves old_path new_path w.files).2.1 0
                (collectMoves old_path new_path w.files).1 =
              (((collectMoves old_path new_path w.files).1.take (k + 1)).map (fun r =>
                Call.renameFile r.getFilePath
                  (new_path ++ mid r.getPath (old_path.length : Int) ++ "/".toList ++
                    r.getFilename) false), false)))
    ∧ (w.getSelectionPaths [] = [old_path] → old_path ≠ [] →
        (answers.getText (mid old_path (renameDirStart old_path))).2 = new_name →
        renameNewPath old_path new_name = new_path →
        (answers.getText (mid old_path (renameDirStart old_path))).1 = true →
        new_name ≠ mid old_path (renameDirStart old_path) →
        (∀ token ∈ invalid_tokens, ¬ token <:+: new_name) →
        new_path ∉ w.paths →
        (collectMoves old_path new_path w.files).1 ≠ [] →
        (answers.fileActionDialog (collectMoves old_path new_path w.files).2.2).1 = true →
        (∀ k r, (collectMoves old_path new_path w.files).1.get? k = some r →
          answers.renameFile k r.getFilePath
            (new_path ++ mid r.getPath (old_path.length : Int) ++ "/".toList ++
              r.getFilename) = true) →
        (∀ w2 calls, w.on_actionRenameFolder_triggered env fossil answers = some (w2, calls) →
          (collectMoves old_path new_path w.files).1.map (fun r =>
            Call.renameFile r.getFilePath
              (new_path ++ mid r.getPath (old_path.length : Int) ++ "/".toList ++
                r.getFilename) false) <+: calls)
        ∧ ((answers.fileActionDialog (collectMoves old_path new_path w.files).2.2).2 = false →
          w.on_actionRenameFolder_triggered env fossil answers =
            some ((w.refresh env fossil).2.1,
              (collectMoves old_path new_path w.files).1.map (fun r =>
                Call.renameFile r.getFilePath
                  (new_path ++ mid r.getPath (old_path.length : Int) ++ "/".toList ++
                    r.getFilename) false) ++ (w.refresh env fossil).2.2))) := by
  have hdirs : (collectMoves old_path new_path w.files).2.1 =
      (collectMoves old_path new_path w.files).1.map
        (fun r => new_path ++ mid r.getPath (old_path.length : Int)) := by
    rw [collectMoves_eq]
  have hmem : ∀ kv ∈ w.files, old_path <+: kv.2.getPath →
      kv.2 ∈ (collectMoves old_path new_path w.files).1 := by
    intro kv hkv hpre
    rw [collectMoves_eq]
    simp only [List.mem_filter, List.mem_map, decide_eq_true_eq]
    exact ⟨⟨kv, hkv, rfl⟩, (indexOf_eq_zero_iff _ _).2 hpre⟩
  have hlen : ¬ ((old_path.length : Int) < 0) := by omega
  have hloop := renameLoop_spec answers
    (fun r => new_path ++ mid r.getPath (old_path.length : Int))
    (collectMoves old_path new_path w.files).1 []
  rw [List.nil_append, ← hdirs, List.length_nil] at hloop
  simp only [Nat.zero_add] at hloop
  refine ⟨by rw [collectMoves_eq], hdirs, by rw [collectMoves_eq], by rw [collectMoves_eq]; simp,
    by rw [collectMoves_eq]; simp, ?_, ?_, hloop, ?_⟩
  · intro kv hkv hpath
    refine ⟨hmem kv hkv (by rw [hpath]), ?_⟩
    rw [hpath]
    simp [mid]
  · intro kv hkv sub hpath
    refine ⟨hmem kv hkv (by rw [hpath, List.append_assoc]; exact List.prefix_append _ _), ?_⟩
    rw [hpath]
    simp [mid, List.append_assoc, hlen]
  · intro hsel hne hname hpath hok hnew htok hfresh hmoved hconf hall
    subst hname
    subst hpath
    have hacc := renameFolder_accepted env fossil answers w old_path hsel hne hok hnew htok
      hfresh hmoved hconf
    have hrun : renameLoop answers
        (collectMoves old_path (renameNewPath old_path
          (answers.getText (mid old_path (renameDirStart old_path))).2) w.files).2.1 0
        (collectMoves old_path (renameNewPath old_path
          (answers.getText (mid old_path (renameDirStart old_path))).2) w.files).1 =
        ((collectMoves old_path (renameNewPath old_path
          (answers.getText (mid old_path (renameDirStart old_path))).2) w.files).1.map (fun r =>
            Call.renameFile r.getFilePath
              (renameNewPath old_path
                  (answers.getText (mid old_path (renameDirStart old_path))).2 ++
                mid r.getPath (old_path.length : Int) ++ "/".toList ++ r.getFilename) false),
          true) := by
      rcases hloop with ⟨_, heq⟩ | ⟨k, r, hk, hfalse, _⟩
      · exact heq
      · rw [hall k r hk] at hfalse
        exact Bool.noConfusion hfalse
    refine ⟨?_, ?_⟩
    · intro w2 calls h
      rw [hacc] at h
      cases hm : moveFiles answers w.currentWorkspace
          (answers.fileActionDialog (collectMoves old_path (renameNewPath old_path
            (answers.getText (mid old_path (renameDirStart old_path))).2) w.files).2.2).2
          (collectMoves old_path (renameNewPath old_path
            (answers.getText (mid old_path (renameDirStart old_path))).2) w.files).1
          (collectMoves old_path (renameNewPath old_path
            (answers.getText (mid old_path (renameDirStart old_path))).2) w.files).2.1 with
      | none =>
        rw [hm] at h
        exact absurd h (by simp)
      | some made =>
        rw [hm] at h
        simp only [Option.map_some', Option.some.injEq, Prod.mk.injEq] at h
        have hpre := moveFiles_starts_with_renames _ _ _ _ _ _ hm
        rw [hrun] at hpre
        rw [← h.2]
        exact hpre.trans (List.prefix_append _ _)
    · intro hlocal
      rw [hacc, hlocal, moveFiles_not_local, hrun]
      rfl

/-- Instance of C24: in the sample window the folder `a` is renamed to `x`
without the move of the workspace files and every call succeeds; the slot
calls `renameFile` for each collected file with its target and then
refreshes. -/
theorem renameFolder_targets_witness :
    (collectMoves "a".toList "x".toList siblingWindow.files).1.map (fun r =>
        Call.renameFile r.getFilePath
          ("x".toList ++ mid r.getPath (("a".toList).length : Int) ++ "/".toList ++
            r.getFilename) false) =
      [Call.renameFile "a/sub/v.txt".toList "x/sub/v.txt".toList false,
        Call.renameFile "a/y.txt".toList "x/y.txt".toList false,
        Call.renameFile "ab/w.txt".toList "xb/w.txt".toList false]
    ∧ siblingWindow.on_actionRenameFolder_triggered sampleEnv sampleFossil sampleAnswers =
        some ((siblingWindow.refresh sampleEnv sampleFossil).2.1,
          (collectMoves "a".toList "x".toList siblingWindow.files).1.map (fun r =>
            Call.renameFile r.getFilePath
              ("x".toList ++ mid r.getPath (("a".toList).length : Int) ++ "/".toList ++
                r.getFilename) false) ++ (siblingWindow.refresh sampleEnv sampleFossil).2.2) :=
  ⟨by decide,
    ((renameFolder_targets sampleEnv sampleFossil sampleAnswers siblingWindow "a".toList
      "x".toList "x".toList).2.2.2.2.2.2.2.2 (by decide) (by decide) (by decide) (by decide)
      (by decide) (by decide) (by decide) (by decide) (by decide) (by decide)
      (fun _ _ _ => rfl)).2 (by decide)⟩

/-- C28: `on_actionRenameFolder_triggered` leaves the window as it is and makes
no call at all when the selection is not exactly one folder, and makes at
most calls of `QMessageBox::critical` (no `Bridge::renameFile`, no `mkpath`,
`copy` or `remove`) when the one selected folder is the root, the dialog is
cancelled, the new name equals the old name, the new name contains one of the
invalid tokens, or the resulting path is already in the set of paths. The
value `dir_start` cuts `old_path` into a parent part, which is empty or ends
with `/`, and the last segment `old_name` without `/`; `new_path` is the
parent part followed by the new name. -/
theorem renameFolder_rejections (env : Env) (fossil : Fossil) (answers : Answers)
    (w : MainWindow) :
    ((w.getSelectionPaths []).length ≠ 1 →
        w.on_actionRenameFolder_triggered env fossil answers = some (w, []))
    ∧ (∀ old_path, w.getSelectionPaths [] = [old_path] →
        (old_path = []
          ∨ (answers.getText (mid old_path (renameDirStart old_path))).1 = false
          ∨ (answers.getText (mid old_path (renameDirStart old_path))).2 =
              mid old_path (renameDirStart old_path)
          ∨ (∃ token ∈ invalid_tokens,
              token <:+: (answers.getText (mid old_path (renameDirStart old_path))).2)
          ∨ renameNewPath old_path
              (answers.getText (mid old_path (renameDirStart old_path))).2 ∈ w.paths) →
        ∃ calls, w.on_actionRenameFolder_triggered env fossil answers = some (w, calls) ∧
          ∀ c ∈ calls, ∃ text, c = Call.critical text)
    ∧ (∀ old_path new_name : QString, ∃ parent old_name,
        old_path = parent ++ old_name ∧ '/' ∉ old_name ∧
        (parent = [] ∨ parent.getLast? = some '/') ∧
        left old_path (renameDirStart old_path) = parent ∧
        mid old_path (renameDirStart old_path) = old_name ∧
        left old_path (renameDirStart old_path) ++ mid old_path (renameDirStart old_path) =
          old_path ∧
        renameNewPath old_path new_name = parent ++ new_name) := by
  refine ⟨?_, ?_, ?_⟩
  · intro hlen
    unfold MainWindow.on_actionRenameFolder_triggered
    split
    · rename_i old_path hsel
      rw [hsel] at hlen
      exact absurd rfl hlen
    · rfl
  · intro old_path hsel hrej
    unfold MainWindow.on_actionRenameFolder_triggered
    rw [hsel]
    simp only []
    by_cases h1 : old_path.isEmpty = true
    · rw [if_pos h1]
      exact ⟨[], rfl, by simp⟩
    rw [if_neg h1]
    by_cases h2 : (!(answers.getText (mid old_path (renameDirStart old_path))).1 ||
        mid old_path (renameDirStart old_path) ==
          (answers.getText (mid old_path (renameDirStart old_path))).2) = true
    · rw [if_pos h2]
      exact ⟨[], rfl, by simp⟩
    rw [if_neg h2]
    by_cases h3 : invalid_tokens.any (fun token =>
        decide (indexOf (answers.getText (mid old_path (renameDirStart old_path))).2 token ≠ -1))
          = true
    · rw [if_pos h3]
      exact ⟨_, rfl, by simp⟩
    rw [if_neg h3]
    by_cases h4 : w.paths.contains (renameNewPath old_path
        (answers.getText (mid old_path (renameDirStart old_path))).2) = true
    · rw [if_pos h4]
      exact ⟨_, rfl, by simp⟩
    exfalso
    rcases hrej with h | h | h | h | h
    · exact h1 (by simp [h])
    · exact h2 (by simp [h])
    · exact h2 (by simp [h])
    · obtain ⟨token, htoken, hinfix⟩ := h
      apply h3
      rw [List.any_eq_true]
      refine ⟨token, htoken, ?_⟩
      rw [decide_eq_true_eq]
      exact (indexOfFrom_found_iff _ _ 0).2 hinfix
    · exact h4 (by simpa using h)
  · intro old_path new_name
    obtain ⟨parent, old_name, heq, hname, hparent, hstart⟩ := renameDirStart_split old_path
    have hleft : left old_path (renameDirStart old_path) = parent := by
      rw [hstart, left_eq_take, heq]
      simp
    have hmid : mid old_path (renameDirStart old_path) = old_name := by
      rw [hstart, mid_eq_drop, heq]
      simp
    refine ⟨parent, old_name, heq, hname, hparent, hleft, hmid, ?_, ?_⟩
    · rw [hleft, hmid, ← heq]
    · unfold renameNewPath
      rw [hleft]

/-- Instance of C28: in the sample window the folder `a` is selected and the
dialog gives the name `ab`; the path `ab` exists already, and the only call is
the error message. -/
theorem renameFolder_rejections_witness :
    siblingWindow.getSelectionPaths [] = ["a".toList]
    ∧ renameNewPath "a".toList
        (sampleAnswersExisting.getText (mid "a".toList (renameDirStart "a".toList))).2 ∈
          siblingWindow.paths
    ∧ ∃ calls,
        siblingWindow.on_actionRenameFolder_triggered sampleEnv sampleFossil
            sampleAnswersExisting = some (siblingWindow, calls) ∧
          ∀ c ∈ calls, ∃ text, c = Call.critical text :=
  ⟨by decide, by decide,
    (renameFolder_rejections sampleEnv sampleFossil sampleAnswersExisting siblingWindow).2.1
      "a".toList (by decide) (Or.inr (Or.inr (Or.inr (Or.inr (by decide)))))⟩

/-- C25: the collection is keyed by file path, the commit dialog is offered a
non-empty list and is accepted with a non-empty list `commit_files` of
distinct paths of records that match `TYPE_MODIFIED`. Then
`on_actionCommit_triggered` calls `Bridge::commitFiles` exactly once, first of
all calls, with the message of the dialog and a list `files` that is empty if
and only if `commit_files` contains every file of
`getAllFilenames(TYPE_MODIFIED)`, and that is `commit_files` otherwise. -/
theorem commit_passes_files_for_partial_selection (env : Env) (fossil : Fossil)
    (dialog : QStringList → CommitDialogResult) (w : MainWindow) (offered : QStringList)
    (hk : KeyedByFilePath w.files)
    (hsel : w.getSelectionFilenames [] env.TYPE_MODIFIED true = some offered)
    (hoffered : offered ≠ [])
    (haccepted : (dialog offered).accepted = true)
    (hchosen : (dialog offered).files ≠ [])
    (hnd : (dialog offered).files.Nodup)
    (hsub : ∀ f ∈ (dialog offered).files, f ∈ w.getAllFilenames [] env.TYPE_MODIFIED) :
    ∃ w2 files tail,
      w.on_actionCommit_triggered env fossil dialog =
        some (w2, Call.commitFiles files (dialog offered).message :: tail)
      ∧ (∀ c ∈ tail, ∀ fs m, c ≠ Call.commitFiles fs m)
      ∧ (files = [] ↔
          ∀ f ∈ w.getAllFilenames [] env.TYPE_MODIFIED, f ∈ (dialog offered).files)
      ∧ (files ≠ [] → files = (dialog offered).files) := by
  have hall : (w.getAllFilenames [] env.TYPE_MODIFIED).Nodup := by
    rw [getAllFilenames_eq, List.nil_append]
    exact filePaths_nodup w.files hk _
  have hiff := length_eq_iff_subset (dialog offered).files
    (w.getAllFilenames [] env.TYPE_MODIFIED) hnd hall hsub
  have hkept : (if (dialog offered).message ∉ w.commitMsgs then
        { w with commitMsgs := (dialog offered).message :: w.commitMsgs } else w).getAllFilenames
        [] env.TYPE_MODIFIED = w.getAllFilenames [] env.TYPE_MODIFIED := by
    split <;> rfl
  have h1 : ¬ (offered.isEmpty = true) := by
    cases offered with
    | nil => exact absurd rfl hoffered
    | cons f fs => simp
  have h2 : ¬ ((dialog offered).files.isEmpty = true) := by
    cases hf : (dialog offered).files with
    | nil => exact absurd hf hchosen
    | cons f fs => simp
  unfold MainWindow.on_actionCommit_triggered
  rw [hsel]
  simp only []
  rw [if_neg h1, haccepted]
  simp only [Bool.not_true, Bool.false_eq_true, if_false]
  rw [if_neg h2, hkept]
  refine ⟨_, _, _, rfl, ?_, ?_, ?_⟩
  · intro c hc fs m hcm
    subst hcm
    rcases refresh_calls env fossil _ _ hc with h | h | h <;> cases h
  · by_cases hlen : (dialog offered).files.length =
        (w.getAllFilenames [] env.TYPE_MODIFIED).length
    · simp only [hlen, ne_eq, not_true_eq_false, if_false, true_iff]
      exact hiff.1 hlen
    · rw [if_pos hlen]
      constructor
      · intro hnil
        exact absurd hnil hchosen
      · intro hback
        exact absurd (hiff.2 hback) hlen
  · intro hne
    by_cases hlen : (dialog offered).files.length =
        (w.getAllFilenames [] env.TYPE_MODIFIED).length
    · simp only [hlen, ne_eq, not_true_eq_false, if_false] at hne
    · rw [if_pos hlen]

/-- Instance of C25: in the sample window the files `a/y.txt` and `x.txt` are
offered and the dialog leaves `x.txt` selected; `commitFiles` gets the list
with `x.txt`. -/
theorem commit_passes_files_for_partial_selection_witness :
    (sampleWindow [] [] true).getSelectionFilenames [] sampleEnv.TYPE_MODIFIED true =
        some ["a/y.txt".toList, "x.txt".toList]
    ∧ ∃ w2 files tail,
      (sampleWindow [] [] true).on_actionCommit_triggered sampleEnv sampleFossil
          samplePartialCommit =
        some (w2, Call.commitFiles files
          (samplePartialCommit ["a/y.txt".toList, "x.txt".toList]).message :: tail)
      ∧ (∀ c ∈ tail, ∀ fs m, c ≠ Call.commitFiles fs m)
      ∧ (files = [] ↔
          ∀ f ∈ (sampleWindow [] [] true).getAllFilenames [] sampleEnv.TYPE_MODIFIED,
            f ∈ (samplePartialCommit ["a/y.txt".toList, "x.txt".toList]).files)
      ∧ (files ≠ [] → files = (samplePartialCommit ["a/y.txt".toList, "x.txt".toList]).files) :=
  ⟨by decide,
    commit_passes_files_for_partial_selection sampleEnv sampleFossil samplePartialCommit
      (sampleWindow [] [] true) ["a/y.txt".toList, "x.txt".toList] (by decide) (by decide)
      (by decide) (by decide) (by decide) (by decide) (by decide)⟩

end Fuel
